import Mathlib

/-!
Shallow embedding of the algorithmic core of `src/PathfindingVisualizer.jsx`:
the binary min-heap, the Dijkstra tracer, the Bellman-Ford tracer, the
`runAlgorithm` guard, the edge-authoring validator (`handleWeightSubmit`) and
the canvas graph-model operations (`handleCanvasMouseDown`).

Conventions of the embedding:
* JS node ids are strings (`NodeId := String`).
* Numeric distances with the `Infinity` sentinel are `WithTop ℤ` (`⊤` plays
  the role of `Infinity`; JS arithmetic `Infinity + w = Infinity` and the
  comparisons `x < Infinity`, `Infinity < x` agree with the `WithTop` order).
  Edge weights come from `parseInt` and are integers.
* The JS objects `distances` / `previous` are total maps `NodeId → _`;
  snapshots (`{...distances}`) are pure-function copies, which is exact.
* Edge keys `` `${from}-${to}` `` are represented as ordered pairs
  `(from, to)`; human-readable `message` strings are not modelled.
* JS `while` loops become structurally recursive functions with an explicit
  fuel argument; the fuel chosen at each call site is proved sufficient by
  the loop-measure hypotheses of the theorems below, so within every
  hypothesis-satisfying run the fuel-exhaustion branch is never taken.
-/

/-- Node identifiers (JS strings such as `"N0"`). -/
abbrev NodeId := String

/-- A graph node. Only the `id` matters to the algorithmic core; canvas
coordinates are owned by the renderer. -/
structure Node where
  id : NodeId
deriving DecidableEq, Repr

/-- A directed weighted edge. `fromId`/`toId` embed the JS fields
`from`/`to` (`from` is a Lean keyword). -/
structure Edge where
  fromId : NodeId
  toId : NodeId
  weight : ℤ
deriving DecidableEq, Repr

/-- A JS number used as a distance: a finite integer or `Infinity` (`⊤`). -/
abbrev DVal := WithTop ℤ

/-- One entry of the binary min-heap: `{ node, priority }`. -/
structure HeapEntry where
  node : NodeId
  priority : DVal
deriving DecidableEq, Repr

/-- The heap's backing array, root at index 0. -/
abbrev Heap := List HeapEntry

/-- Array indexing `this.heap[i]`; out-of-range reads never happen on the
executed paths, the default entry is arbitrary. -/
def MinHeap.ent (h : Heap) (i : ℕ) : HeapEntry :=
  h.getD i ⟨"", ⊤⟩

/-- The destructuring swap
`[this.heap[i], this.heap[j]] = [this.heap[j], this.heap[i]]`. -/
def MinHeap.swap (h : Heap) (i j : ℕ) : Heap :=
  (h.set i (MinHeap.ent h j)).set j (MinHeap.ent h i)

/-- `bubbleUp(index)`: sift the entry at `index` up while it beats its
parent. The JS `while (index > 0)` loop moves `index` to
`⌊(index-1)/2⌋ < index` each round, so `fuel := index` rounds always
suffice (every caller passes exactly that). -/
def MinHeap.bubbleUp : ℕ → Heap → ℕ → Heap
  | _, h, 0 => h
  | 0, h, _ + 1 => h
  | fuel + 1, h, i + 1 =>
    if (MinHeap.ent h (i / 2)).priority ≤ (MinHeap.ent h (i + 1)).priority then h
    else MinHeap.bubbleUp fuel (MinHeap.swap h (i / 2) (i + 1)) (i / 2)

/-- `push(node, priority)`: append, then sift up from the last index. -/
def MinHeap.push (h : Heap) (node : NodeId) (priority : DVal) : Heap :=
  MinHeap.bubbleUp h.length (h ++ [⟨node, priority⟩]) h.length

/-- The `smallest` variable of one `bubbleDown` round after the left-child
test: move to the left child if it is in range and strictly smaller. -/
def MinHeap.smallest1 (h : Heap) (i : ℕ) : ℕ :=
  if 2 * i + 1 < h.length ∧ (MinHeap.ent h (2 * i + 1)).priority < (MinHeap.ent h i).priority then
    2 * i + 1
  else i

/-- The `smallest` variable of one `bubbleDown` round after both child
tests: move further to the right child if it is in range and strictly
smaller still. -/
def MinHeap.smallestIdx (h : Heap) (i : ℕ) : ℕ :=
  if 2 * i + 2 < h.length ∧
      (MinHeap.ent h (2 * i + 2)).priority < (MinHeap.ent h (MinHeap.smallest1 h i)).priority then
    2 * i + 2
  else MinHeap.smallest1 h i

/-- `bubbleDown(index)`: sift the entry at `index` down towards the smaller
child. Each round moves `index` to a child `> index` and `< length`, so
`fuel := length - index` rounds always suffice (callers pass `length`). -/
def MinHeap.bubbleDown : ℕ → Heap → ℕ → Heap
  | 0, h, _ => h
  | fuel + 1, h, i =>
    let s2 := MinHeap.smallestIdx h i
    if s2 = i then h else MinHeap.bubbleDown fuel (MinHeap.swap h s2 i) s2

/-- `pop()`: `null` on an empty heap; otherwise remove the root, move the
last entry to the root and sift it down. Returns the popped entry together
with the remaining heap. -/
def MinHeap.pop : Heap → Option (HeapEntry × Heap)
  | [] => none
  | [e] => some (e, [])
  | e :: f :: t =>
    let h := e :: f :: t
    let body := (h.dropLast).set 0 (MinHeap.ent h (h.length - 1))
    some (e, MinHeap.bubbleDown body.length body 0)

/-- `getAll()`: every entry as a `(node, distance)` pair. -/
def MinHeap.getAll (h : Heap) : List (NodeId × DVal) :=
  h.map fun it => (it.node, it.priority)

/-- `isEmpty()`. -/
def MinHeap.isEmpty (h : Heap) : Bool :=
  h.length = 0

/-- The closed set of step kinds (`type:` tags) either tracer emits. -/
inductive StepTag
  | init
  | extract
  | update
  | noUpdate
  | skip
  | iterationStart
  | iterationEnd
  | showEdges
  | negativeCycle
  | complete
deriving DecidableEq, Repr

/-- One immutable snapshot pushed onto `steps`. The JS objects are loosely
shaped; fields a given tag does not set keep their defaults. The
`iteration-end` steps store a boolean in the JS field `updated`, embedded
here as the separate field `updatedFlag`; `message` strings and the
stringified edge list of `show-edges` (kept structurally in `edgesShown`)
carry no further data. -/
structure Step where
  tag : StepTag
  distances : NodeId → DVal
  previous : NodeId → Option NodeId
  current : Option NodeId := none
  permanent : List (NodeId × DVal) := []
  tentative : List (NodeId × DVal) := []
  neighbors : List NodeId := []
  activeEdges : List (NodeId × NodeId) := []
  updated : Option NodeId := none
  updatedFlag : Bool := false
  iteration : ℕ := 0
  edge : Option Edge := none
  edgeNumber : ℕ := 0
  edgesShown : List Edge := []
  path : List NodeId := []

/-- The Dijkstra tracer's working state: the evolving maps, the permanent
set (a JS `Set`, kept in insertion order as `Array.from` iterates it), the
min-heap and the emitted steps. -/
structure DState where
  dmap : NodeId → DVal
  pmap : NodeId → Option NodeId
  perm : List NodeId
  heap : Heap
  steps : List Step

/-- The `neighbors.forEach(({to, weight}) => ...)` relaxation loop of the
Dijkstra tracer: for each non-permanent neighbor, compare
`alt = distances[current] + weight` with `distances[to]`, updating the maps
and pushing on improvement (emitting `update`), otherwise emitting
`no-update` (which snapshots the stale `tentativeArray` captured at
extract time, exactly as the JS closure does). -/
def relaxAll (current : NodeId) (permanentArray tentativeArray : List (NodeId × DVal)) :
    List (NodeId × ℤ) → DState → DState
  | [], st => st
  | (tgt, weight) :: rest, st =>
    if tgt ∈ st.perm then
      relaxAll current permanentArray tentativeArray rest st
    else
      let alt := st.dmap current + (weight : DVal)
      if alt < st.dmap tgt then
        let dmap' := Function.update st.dmap tgt alt
        let pmap' := Function.update st.pmap tgt (some current)
        let heap' := MinHeap.push st.heap tgt alt
        let step : Step :=
          { tag := .update, distances := dmap', previous := pmap', current := some current,
            permanent := permanentArray, tentative := MinHeap.getAll heap',
            updated := some tgt, activeEdges := [(current, tgt)] }
        relaxAll current permanentArray tentativeArray rest
          { dmap := dmap', pmap := pmap', perm := st.perm, heap := heap',
            steps := st.steps ++ [step] }
      else
        let step : Step :=
          { tag := .noUpdate, distances := st.dmap, previous := st.pmap, current := some current,
            permanent := permanentArray, tentative := tentativeArray,
            activeEdges := [(current, tgt)] }
        relaxAll current permanentArray tentativeArray rest
          { st with steps := st.steps ++ [step] }

/-- The Dijkstra main loop `while (!minHeap.isEmpty())`. Every round pops
one entry; a stale pop (node already permanent) just continues, a fresh pop
finalizes the node, emits `extract`, breaks on the destination and
otherwise relaxes the outgoing edges. Each round strictly decreases
`heap.length + #(edges whose source is not yet permanent)`, so the fuel
chosen by `dijkstraRun` is never exhausted. -/
def dijkstraLoop (edges : List Edge) (dest : NodeId) : ℕ → DState → DState
  | 0, st => st
  | fuel + 1, st =>
    match MinHeap.pop st.heap with
    | none => st
    | some (entry, rest) =>
      if entry.node ∈ st.perm then
        dijkstraLoop edges dest fuel { st with heap := rest }
      else
        let current := entry.node
        let perm' := st.perm ++ [current]
        let permanentArray := perm'.map fun nodeId => (nodeId, st.dmap nodeId)
        let tentativeArray := MinHeap.getAll rest
        let neighbors := (edges.filter fun e => e.fromId = current).map fun e => (e.toId, e.weight)
        let exploringEdges :=
          (edges.filter fun e => e.fromId = current ∧ e.toId ∉ perm').map fun e => (e.fromId, e.toId)
        let extractStep : Step :=
          { tag := .extract, distances := st.dmap, previous := st.pmap, current := some current,
            permanent := permanentArray, tentative := tentativeArray,
            neighbors := neighbors.map Prod.fst, activeEdges := exploringEdges }
        let st1 : DState :=
          { st with perm := perm', heap := rest, steps := st.steps ++ [extractStep] }
        if current = dest then st1
        else dijkstraLoop edges dest fuel (relaxAll current permanentArray tentativeArray neighbors st1)

/-- Path reconstruction `while (curr !== null) { path.unshift(curr); curr = previous[curr]; }`,
returning the visit order (so the JS `path` is its reverse). The fuel
`nodes.length + 1` used by both tracers is proved sufficient below: on the
runs that reconstruct a path the predecessor map is acyclic. -/
def chainFrom (previous : NodeId → Option NodeId) : ℕ → Option NodeId → List NodeId
  | _, none => []
  | 0, some _ => []
  | fuel + 1, some c => c :: chainFrom previous fuel (previous c)

/-- The `pathEdges` loop: consecutive ordered pairs of a node list. -/
def pairsOf : List NodeId → List (NodeId × NodeId)
  | [] => []
  | [_] => []
  | a :: b :: rest => (a, b) :: pairsOf (b :: rest)

/-- The initial `distances` map: `Infinity` everywhere, then
`distances[source] = 0`. -/
def initDmap (source : NodeId) : NodeId → DVal :=
  Function.update (fun _ => (⊤ : DVal)) source ((0 : ℤ) : DVal)

/-- The state of the Dijkstra tracer after its main loop: initialization,
`init` step, seeded heap, then the loop. The loop fuel `edges.length + 2`
exceeds the loop measure `heap.length + #edges = 1 + edges.length` of the
initial state. -/
def dijkstraRun (nodes : List Node) (edges : List Edge) (source dest : NodeId) : DState :=
  let dmap0 := initDmap source
  let pmap0 : NodeId → Option NodeId := fun _ => none
  let heap0 := MinHeap.push [] source ((0 : ℤ) : DVal)
  let initStep : Step :=
    { tag := .init, distances := dmap0, previous := pmap0,
      tentative := [(source, ((0 : ℤ) : DVal))], activeEdges := [] }
  dijkstraLoop edges dest (edges.length + 2)
    { dmap := dmap0, pmap := pmap0, perm := [], heap := heap0, steps := [initStep] }

/-- The terminal `complete` step of the Dijkstra tracer: reconstructed path
(empty when the destination is unreached), its edges, and the final
permanent set with distances. -/
def dijkstraCompleteStep (nodes : List Node) (dest : NodeId) (st : DState) : Step :=
  let path := (chainFrom st.pmap (nodes.length + 1) (some dest)).reverse
  let pathEdges := pairsOf path
  let finalPermanent := st.perm.map fun nodeId => (nodeId, st.dmap nodeId)
  { tag := .complete, distances := st.dmap, previous := st.pmap,
    path := if st.dmap dest ≠ ⊤ then path else [],
    permanent := finalPermanent, tentative := [], activeEdges := pathEdges }

/-- The full step sequence returned by `dijkstra(nodes, edges, source, dest)`. -/
def dijkstraSteps (nodes : List Node) (edges : List Edge) (source dest : NodeId) : List Step :=
  let st := dijkstraRun nodes edges source dest
  st.steps ++ [dijkstraCompleteStep nodes dest st]

/-- The Bellman-Ford tracer's working state. -/
structure BFState where
  dmap : NodeId → DVal
  pmap : NodeId → Option NodeId
  steps : List Step

/-- One full `edges.forEach((edge, edgeIndex) => ...)` relaxation pass of
Bellman-Ford at iteration `iter`, threading the `updated` flag: relaxable
edges update the maps (`update`), edges from unreached sources emit `skip`,
the rest emit `no-update`. -/
def bfScan (iter : ℕ) : List (ℕ × Edge) → BFState × Bool → BFState × Bool
  | [], acc => acc
  | (edgeIndex, edge) :: rest, (st, updated) =>
    if st.dmap edge.fromId ≠ ⊤ then
      let alt := st.dmap edge.fromId + (edge.weight : DVal)
      if alt < st.dmap edge.toId then
        let dmap' := Function.update st.dmap edge.toId alt
        let pmap' := Function.update st.pmap edge.toId (some edge.fromId)
        let step : Step :=
          { tag := .update, distances := dmap', previous := pmap', iteration := iter,
            edge := some edge, edgeNumber := edgeIndex + 1,
            activeEdges := [(edge.fromId, edge.toId)] }
        bfScan iter rest
          ({ dmap := dmap', pmap := pmap', steps := st.steps ++ [step] }, true)
      else
        let step : Step :=
          { tag := .noUpdate, distances := st.dmap, previous := st.pmap, iteration := iter,
            edge := some edge, edgeNumber := edgeIndex + 1,
            activeEdges := [(edge.fromId, edge.toId)] }
        bfScan iter rest ({ st with steps := st.steps ++ [step] }, updated)
    else
      let step : Step :=
        { tag := .skip, distances := st.dmap, previous := st.pmap, iteration := iter,
          edge := some edge, edgeNumber := edgeIndex + 1,
          activeEdges := [(edge.fromId, edge.toId)] }
      bfScan iter rest ({ st with steps := st.steps ++ [step] }, updated)

/-- The pass loop `for (let i = 0; i < nodes.length - 1; i++)` with early
termination when a pass changes nothing: `k` counts the remaining passes,
`i` the passes already done (so the emitted iteration number is `i + 1`). -/
def bfPasses (edges : List Edge) : ℕ → ℕ → BFState → BFState
  | 0, _, st => st
  | k + 1, i, st =>
    let st1 : BFState :=
      { st with steps := st.steps ++
          [{ tag := .iterationStart, distances := st.dmap, previous := st.pmap, iteration := i + 1 }] }
    let scanned := bfScan (i + 1) edges.enum (st1, false)
    let st3 : BFState :=
      { scanned.1 with steps := scanned.1.steps ++
          [{ tag := .iterationEnd, distances := scanned.1.dmap, previous := scanned.1.pmap,
             iteration := i + 1, updatedFlag := scanned.2 }] }
    if scanned.2 then bfPasses edges k (i + 1) st3 else st3

/-- The final `edges.forEach` scan for negative cycles: the flag records
whether some edge is still relaxable and the second component the last
such edge. -/
def bfNegCheck (edges : List Edge) (dmap : NodeId → DVal) : Bool × Option Edge :=
  edges.foldl
    (fun acc e =>
      if dmap e.fromId ≠ ⊤ ∧ dmap e.fromId + (e.weight : DVal) < dmap e.toId then (true, some e)
      else acc)
    (false, none)

/-- The full Bellman-Ford tracer: `show-edges` and `init` steps, up to
`|V| - 1` relaxation passes, the negative-cycle check, then either the
terminal `negative-cycle` step (second component `true`) or path
reconstruction and the terminal `complete` step. -/
def bellmanFordRun (nodes : List Node) (edges : List Edge) (source dest : NodeId) :
    BFState × Bool :=
  let dmap0 := initDmap source
  let pmap0 : NodeId → Option NodeId := fun _ => none
  let showStep : Step :=
    { tag := .showEdges, distances := dmap0, previous := pmap0, iteration := 0,
      edgesShown := edges }
  let initStep : Step :=
    { tag := .init, distances := dmap0, previous := pmap0, iteration := 0 }
  let st0 : BFState := { dmap := dmap0, pmap := pmap0, steps := [showStep, initStep] }
  let stF := bfPasses edges (nodes.length - 1) 0 st0
  let chk := bfNegCheck edges stF.dmap
  if chk.1 then
    ({ stF with steps := stF.steps ++
        [{ tag := .negativeCycle, distances := stF.dmap, previous := stF.pmap,
           activeEdges := (chk.2.map fun e => (e.fromId, e.toId)).toList }] }, true)
  else
    let path := (chainFrom stF.pmap (nodes.length + 1) (some dest)).reverse
    ({ stF with steps := stF.steps ++
        [{ tag := .complete, distances := stF.dmap, previous := stF.pmap,
           path := if stF.dmap dest ≠ ⊤ then path else [],
           activeEdges := pairsOf path }] }, false)

/-- The step sequence returned by `bellmanFord(nodes, edges, source, dest)`. -/
def bellmanFordSteps (nodes : List Node) (edges : List Edge) (source dest : NodeId) :
    List Step :=
  (bellmanFordRun nodes edges source dest).1.steps

/-- The algorithm selector. -/
inductive Algorithm
  | dijkstra
  | bellmanFord
deriving DecidableEq, Repr

/-- `runAlgorithm()`: refuse (toast, no steps) unless a source node, a
destination node and at least one edge are present; otherwise run the
selected tracer. `none` models the refusal. -/
def runAlgorithm (nodes : List Node) (edges : List Edge)
    (sourceNode destNode : Option NodeId) (algorithm : Algorithm) : Option (List Step) :=
  match sourceNode, destNode with
  | some s, some d =>
    if edges.length = 0 then none
    else some (match algorithm with
      | .dijkstra => dijkstraSteps nodes edges s d
      | .bellmanFord => bellmanFordSteps nodes edges s d)
  | _, _ => none

/-- Direction choice of the edge-authoring modal. -/
inductive EdgeDirection
  | uni
  | bi
deriving DecidableEq, Repr

/-- `handleWeightSubmit`: `weight?` is the result of `parseInt(weightInput)`
(`none` for `NaN`). A negative weight under Dijkstra raises the error toast
(second component `true`) and inserts nothing; `if (weight && pendingEdge)`
inserts one or two edges only when the parsed weight is truthy, i.e.
defined and nonzero. -/
def handleWeightSubmit (algorithm : Algorithm) (weight? : Option ℤ)
    (direction : EdgeDirection) (pendingEdge : Option (NodeId × NodeId))
    (edges : List Edge) : List Edge × Bool :=
  match weight? with
  | none => (edges, false)
  | some w =>
    if algorithm = .dijkstra ∧ w < 0 then (edges, true)
    else
      match pendingEdge with
      | some (f, t) =>
        if w ≠ 0 then
          (if direction = .uni then edges ++ [⟨f, t, w⟩]
           else edges ++ [⟨f, t, w⟩, ⟨t, f, w⟩], false)
        else (edges, false)
      | none => (edges, false)

/-- The id `handleCanvasMouseDown` gives a newly added node:
`` `N${nodes.length}` ``. -/
def newNodeId (nodes : List Node) : NodeId :=
  "N" ++ toString nodes.length

/-- Graph-model mutations performed by the canvas handler. -/
inductive CanvasOp
  | addNode
  | deleteNode (id : NodeId)
  | addEdge (e : Edge)
deriving DecidableEq, Repr

/-- One canvas mutation on `(nodes, edges)`: adding a node appends
`{ id: newNodeId }`; deleting a node cascades to both endpoints' edges. -/
def applyOp : List Node × List Edge → CanvasOp → List Node × List Edge
  | (nodes, edges), .addNode => (nodes ++ [⟨newNodeId nodes⟩], edges)
  | (nodes, edges), .deleteNode i =>
    (nodes.filter fun n => n.id ≠ i, edges.filter fun e => e.fromId ≠ i ∧ e.toId ≠ i)
  | (nodes, edges), .addEdge e => (nodes, edges ++ [e])

/-- A sequence of canvas mutations starting from the empty graph. -/
def applyOps (ops : List CanvasOp) : List Node × List Edge :=
  ops.foldl applyOp ([], [])

/-- A walk in the edge list `edges` from `u` to `v` along the listed edges. -/
def IsWalk (edges : List Edge) : NodeId → List Edge → NodeId → Prop
  | u, [], v => u = v
  | u, e :: es, v => e ∈ edges ∧ e.fromId = u ∧ IsWalk edges e.toId es v

instance IsWalk.instDecidable (edges : List Edge) :
    ∀ (u : NodeId) (es : List Edge) (v : NodeId), Decidable (IsWalk edges u es v)
  | u, [], v => inferInstanceAs (Decidable (u = v))
  | u, e :: es, v =>
    have := IsWalk.instDecidable edges e.toId es v
    inferInstanceAs (Decidable (_ ∧ _ ∧ _))

/-- Total weight of a walk. -/
def walkWeight (es : List Edge) : ℤ :=
  (es.map Edge.weight).sum

/-- `d` is the minimum total edge weight over all walks from `source` to
`v` in `edges`, with `⊤` meaning no walk exists: the wording of the spec's
"distance equal to the minimum total edge weight over all paths from the
source, or Infinity if no such path exists". -/
def IsMinDist (edges : List Edge) (source v : NodeId) (d : DVal) : Prop :=
  (∀ es, IsWalk edges source es v → d ≤ (walkWeight es : DVal)) ∧
    (d ≠ ⊤ → ∃ es, IsWalk edges source es v ∧ d = (walkWeight es : DVal))

/-- Some node of `edges` reachable from `source` lies on a cycle of
negative total weight. -/
def NegCycleReachable (edges : List Edge) (source : NodeId) : Prop :=
  ∃ v es₀ es, IsWalk edges source es₀ v ∧ es ≠ [] ∧ IsWalk edges v es v ∧ walkWeight es < 0

/-- Iterating the predecessor map: `pIterO p n c` follows `previous` for
`n` steps starting at `c` (`none` once the chain has ended). The JS
reconstruction loop terminates exactly when some iterate reaches `none`. -/
def pIterO (p : NodeId → Option NodeId) : ℕ → Option NodeId → Option NodeId
  | 0, c => c
  | _ + 1, none => none
  | n + 1, some x => pIterO p n (p x)

/-- Well-formed graph input as the spec's Graph invariant demands: every
edge endpoint names a present node. -/
def EdgesWf (nodes : List Node) (edges : List Edge) : Prop :=
  ∀ e ∈ edges, e.fromId ∈ nodes.map Node.id ∧ e.toId ∈ nodes.map Node.id

/-- All edge weights are non-negative (Dijkstra's precondition). -/
def NonnegWeights (edges : List Edge) : Prop :=
  ∀ e ∈ edges, 0 ≤ e.weight

/-- Priority stored at index `i`. -/
def heapPri (h : Heap) (i : ℕ) : DVal :=
  (MinHeap.ent h i).priority

/-- The binary-heap shape invariant: every parent's priority is at most its
children's. -/
def IsHeap (h : Heap) : Prop :=
  ∀ i j, (j = 2 * i + 1 ∨ j = 2 * i + 2) → j < h.length → heapPri h i ≤ heapPri h j

/-- Heap shape with one possible violation: the entry at `idx` may beat its
parent, but `idx`'s own children are still dominated by `idx`'s parent.
This is what `bubbleUp` maintains while sifting up. -/
def NearHeapUp (h : Heap) (idx : ℕ) : Prop :=
  (∀ i j, (j = 2 * i + 1 ∨ j = 2 * i + 2) → j < h.length → j ≠ idx → heapPri h i ≤ heapPri h j) ∧
  (∀ j, (j = 2 * idx + 1 ∨ j = 2 * idx + 2) → j < h.length → 0 < idx →
    heapPri h ((idx - 1) / 2) ≤ heapPri h j)

/-- Heap shape with one possible violation: the entry at `idx` may lose to
its children, but `idx`'s children are still dominated by `idx`'s parent.
This is what `bubbleDown` maintains while sifting down. -/
def NearHeapDown (h : Heap) (idx : ℕ) : Prop :=
  (∀ i j, (j = 2 * i + 1 ∨ j = 2 * i + 2) → j < h.length → i ≠ idx → heapPri h i ≤ heapPri h j) ∧
  (∀ j, (j = 2 * idx + 1 ∨ j = 2 * idx + 2) → j < h.length → 0 < idx →
    heapPri h ((idx - 1) / 2) ≤ heapPri h j)

/-- A heap built from the empty queue by the given sequence of
`push(node, priority)` calls. -/
def fromPushes (l : List (NodeId × DVal)) : Heap :=
  l.foldl (fun h np => MinHeap.push h np.1 np.2) []

/-- The loop measure of the Dijkstra main loop: every round strictly
decreases the heap size plus the number of edges leaving not-yet-permanent
nodes, which is why the fuel `edges.length + 2` chosen by `dijkstraRun`
suffices. -/
def dMeasure (edges : List Edge) (st : DState) : ℕ :=
  st.heap.length + (edges.filter fun e => e.fromId ∉ st.perm).length

/-- The Dijkstra tracer's loop invariant (for a graph with non-negative
weights): the heap is shape-correct with finite priorities that
over-approximate the recorded distances, every non-permanent node with a
recorded distance has a matching heap entry, every recorded distance is
attained by an actual walk and is non-negative, the source stays at 0,
every permanent node's distance is optimal, and every edge out of a
permanent node has been relaxed. -/
structure DCore (edges : List Edge) (source : NodeId) (st : DState) : Prop where
  hheap : IsHeap st.heap
  hfin : ∀ x ∈ st.heap, x.priority ≠ ⊤
  hentries : ∀ x ∈ st.heap, st.dmap x.node ≤ x.priority
  htent : ∀ v, v ∉ st.perm → st.dmap v ≠ ⊤ → (⟨v, st.dmap v⟩ : HeapEntry) ∈ st.heap
  hreach : ∀ v, st.dmap v ≠ ⊤ →
    ∃ es, IsWalk edges source es v ∧ st.dmap v = (walkWeight es : DVal)
  hnonneg : ∀ v, (0 : DVal) ≤ st.dmap v
  hsrc : st.dmap source = (0 : DVal)

/-- The full loop invariant: the core facts plus optimality of the
permanent set and relaxedness of every edge out of it. -/
structure DInv (edges : List Edge) (source : NodeId) (st : DState)
    extends DCore edges source st : Prop where
  hopt : ∀ v ∈ st.perm, IsMinDist edges source v (st.dmap v)
  hfrontier : ∀ u ∈ st.perm, ∀ e ∈ edges, e.fromId = u →
    st.dmap e.toId ≤ st.dmap u + (e.weight : DVal)

/-- The outgoing-neighbor list `(to, weight)` that the Dijkstra tracer
builds for the freshly extracted `current` node. -/
def neighborsOf (edges : List Edge) (current : NodeId) : List (NodeId × ℤ) :=
  (edges.filter fun e => e.fromId = current).map fun e => (e.toId, e.weight)

/-- The state right after a fresh `extract` of `entry` (with popped
remainder `rest`): `entry.node` joins the permanent set, the heap drops
the popped entry, and the `extract` step is appended. `dijkstraLoop`
continues from this state, or stops here when `entry.node` is the
destination. -/
def extractState (edges : List Edge) (st : DState) (entry : HeapEntry) (rest : Heap) : DState :=
  let current := entry.node
  let perm' := st.perm ++ [current]
  let permanentArray := perm'.map fun nodeId => (nodeId, st.dmap nodeId)
  let tentativeArray := MinHeap.getAll rest
  let neighbors := neighborsOf edges current
  let exploringEdges :=
    (edges.filter fun e => e.fromId = current ∧ e.toId ∉ perm').map fun e => (e.fromId, e.toId)
  let extractStep : Step :=
    { tag := .extract, distances := st.dmap, previous := st.pmap, current := some current,
      permanent := permanentArray, tentative := tentativeArray,
      neighbors := neighbors.map Prod.fst, activeEdges := exploringEdges }
  { st with perm := perm', heap := rest, steps := st.steps ++ [extractStep] }

/-- Every permanent node's recorded distance is optimal. -/
def DOpt (edges : List Edge) (source : NodeId) (st : DState) : Prop :=
  ∀ v ∈ st.perm, IsMinDist edges source v (st.dmap v)

/-- Every edge out of a permanent node has been relaxed. -/
def DFrontier (edges : List Edge) (st : DState) : Prop :=
  ∀ u ∈ st.perm, ∀ e ∈ edges, e.fromId = u →
    st.dmap e.toId ≤ st.dmap u + (e.weight : DVal)

/-- `dmap` is stable under one more relaxation sweep: exactly the property
the final `bfNegCheck` scan tests (flag `false`). -/
def Fixpoint (edges : List Edge) (dmap : NodeId → DVal) : Prop :=
  ∀ e ∈ edges, dmap e.fromId ≠ ⊤ → dmap e.toId ≤ dmap e.fromId + (e.weight : DVal)

/-! ## Theorems -/

theorem getD_set_self {α : Type} : ∀ (l : List α) (i : ℕ) (a d : α), i < l.length →
    (l.set i a).getD i d = a
  | _ :: _, 0, _, _, _ => rfl
  | _ :: t, i + 1, a, d, hi => getD_set_self t i a d (by simpa using hi)

theorem getD_set_ne {α : Type} : ∀ (l : List α) (i j : ℕ) (a d : α), i ≠ j →
    (l.set i a).getD j d = l.getD j d
  | [], _, _, _, _, _ => rfl
  | _ :: _, 0, 0, _, _, hij => absurd rfl hij
  | _ :: _, 0, _ + 1, _, _, _ => rfl
  | _ :: _, _ + 1, 0, _, _, _ => rfl
  | _ :: t, i + 1, j + 1, a, d, hij => getD_set_ne t i j a d (fun h => hij (by omega))

theorem getD_append_lt {α : Type} : ∀ (l l' : List α) (i : ℕ) (d : α), i < l.length →
    (l ++ l').getD i d = l.getD i d
  | _ :: _, _, 0, _, _ => rfl
  | _ :: t, l', i + 1, d, hi => getD_append_lt t l' i d (by simpa using hi)
  | [], _, i, _, hi => by simp at hi

theorem getD_append_len {α : Type} : ∀ (l : List α) (a d : α),
    (l ++ [a]).getD l.length d = a
  | [], _, _ => rfl
  | _ :: t, a, d => getD_append_len t a d

theorem set_getD_self {α : Type} : ∀ (l : List α) (i : ℕ) (d : α), i < l.length →
    l.set i (l.getD i d) = l
  | _ :: _, 0, _, _ => rfl
  | b :: t, i + 1, d, hi => by
    simpa using set_getD_self t i d (by simpa using hi)

theorem cons_set_perm {α : Type} : ∀ (l : List α) (k : ℕ) (a d : α), k < l.length →
    List.Perm (l.getD k d :: l.set k a) (a :: l)
  | b :: t, 0, a, d, _ => List.Perm.swap a b t
  | b :: t, k + 1, a, d, hk =>
    (List.Perm.swap b (t.getD k d) (t.set k a)).trans
      (((cons_set_perm t k a d (by simpa using hk)).cons b).trans (List.Perm.swap a b t))

theorem length_swap (h : Heap) (i j : ℕ) : (MinHeap.swap h i j).length = h.length := by
  simp [MinHeap.swap]

theorem ent_swap_fst (h : Heap) (i j : ℕ) (hi : i < h.length) (hj : j < h.length) :
    MinHeap.ent (MinHeap.swap h i j) i = MinHeap.ent h j := by
  unfold MinHeap.swap MinHeap.ent
  by_cases hij : i = j
  · subst hij
    rw [getD_set_self _ _ _ _ (by simpa using hi)]
  · rw [getD_set_ne _ _ _ _ _ (Ne.symm hij), getD_set_self _ _ _ _ hi]

theorem ent_swap_snd (h : Heap) (i j : ℕ) (hj : j < h.length) :
    MinHeap.ent (MinHeap.swap h i j) j = MinHeap.ent h i := by
  unfold MinHeap.swap MinHeap.ent
  rw [getD_set_self _ _ _ _ (by simpa using hj)]

theorem ent_swap_other (h : Heap) (i j k : ℕ) (hki : k ≠ i) (hkj : k ≠ j) :
    MinHeap.ent (MinHeap.swap h i j) k = MinHeap.ent h k := by
  unfold MinHeap.swap MinHeap.ent
  rw [getD_set_ne _ _ _ _ _ (Ne.symm hkj), getD_set_ne _ _ _ _ _ (Ne.symm hki)]

theorem swap_perm : ∀ (h : Heap) (i j : ℕ), i < h.length → j < h.length →
    List.Perm (MinHeap.swap h i j) h
  | a :: t, 0, 0, _, _ => by
    unfold MinHeap.swap MinHeap.ent
    simpa using List.Perm.refl _
  | a :: t, 0, j + 1, _, hj => by
    unfold MinHeap.swap MinHeap.ent
    simpa using cons_set_perm t j a _ (by simpa using hj)
  | a :: t, i + 1, 0, hi, _ => by
    unfold MinHeap.swap MinHeap.ent
    simpa using cons_set_perm t i a _ (by simpa using hi)
  | a :: t, i + 1, j + 1, hi, hj => by
    have ih := swap_perm t i j (by simpa using hi) (by simpa using hj)
    unfold MinHeap.swap MinHeap.ent at ih ⊢
    simpa using ih.cons a

theorem length_bubbleUp : ∀ (fuel : ℕ) (h : Heap) (i : ℕ),
    (MinHeap.bubbleUp fuel h i).length = h.length
  | 0, _, 0 => rfl
  | _ + 1, _, 0 => rfl
  | 0, _, _ + 1 => rfl
  | fuel + 1, h, i + 1 => by
    rw [MinHeap.bubbleUp]
    split
    · rfl
    · rw [length_bubbleUp fuel _ _, length_swap]

theorem bubbleUp_perm : ∀ (fuel : ℕ) (h : Heap) (i : ℕ), i < h.length →
    List.Perm (MinHeap.bubbleUp fuel h i) h
  | 0, _, 0, _ => List.Perm.refl _
  | _ + 1, _, 0, _ => List.Perm.refl _
  | 0, _, _ + 1, _ => List.Perm.refl _
  | fuel + 1, h, i + 1, hi => by
    rw [MinHeap.bubbleUp]
    split
    · exact List.Perm.refl _
    · have h1 : i / 2 < (MinHeap.swap h (i / 2) (i + 1)).length := by
        rw [length_swap]; omega
      exact (bubbleUp_perm fuel _ (i / 2) h1).trans
        (swap_perm h (i / 2) (i + 1) (by omega) hi)

theorem smallest1_spec (h : Heap) (i : ℕ) :
    (MinHeap.smallest1 h i = i ∧
      (2 * i + 1 < h.length → heapPri h i ≤ heapPri h (2 * i + 1))) ∨
    (MinHeap.smallest1 h i = 2 * i + 1 ∧ 2 * i + 1 < h.length ∧
      heapPri h (2 * i + 1) < heapPri h i) := by
  unfold MinHeap.smallest1 heapPri
  split
  · next hc => exact Or.inr ⟨rfl, hc.1, hc.2⟩
  · next hc =>
    rw [not_and_or] at hc
    refine Or.inl ⟨rfl, fun hl => ?_⟩
    rcases hc with hc | hc
    · omega
    · exact le_of_not_lt hc

theorem smallestIdx_spec (h : Heap) (i : ℕ) :
    (MinHeap.smallestIdx h i = MinHeap.smallest1 h i ∧
      (2 * i + 2 < h.length →
        heapPri h (MinHeap.smallest1 h i) ≤ heapPri h (2 * i + 2))) ∨
    (MinHeap.smallestIdx h i = 2 * i + 2 ∧ 2 * i + 2 < h.length ∧
      heapPri h (2 * i + 2) < heapPri h (MinHeap.smallest1 h i)) := by
  unfold MinHeap.smallestIdx heapPri
  split
  · next hc => exact Or.inr ⟨rfl, hc.1, hc.2⟩
  · next hc =>
    rw [not_and_or] at hc
    refine Or.inl ⟨rfl, fun hr => ?_⟩
    rcases hc with hc | hc
    · omega
    · exact le_of_not_lt hc

theorem smallestIdx_cases (h : Heap) (i : ℕ) :
    MinHeap.smallestIdx h i = i ∨
      (MinHeap.smallestIdx h i = 2 * i + 1 ∨ MinHeap.smallestIdx h i = 2 * i + 2) := by
  rcases smallestIdx_spec h i with ⟨hs, -⟩ | ⟨hs, -⟩
  · rcases smallest1_spec h i with ⟨h1, -⟩ | ⟨h1, -⟩
    · exact Or.inl (hs.trans h1)
    · exact Or.inr (Or.inl (hs.trans h1))
  · exact Or.inr (Or.inr hs)

theorem smallestIdx_lt_length (h : Heap) (i : ℕ) (hi : i < h.length) :
    MinHeap.smallestIdx h i < h.length := by
  rcases smallestIdx_spec h i with ⟨hs, -⟩ | ⟨hs, hr, -⟩
  · rcases smallest1_spec h i with ⟨h1, -⟩ | ⟨h1, hl, -⟩
    · omega
    · omega
  · omega

theorem smallestIdx_pri_lt (h : Heap) (i : ℕ) (hne : MinHeap.smallestIdx h i ≠ i) :
    heapPri h (MinHeap.smallestIdx h i) < heapPri h i := by
  rcases smallestIdx_spec h i with ⟨hs, -⟩ | ⟨hs, -, hlt⟩
  · rcases smallest1_spec h i with ⟨h1, -⟩ | ⟨h1, -, hlt1⟩
    · exact absurd (hs.trans h1) hne
    · rw [hs, h1]
      exact hlt1
  · rw [hs]
    rcases smallest1_spec h i with ⟨h1, -⟩ | ⟨h1, -, hlt1⟩
    · rw [h1] at hlt
      exact hlt
    · rw [h1] at hlt
      exact hlt.trans hlt1

theorem smallestIdx_eq_spec (h : Heap) (i : ℕ) (heq : MinHeap.smallestIdx h i = i) :
    (2 * i + 1 < h.length → heapPri h i ≤ heapPri h (2 * i + 1)) ∧
      (2 * i + 2 < h.length → heapPri h i ≤ heapPri h (2 * i + 2)) := by
  rcases smallestIdx_spec h i with ⟨hs, hle⟩ | ⟨hs, -, -⟩
  · rcases smallest1_spec h i with ⟨h1, hl⟩ | ⟨h1, -, -⟩
    · rw [h1] at hle
      exact ⟨hl, hle⟩
    · rw [hs, h1] at heq
      omega
  · rw [hs] at heq
    omega

theorem smallestIdx_le_children (h : Heap) (i : ℕ) (hne : MinHeap.smallestIdx h i ≠ i) :
    (2 * i + 1 < h.length →
      heapPri h (MinHeap.smallestIdx h i) ≤ heapPri h (2 * i + 1)) ∧
      (2 * i + 2 < h.length →
        heapPri h (MinHeap.smallestIdx h i) ≤ heapPri h (2 * i + 2)) := by
  rcases smallestIdx_spec h i with ⟨hs, hle⟩ | ⟨hs, -, hlt⟩
  · rcases smallest1_spec h i with ⟨h1, -⟩ | ⟨h1, -, hlt1⟩
    · exact absurd (hs.trans h1) hne
    · rw [hs, h1]
      constructor
      · intro _
        exact le_rfl
      · intro hr
        rw [h1] at hle
        exact hle hr
  · rw [hs]
    constructor
    · intro hl
      rcases smallest1_spec h i with ⟨h1, hle1⟩ | ⟨h1, -, hlt1⟩
      · rw [h1] at hlt
        exact hlt.le.trans (hle1 hl)
      · rw [h1] at hlt
        exact hlt.le
    · intro _
      exact le_rfl

theorem length_bubbleDown : ∀ (fuel : ℕ) (h : Heap) (i : ℕ),
    (MinHeap.bubbleDown fuel h i).length = h.length
  | 0, _, _ => rfl
  | fuel + 1, h, i => by
    rw [MinHeap.bubbleDown]
    split
    · rfl
    · rw [length_bubbleDown fuel _ _, length_swap]

theorem bubbleDown_perm : ∀ (fuel : ℕ) (h : Heap) (i : ℕ), i < h.length →
    List.Perm (MinHeap.bubbleDown fuel h i) h
  | 0, _, _, _ => List.Perm.refl _
  | fuel + 1, h, i, hi => by
    rw [MinHeap.bubbleDown]
    split
    · exact List.Perm.refl _
    · have hs2 := smallestIdx_lt_length h i hi
      have h1 : MinHeap.smallestIdx h i < (MinHeap.swap h (MinHeap.smallestIdx h i) i).length := by
        rw [length_swap]; exact hs2
      exact (bubbleDown_perm fuel _ _ h1).trans (swap_perm h _ i hs2 hi)

theorem child_parent_eq {i j : ℕ} (hj : j = 2 * i + 1 ∨ j = 2 * i + 2) : i = (j - 1) / 2 := by
  omega

theorem child_of_pos {j : ℕ} (hj : 0 < j) :
    j = 2 * ((j - 1) / 2) + 1 ∨ j = 2 * ((j - 1) / 2) + 2 := by
  omega

theorem isHeap_root_le (h : Heap) (hh : IsHeap h) :
    ∀ j, j < h.length → heapPri h 0 ≤ heapPri h j := by
  intro j
  induction j using Nat.strong_induction_on with
  | _ j ih =>
    intro hj
    rcases Nat.eq_zero_or_pos j with rfl | hpos
    · exact le_rfl
    · have hc := child_of_pos hpos
      have hp : (j - 1) / 2 < j := by omega
      exact (ih _ hp (hp.trans hj)).trans (hh _ _ hc hj)

theorem heapPri_swap_fst (h : Heap) (i j : ℕ) (hi : i < h.length) (hj : j < h.length) :
    heapPri (MinHeap.swap h i j) i = heapPri h j := by
  unfold heapPri
  rw [ent_swap_fst h i j hi hj]

theorem heapPri_swap_snd (h : Heap) (i j : ℕ) (hj : j < h.length) :
    heapPri (MinHeap.swap h i j) j = heapPri h i := by
  unfold heapPri
  rw [ent_swap_snd h i j hj]

theorem heapPri_swap_other (h : Heap) (i j k : ℕ) (hki : k ≠ i) (hkj : k ≠ j) :
    heapPri (MinHeap.swap h i j) k = heapPri h k := by
  unfold heapPri
  rw [ent_swap_other h i j k hki hkj]

theorem bubbleUp_isHeap : ∀ (fuel : ℕ) (h : Heap) (idx : ℕ), idx < h.length → idx ≤ fuel →
    NearHeapUp h idx → IsHeap (MinHeap.bubbleUp fuel h idx)
  | 0, h, 0, _, _, hnear => fun a b hb hblen =>
    hnear.1 a b hb hblen (by omega)
  | _ + 1, h, 0, _, _, hnear => fun a b hb hblen =>
    hnear.1 a b hb hblen (by omega)
  | 0, _, _ + 1, _, hle, _ => by omega
  | fuel + 1, h, i + 1, hlt, hle, hnear => by
    rw [MinHeap.bubbleUp]
    split
    · next hguard =>
      intro a b hb hblen
      rcases eq_or_ne b (i + 1) with rfl | hbne
      · have ha : a = i / 2 := by
          have := child_parent_eq hb
          omega
        subst ha
        exact hguard
      · exact hnear.1 a b hb hblen hbne
    · next hguard =>
      have hqlt : heapPri h (i + 1) < heapPri h (i / 2) := lt_of_not_le hguard
      have hplt : i / 2 < h.length := by omega
      have hpq : i / 2 ≠ i + 1 := by omega
      apply bubbleUp_isHeap fuel _ (i / 2)
      · rw [length_swap]; omega
      · omega
      constructor
      · intro a b hb hblen hbnep
        rw [length_swap] at hblen
        have hpar : a = (b - 1) / 2 := child_parent_eq hb
        rcases eq_or_ne b (i + 1) with rfl | hbne
        · have ha : a = i / 2 := by omega
          subst ha
          rw [heapPri_swap_fst h _ _ hplt hlt, heapPri_swap_snd h _ _ hlt]
          exact hqlt.le
        · have hbq : b ≠ i + 1 := hbne
          rcases eq_or_ne a (i / 2) with rfl | hanep
          · rw [heapPri_swap_fst h _ _ hplt hlt,
              heapPri_swap_other h _ _ b hbnep hbq]
            exact hqlt.le.trans (hnear.1 _ b hb hblen hbq)
          · rcases eq_or_ne a (i + 1) with rfl | haneq
            · rw [heapPri_swap_snd h _ _ hlt,
                heapPri_swap_other h _ _ b hbnep hbq]
              exact hnear.2 b hb hblen (by omega)
            · rw [heapPri_swap_other h _ _ a hanep haneq,
                heapPri_swap_other h _ _ b hbnep hbq]
              exact hnear.1 a b hb hblen hbq
      · intro b hb hblen hppos
        rw [length_swap] at hblen
        have hgp : (i / 2 - 1) / 2 ≠ i / 2 := by omega
        have hgpq : (i / 2 - 1) / 2 ≠ i + 1 := by omega
        have hgpp : heapPri h ((i / 2 - 1) / 2) ≤ heapPri h (i / 2) := by
          apply hnear.1
          · exact child_of_pos hppos
          · omega
          · omega
        rw [heapPri_swap_other h _ _ _ hgp hgpq]
        rcases eq_or_ne b (i + 1) with rfl | hbne
        · rw [heapPri_swap_snd h _ _ hlt]
          exact hgpp
        · have hbnep : b ≠ i / 2 := by
            have := child_parent_eq hb
            omega
          rw [heapPri_swap_other h _ _ b hbnep hbne]
          exact hgpp.trans (hnear.1 _ b hb hblen hbne)

theorem heapPri_append_lt (h : Heap) (l : Heap) (i : ℕ) (hi : i < h.length) :
    heapPri (h ++ l) i = heapPri h i := by
  unfold heapPri MinHeap.ent
  rw [getD_append_lt _ _ _ _ hi]

theorem push_isHeap (h : Heap) (n : NodeId) (pr : DVal) (hh : IsHeap h) :
    IsHeap (MinHeap.push h n pr) := by
  unfold MinHeap.push
  apply bubbleUp_isHeap
  · simp
  · exact le_rfl
  constructor
  · intro a b hb hblen hbne
    have hblt : b < h.length := by
      simp only [List.length_append, List.length_cons, List.length_nil] at hblen
      omega
    have halt : a < h.length := by omega
    rw [heapPri_append_lt _ _ _ halt, heapPri_append_lt _ _ _ hblt]
    exact hh a b hb hblt
  · intro b hb hblen _
    simp only [List.length_append, List.length_cons, List.length_nil] at hblen
    omega

theorem smallestIdx_ne_bounds (h : Heap) (i : ℕ) (hne : MinHeap.smallestIdx h i ≠ i) :
    i < MinHeap.smallestIdx h i ∧ MinHeap.smallestIdx h i < h.length := by
  rcases smallestIdx_spec h i with ⟨hs, -⟩ | ⟨hs, hr, -⟩
  · rcases smallest1_spec h i with ⟨h1, -⟩ | ⟨h1, hl, -⟩
    · exact absurd (hs.trans h1) hne
    · omega
  · omega

theorem bubbleDown_isHeap (fuel : ℕ) : ∀ (h : Heap) (idx : ℕ), h.length ≤ fuel + idx →
    NearHeapDown h idx → IsHeap (MinHeap.bubbleDown fuel h idx) := by
  induction fuel with
  | zero =>
    intro h idx hfuel hnear
    have hred : MinHeap.bubbleDown 0 h idx = h := rfl
    rw [hred]
    intro a b hb hblen
    rcases eq_or_ne a idx with rfl | hne
    · omega
    · exact hnear.1 a b hb hblen hne
  | succ fuel ih =>
    intro h idx hfuel hnear
    rcases eq_or_ne (MinHeap.smallestIdx h idx) idx with heq | hne
    · have hred : MinHeap.bubbleDown (fuel + 1) h idx = h := by
        rw [MinHeap.bubbleDown]
        simp [heq]
      rw [hred]
      intro a b hb hblen
      rcases eq_or_ne idx a with rfl | hane
      · have hspec := smallestIdx_eq_spec h idx heq
        rcases hb with rfl | rfl
        · exact hspec.1 hblen
        · exact hspec.2 hblen
      · exact hnear.1 a b hb hblen (Ne.symm hane)
    · have hred : MinHeap.bubbleDown (fuel + 1) h idx =
          MinHeap.bubbleDown fuel (MinHeap.swap h (MinHeap.smallestIdx h idx) idx)
            (MinHeap.smallestIdx h idx) := by
        rw [MinHeap.bubbleDown]
        simp [hne]
      rw [hred]
      have hbounds := smallestIdx_ne_bounds h idx hne
      have hslt : MinHeap.smallestIdx h idx < h.length := hbounds.2
      have hilt : idx < h.length := hbounds.1.trans hslt
      have hlt := smallestIdx_pri_lt h idx hne
      have hch : MinHeap.smallestIdx h idx = 2 * idx + 1 ∨
          MinHeap.smallestIdx h idx = 2 * idx + 2 := by
        rcases smallestIdx_cases h idx with h0 | hc
        · exact absurd h0 hne
        · exact hc
      have hchildle := smallestIdx_le_children h idx hne
      apply ih
      · rw [length_swap]
        omega
      constructor
      · intro a b hb hblen hanes
        rw [length_swap] at hblen
        have hpar : a = (b - 1) / 2 := child_parent_eq hb
        rcases eq_or_ne idx a with rfl | hanei
        · rcases eq_or_ne (MinHeap.smallestIdx h idx) b with rfl | hbnes
          · rw [heapPri_swap_snd h _ _ hilt, heapPri_swap_fst h _ _ hslt hilt]
            exact hlt.le
          · have hbnei : b ≠ idx := by omega
            rw [heapPri_swap_snd h _ _ hilt,
              heapPri_swap_other h _ _ b (Ne.symm hbnes) hbnei]
            rcases hb with rfl | rfl
            · exact hchildle.1 hblen
            · exact hchildle.2 hblen
        · rcases eq_or_ne (MinHeap.smallestIdx h idx) b with rfl | hbnes
          · exact absurd (by omega : a = idx) (fun hh => hanei hh.symm)
          · rcases eq_or_ne idx b with rfl | hbnei
            · rw [heapPri_swap_snd h _ _ hilt,
                heapPri_swap_other h _ _ a hanes (fun hh => hanei hh.symm)]
              have hdom := hnear.2 (MinHeap.smallestIdx h idx) hch hslt
              rw [← hpar] at hdom
              exact hdom (by omega)
            · rw [heapPri_swap_other h _ _ a hanes (fun hh => hanei hh.symm),
                heapPri_swap_other h _ _ b (Ne.symm hbnes) (Ne.symm hbnei)]
              exact hnear.1 a b hb hblen (fun hh => hanei hh.symm)
      · intro b hb hblen hspos
        rw [length_swap] at hblen
        have hpars : idx = (MinHeap.smallestIdx h idx - 1) / 2 := child_parent_eq hch
        have hbnes : b ≠ MinHeap.smallestIdx h idx := by omega
        have hbnei : b ≠ idx := by omega
        rw [← hpars, heapPri_swap_snd h _ _ hilt,
          heapPri_swap_other h _ _ b hbnes hbnei]
        exact hnear.1 _ b hb hblen hne

theorem getD_dropLast {α : Type} : ∀ (l : List α) (i : ℕ) (d : α), i < l.length - 1 →
    l.dropLast.getD i d = l.getD i d
  | [], _, _, hi => by simp at hi
  | [_], _, _, hi => by simp at hi
  | _ :: _ :: _, 0, _, _ => rfl
  | _ :: b :: t, i + 1, d, hi =>
    getD_dropLast (b :: t) i d (by simp at hi ⊢; omega)

theorem dropLast_append_getD {α : Type} : ∀ (l : List α) (d : α), l ≠ [] →
    l.dropLast ++ [l.getD (l.length - 1) d] = l
  | [], _, hne => absurd rfl hne
  | [a], _, _ => rfl
  | a :: b :: t, d, _ => by
    have ih := dropLast_append_getD (b :: t) d (by simp)
    simpa using ih

theorem mem_iff_ent (h : Heap) (x : HeapEntry) :
    x ∈ h ↔ ∃ j, j < h.length ∧ MinHeap.ent h j = x := by
  induction h with
  | nil => simp
  | cons a t ih =>
    simp only [List.mem_cons, ih]
    constructor
    · rintro (rfl | ⟨j, hj, rfl⟩)
      · exact ⟨0, by simp, rfl⟩
      · exact ⟨j + 1, by simpa using hj, rfl⟩
    · rintro ⟨j, hj, rfl⟩
      match j with
      | 0 => exact Or.inl rfl
      | j + 1 => exact Or.inr ⟨j, by simpa using hj, rfl⟩

theorem pop_spec (h : Heap) (e : HeapEntry) (rest : Heap)
    (hp : MinHeap.pop h = some (e, rest)) :
    e = MinHeap.ent h 0 ∧ List.Perm (e :: rest) h := by
  match h with
  | [] => exact absurd hp (by simp [MinHeap.pop])
  | [x] =>
    rw [MinHeap.pop] at hp
    injection hp with hp
    injection hp with hp1 hp2
    subst hp1
    subst hp2
    exact ⟨rfl, List.Perm.refl _⟩
  | x :: y :: t =>
    rw [MinHeap.pop] at hp
    injection hp with hp
    injection hp with hp1 hp2
    subst hp1
    constructor
    · rfl
    · have hdl : (x :: y :: t).dropLast.length = t.length + 1 := by
        simp
      have hbodylen :
          ((x :: y :: t).dropLast.set 0 (MinHeap.ent (x :: y :: t) ((x :: y :: t).length - 1))).length
            = t.length + 1 := by
        simp
      have hperm1 : List.Perm rest
          ((x :: y :: t).dropLast.set 0 (MinHeap.ent (x :: y :: t) ((x :: y :: t).length - 1))) := by
        rw [← hp2]
        exact bubbleDown_perm _ _ 0 (by rw [hbodylen]; omega)
      have hperm2 : List.Perm
          ((x :: y :: t).dropLast.getD 0 (MinHeap.ent [] 0) ::
            (x :: y :: t).dropLast.set 0 (MinHeap.ent (x :: y :: t) ((x :: y :: t).length - 1)))
          (MinHeap.ent (x :: y :: t) ((x :: y :: t).length - 1) :: (x :: y :: t).dropLast) :=
        cons_set_perm _ 0 _ _ (by rw [hdl]; omega)
      have hgd : (x :: y :: t).dropLast.getD 0 (MinHeap.ent [] 0) = x := rfl
      rw [hgd] at hperm2
      have hperm3 : List.Perm
          (MinHeap.ent (x :: y :: t) ((x :: y :: t).length - 1) :: (x :: y :: t).dropLast)
          ((x :: y :: t).dropLast ++ [MinHeap.ent (x :: y :: t) ((x :: y :: t).length - 1)]) :=
        (List.perm_append_singleton _ _).symm
      have hfin : (x :: y :: t).dropLast ++
          [MinHeap.ent (x :: y :: t) ((x :: y :: t).length - 1)] = x :: y :: t :=
        dropLast_append_getD _ _ (by simp)
      rw [hfin] at hperm3
      exact (hperm1.cons x).trans (hperm2.trans hperm3)

theorem pop_none_iff (h : Heap) : MinHeap.pop h = none ↔ h = [] := by
  match h with
  | [] => simp [MinHeap.pop]
  | [x] => simp [MinHeap.pop]
  | x :: y :: t => simp [MinHeap.pop]

theorem pop_length (h : Heap) (e : HeapEntry) (rest : Heap)
    (hp : MinHeap.pop h = some (e, rest)) : rest.length + 1 = h.length := by
  have := (pop_spec h e rest hp).2.length_eq
  simpa using this

theorem pop_isHeap (h : Heap) (hh : IsHeap h) (e : HeapEntry) (rest : Heap)
    (hp : MinHeap.pop h = some (e, rest)) : IsHeap rest := by
  match h with
  | [] => exact absurd hp (by simp [MinHeap.pop])
  | [x] =>
    rw [MinHeap.pop] at hp
    injection hp with hp
    injection hp with hp1 hp2
    subst hp2
    intro i j hj hlen
    simp at hlen
  | x :: y :: t =>
    rw [MinHeap.pop] at hp
    injection hp with hp
    injection hp with hp1 hp2
    subst hp2
    apply bubbleDown_isHeap
    · omega
    constructor
    · intro a b hb hblen
      intro hane
      have hapos : 0 < a := Nat.pos_of_ne_zero hane
      have hbpos : 0 < b := by omega
      have hblen' : b < (x :: y :: t).length - 1 := by
        simpa using hblen
      unfold heapPri MinHeap.ent
      rw [getD_set_ne _ _ _ _ _ (by omega), getD_set_ne _ _ _ _ _ (by omega),
        getD_dropLast _ _ _ (by omega), getD_dropLast _ _ _ hblen']
      exact hh a b hb (by simp at hblen' ⊢; omega)
    · intro b hb hblen hpos
      omega

theorem pop_min (h : Heap) (hh : IsHeap h) (e : HeapEntry) (rest : Heap)
    (hp : MinHeap.pop h = some (e, rest)) :
    ∀ x ∈ h, e.priority ≤ x.priority := by
  intro x hx
  obtain ⟨j, hj, rfl⟩ := (mem_iff_ent h x).mp hx
  have he := (pop_spec h e rest hp).1
  rw [he]
  exact isHeap_root_le h hh j hj

theorem isHeap_nil : IsHeap [] := by
  intro i j hj hlen
  simp at hlen

theorem isHeap_foldl_push : ∀ (l : List (NodeId × DVal)) (h : Heap), IsHeap h →
    IsHeap (l.foldl (fun h np => MinHeap.push h np.1 np.2) h)
  | [], _, hh => hh
  | np :: l, h, hh => isHeap_foldl_push l _ (push_isHeap h np.1 np.2 hh)

theorem isHeap_fromPushes (l : List (NodeId × DVal)) : IsHeap (fromPushes l) :=
  isHeap_foldl_push l [] isHeap_nil

/-- Claim C6: after any sequence of `push` operations starting from the
empty queue, `pop()` on a non-empty queue removes and returns an entry
whose priority is less than or equal to the priority of every entry in the
queue (the remaining entries being exactly the other entries), and on an
empty queue it returns the `null` sentinel (`none`) instead of an entry. -/
theorem C6_popMin (l : List (NodeId × DVal)) :
    (MinHeap.pop (fromPushes l) = none ↔ fromPushes l = []) ∧
    (∀ e rest, MinHeap.pop (fromPushes l) = some (e, rest) →
      e ∈ fromPushes l ∧ (∀ x ∈ fromPushes l, e.priority ≤ x.priority) ∧
        List.Perm (e :: rest) (fromPushes l)) := by
  refine ⟨pop_none_iff _, fun e rest hp => ?_⟩
  have hh := isHeap_fromPushes l
  refine ⟨?_, pop_min _ hh e rest hp, (pop_spec _ e rest hp).2⟩
  have := (pop_spec _ e rest hp).2
  exact this.mem_iff.mp (List.mem_cons_self e rest)

/-- Witness for C6 at a concrete push sequence: pushing priorities 2, 1, 5
and popping returns the priority-1 entry, which is a member, minimal, and
removed. -/
theorem C6_popMin_witness :
    (⟨"B", (1 : ℤ)⟩ : HeapEntry) ∈ fromPushes [("A", (2 : ℤ)), ("B", (1 : ℤ)), ("C", (5 : ℤ))] ∧
      (∀ x ∈ fromPushes [("A", (2 : ℤ)), ("B", (1 : ℤ)), ("C", (5 : ℤ))],
        (⟨"B", (1 : ℤ)⟩ : HeapEntry).priority ≤ x.priority) ∧
      List.Perm ((⟨"B", (1 : ℤ)⟩ : HeapEntry) ::
          [⟨"A", (2 : ℤ)⟩, ⟨"C", (5 : ℤ)⟩])
        (fromPushes [("A", (2 : ℤ)), ("B", (1 : ℤ)), ("C", (5 : ℤ))]) :=
  (C6_popMin [("A", (2 : ℤ)), ("B", (1 : ℤ)), ("C", (5 : ℤ))]).2
    ⟨"B", (1 : ℤ)⟩ [⟨"A", (2 : ℤ)⟩, ⟨"C", (5 : ℤ)⟩] (by decide)

/-- Claim C4 counterexample: with the Dijkstra selection, a present source
and destination and a negative-weight edge, `runAlgorithm` does not refuse:
it runs the tracer and produces a five-step trace (`init`, `extract`,
`update`, `extract`, `complete`), so no `InvalidInput` failure happens
before steps are emitted. -/
theorem C4_counterexample :
    runAlgorithm [⟨"A"⟩, ⟨"B"⟩] [⟨"A", "B", -1⟩] (some "A") (some "B") Algorithm.dijkstra =
      some (dijkstraSteps [⟨"A"⟩, ⟨"B"⟩] [⟨"A", "B", -1⟩] "A" "B") ∧
      (dijkstraSteps [⟨"A"⟩, ⟨"B"⟩] [⟨"A", "B", -1⟩] "A" "B").length = 5 :=
  ⟨rfl, by decide⟩

/-- Claim C4 (amended): `runAlgorithm` refuses to run (producing no step
sequence) exactly when the source is unset, the destination is unset, or
the edge set is empty; it performs no negative-weight check of its own. -/
theorem C4_runAlgorithm_guard (nodes : List Node) (edges : List Edge)
    (sourceNode destNode : Option NodeId) (algorithm : Algorithm) :
    runAlgorithm nodes edges sourceNode destNode algorithm = none ↔
      (sourceNode = none ∨ destNode = none ∨ edges = []) := by
  match sourceNode, destNode with
  | none, _ =>
    simp [runAlgorithm]
  | some s, none =>
    simp [runAlgorithm]
  | some s, some d =>
    simp only [runAlgorithm]
    constructor
    · intro hnone
      split at hnone
      · next hlen =>
        exact Or.inr (Or.inr (List.length_eq_zero.mp hlen))
      · exact absurd hnone (by simp)
    · rintro (h | h | h)
      · exact absurd h (by simp)
      · exact absurd h (by simp)
      · subst h
        simp

/-- Claim C8 counterexample: a parsed weight of `0` with a pending edge is
not inserted (the JS truthiness test `if (weight && pendingEdge)` drops
it), contradicting "any defined integer weight, including 0, is accepted
and inserted". -/
theorem C8_counterexample :
    handleWeightSubmit Algorithm.dijkstra (some 0) EdgeDirection.uni (some ("A", "B")) [] =
      ([], false) := rfl

/-- Claim C8 (amended): the edge authoring validator inserts nothing when
the weight does not parse (no error toast either); under the Dijkstra
selection a parsed negative weight is rejected with the error toast and no
mutation; a parsed nonzero weight that passes the Dijkstra check inserts
one edge (`uni`) or the two opposite edges (`bi`); and a parsed weight of
`0` is silently dropped without inserting an edge. -/
theorem C8_validator (algorithm : Algorithm) (weight? : Option ℤ) (direction : EdgeDirection)
    (pendingEdge : Option (NodeId × NodeId)) (edges : List Edge) :
    (weight? = none →
      handleWeightSubmit algorithm weight? direction pendingEdge edges = (edges, false)) ∧
    (∀ w, weight? = some w → algorithm = Algorithm.dijkstra → w < 0 →
      handleWeightSubmit algorithm weight? direction pendingEdge edges = (edges, true)) ∧
    (∀ w f t, weight? = some w → pendingEdge = some (f, t) →
      ¬(algorithm = Algorithm.dijkstra ∧ w < 0) → w ≠ 0 →
      handleWeightSubmit algorithm weight? direction pendingEdge edges =
        (if direction = EdgeDirection.uni then edges ++ [⟨f, t, w⟩]
         else edges ++ [⟨f, t, w⟩, ⟨t, f, w⟩], false)) ∧
    (∀ w, weight? = some w → ¬(algorithm = Algorithm.dijkstra ∧ w < 0) → w = 0 →
      handleWeightSubmit algorithm weight? direction pendingEdge edges = (edges, false)) := by
  refine ⟨?_, ?_, ?_, ?_⟩
  · rintro rfl
    rfl
  · rintro w rfl rfl hw
    simp [handleWeightSubmit, hw]
  · rintro w f t rfl rfl hreject hw
    simp only [handleWeightSubmit]
    rw [if_neg hreject]
    simp [hw]
  · rintro w rfl hreject rfl
    simp only [handleWeightSubmit]
    rw [if_neg hreject]
    match pendingEdge with
    | none => rfl
    | some (f, t) => simp

/-- Witness for C8 at concrete inputs: weight 3 on a pending edge under
Dijkstra inserts exactly the one proposed edge. -/
theorem C8_validator_witness :
    handleWeightSubmit Algorithm.dijkstra (some 3) EdgeDirection.uni (some ("A", "B")) [] =
      ([⟨"A", "B", 3⟩], false) := by
  have h := (C8_validator Algorithm.dijkstra (some 3) EdgeDirection.uni (some ("A", "B")) []).2.2.1
  have := h 3 "A" "B" rfl rfl (by decide) (by decide)
  simpa using this

/-- Claim C9: the node-id generator `` `N${nodes.length}` `` collides after
deletions: add two nodes (ids `N0`, `N1`), delete `N0`, add another node —
the new node again gets id `N1`, which is already present, so ids are not
graph-unique. -/
theorem C9_bug_exhibit :
    (applyOps [.addNode, .addNode, .deleteNode "N0", .addNode]).1 = [⟨"N1"⟩, ⟨"N1"⟩] ∧
      newNodeId (applyOps [.addNode, .addNode, .deleteNode "N0"]).1 = "N1" ∧
      "N1" ∈ (applyOps [.addNode, .addNode, .deleteNode "N0"]).1.map Node.id := by
  decide

theorem walkWeight_nil : walkWeight [] = 0 := rfl

theorem walkWeight_cons (e : Edge) (es : List Edge) :
    walkWeight (e :: es) = e.weight + walkWeight es := by
  simp [walkWeight]

theorem walkWeight_append (es es' : List Edge) :
    walkWeight (es ++ es') = walkWeight es + walkWeight es' := by
  simp [walkWeight]

theorem isWalk_nil (edges : List Edge) (u v : NodeId) : IsWalk edges u [] v ↔ u = v :=
  Iff.rfl

theorem isWalk_cons (edges : List Edge) (u v : NodeId) (e : Edge) (es : List Edge) :
    IsWalk edges u (e :: es) v ↔ e ∈ edges ∧ e.fromId = u ∧ IsWalk edges e.toId es v :=
  Iff.rfl

theorem IsWalk.append (edges : List Edge) :
    ∀ (es : List Edge) (u v w : NodeId) (es' : List Edge),
      IsWalk edges u es v → IsWalk edges v es' w → IsWalk edges u (es ++ es') w
  | [], u, v, w, es', hw, hw' => by
    rw [isWalk_nil] at hw
    subst hw
    exact hw'
  | e :: es, u, v, w, es', hw, hw' => by
    rw [isWalk_cons] at hw
    rw [List.cons_append, isWalk_cons]
    exact ⟨hw.1, hw.2.1, IsWalk.append edges es _ v w es' hw.2.2 hw'⟩

theorem walkWeight_nonneg (edges : List Edge) (hNN : NonnegWeights edges) :
    ∀ (es : List Edge) (u v : NodeId), IsWalk edges u es v → 0 ≤ walkWeight es
  | [], _, _, _ => le_refl 0
  | e :: es, u, v, hw => by
    rw [isWalk_cons] at hw
    rw [walkWeight_cons]
    have h1 := hNN e hw.1
    have h2 := walkWeight_nonneg edges hNN es _ v hw.2.2
    omega

theorem IsMinDist.unique (edges : List Edge) (source v : NodeId) (d d' : DVal)
    (h : IsMinDist edges source v d) (h' : IsMinDist edges source v d') : d = d' := by
  apply le_antisymm
  · rcases eq_or_ne d' ⊤ with rfl | hne
    · exact le_top
    · obtain ⟨es, hes, rfl⟩ := h'.2 hne
      exact h.1 es hes
  · rcases eq_or_ne d ⊤ with rfl | hne
    · exact le_top
    · obtain ⟨es, hes, rfl⟩ := h.2 hne
      exact h'.1 es hes

theorem walk_crossing (edges : List Edge) (hNN : NonnegWeights edges) (perm : List NodeId) :
    ∀ (es : List Edge) (u v : NodeId), IsWalk edges u es v → u ∈ perm → v ∉ perm →
      ∃ x e es₁, x ∈ perm ∧ e ∈ edges ∧ e.fromId = x ∧ e.toId ∉ perm ∧
        IsWalk edges u es₁ x ∧ walkWeight es₁ + e.weight ≤ walkWeight es
  | [], u, v, hw, hu, hv => by
    rw [isWalk_nil] at hw
    subst hw
    exact absurd hu hv
  | e :: es, u, v, hw, hu, hv => by
    rw [isWalk_cons] at hw
    obtain ⟨he, hfrom, hrest⟩ := hw
    by_cases hto : e.toId ∈ perm
    · obtain ⟨x, e', es₁, hx, he', hf', ht', hw₁, hwt⟩ :=
        walk_crossing edges hNN perm es e.toId v hrest hto hv
      refine ⟨x, e', e :: es₁, hx, he', hf', ht', ?_, ?_⟩
      · rw [isWalk_cons]
        exact ⟨he, hfrom, hw₁⟩
      · rw [walkWeight_cons, walkWeight_cons]
        omega
    · refine ⟨u, e, [], hu, he, hfrom, hto, ?_, ?_⟩
      · rw [isWalk_nil]
      · rw [walkWeight_nil, walkWeight_cons]
        have := walkWeight_nonneg edges hNN es e.toId v hrest
        omega

theorem push_length (h : Heap) (n : NodeId) (p : DVal) :
    (MinHeap.push h n p).length = h.length + 1 := by
  unfold MinHeap.push
  rw [length_bubbleUp]
  simp

theorem push_perm (h : Heap) (n : NodeId) (p : DVal) :
    List.Perm (MinHeap.push h n p) (h ++ [⟨n, p⟩]) := by
  unfold MinHeap.push
  exact bubbleUp_perm _ _ _ (by simp)

theorem mem_push (h : Heap) (n : NodeId) (p : DVal) (x : HeapEntry) :
    x ∈ MinHeap.push h n p ↔ x ∈ h ∨ x = ⟨n, p⟩ := by
  rw [(push_perm h n p).mem_iff]
  simp

theorem relaxAll_perm_eq (current : NodeId) (pA tA : List (NodeId × DVal)) :
    ∀ (l : List (NodeId × ℤ)) (st : DState),
      (relaxAll current pA tA l st).perm = st.perm
  | [], st => rfl
  | (tgt, w) :: rest, st => by
    rw [relaxAll]
    split
    · exact relaxAll_perm_eq current pA tA rest st
    · dsimp only
      split
      · rw [relaxAll_perm_eq current pA tA rest _]
      · rw [relaxAll_perm_eq current pA tA rest _]

theorem relaxAll_heap_le (current : NodeId) (pA tA : List (NodeId × DVal)) :
    ∀ (l : List (NodeId × ℤ)) (st : DState),
      (relaxAll current pA tA l st).heap.length ≤ st.heap.length + l.length
  | [], st => le_refl _
  | (tgt, w) :: rest, st => by
    rw [relaxAll]
    split
    · have := relaxAll_heap_le current pA tA rest st
      simpa using this.trans (by omega)
    · dsimp only
      split
      · refine (relaxAll_heap_le current pA tA rest _).trans ?_
        simp only [push_length, List.length_cons]
        omega
      · refine (relaxAll_heap_le current pA tA rest _).trans ?_
        simp only [List.length_cons]
        omega

theorem relaxAll_dmap_le (current : NodeId) (pA tA : List (NodeId × DVal)) :
    ∀ (l : List (NodeId × ℤ)) (st : DState) (v : NodeId),
      (relaxAll current pA tA l st).dmap v ≤ st.dmap v
  | [], st, v => le_refl _
  | (tgt, w) :: rest, st, v => by
    rw [relaxAll]
    split
    · exact relaxAll_dmap_le current pA tA rest st v
    · dsimp only
      split
      · next hlt =>
        refine (relaxAll_dmap_le current pA tA rest _ v).trans ?_
        simp only [Function.update_apply]
        split
        · next hveq =>
          subst hveq
          exact hlt.le
        · exact le_refl _
      · exact relaxAll_dmap_le current pA tA rest _ v

theorem relaxAll_dmap_of_perm (current : NodeId) (pA tA : List (NodeId × DVal)) :
    ∀ (l : List (NodeId × ℤ)) (st : DState) (v : NodeId), v ∈ st.perm →
      (relaxAll current pA tA l st).dmap v = st.dmap v
  | [], st, v, _ => rfl
  | (tgt, w) :: rest, st, v, hv => by
    rw [relaxAll]
    split
    · exact relaxAll_dmap_of_perm current pA tA rest st v hv
    · next htgt =>
      dsimp only
      split
      · refine Eq.trans (relaxAll_dmap_of_perm current pA tA rest _ v ?_) ?_
        · exact hv
        · simp only [Function.update_apply]
          rw [if_neg (by rintro rfl; exact htgt hv)]
      · exact relaxAll_dmap_of_perm current pA tA rest _ v hv

theorem relaxAll_pmap_of_perm (current : NodeId) (pA tA : List (NodeId × DVal)) :
    ∀ (l : List (NodeId × ℤ)) (st : DState) (v : NodeId), v ∈ st.perm →
      (relaxAll current pA tA l st).pmap v = st.pmap v
  | [], st, v, _ => rfl
  | (tgt, w) :: rest, st, v, hv => by
    rw [relaxAll]
    split
    · exact relaxAll_pmap_of_perm current pA tA rest st v hv
    · next htgt =>
      dsimp only
      split
      · refine Eq.trans (relaxAll_pmap_of_perm current pA tA rest _ v ?_) ?_
        · exact hv
        · simp only [Function.update_apply]
          rw [if_neg (by rintro rfl; exact htgt hv)]
      · exact relaxAll_pmap_of_perm current pA tA rest _ v hv

theorem relaxAll_steps_mem (current : NodeId) (pA tA : List (NodeId × DVal)) :
    ∀ (l : List (NodeId × ℤ)) (st : DState) (s : Step),
      s ∈ (relaxAll current pA tA l st).steps →
      s ∈ st.steps ∨ s.tag = StepTag.update ∨ s.tag = StepTag.noUpdate
  | [], st, s => fun hs => Or.inl hs
  | (tgt, w) :: rest, st, s => by
    rw [relaxAll]
    split
    · exact relaxAll_steps_mem current pA tA rest st s
    · dsimp only
      split
      · intro hs
        rcases relaxAll_steps_mem current pA tA rest _ s hs with h | h | h
        · rcases List.mem_append.mp h with h | h
          · exact Or.inl h
          · rcases List.mem_singleton.mp h with rfl
            exact Or.inr (Or.inl rfl)
        · exact Or.inr (Or.inl h)
        · exact Or.inr (Or.inr h)
      · intro hs
        rcases relaxAll_steps_mem current pA tA rest _ s hs with h | h | h
        · rcases List.mem_append.mp h with h | h
          · exact Or.inl h
          · rcases List.mem_singleton.mp h with rfl
            exact Or.inr (Or.inr rfl)
        · exact Or.inr (Or.inl h)
        · exact Or.inr (Or.inr h)

theorem relaxAll_steps_filter (p : Step → Bool)
    (hpu : ∀ s : Step, s.tag = StepTag.update → p s = false)
    (hpn : ∀ s : Step, s.tag = StepTag.noUpdate → p s = false)
    (current : NodeId) (pA tA : List (NodeId × DVal)) :
    ∀ (l : List (NodeId × ℤ)) (st : DState),
      (relaxAll current pA tA l st).steps.filter p = st.steps.filter p
  | [], st => rfl
  | (tgt, w) :: rest, st => by
    rw [relaxAll]
    split
    · exact relaxAll_steps_filter p hpu hpn current pA tA rest st
    · dsimp only
      split
      · refine Eq.trans (relaxAll_steps_filter p hpu hpn current pA tA rest _) ?_
        rw [List.filter_append]
        rw [show List.filter p [_] = [] from by
          rw [List.filter_cons]
          rw [if_neg (by rw [hpu _ rfl]; simp)]
          rfl]
        rw [List.append_nil]
      · refine Eq.trans (relaxAll_steps_filter p hpu hpn current pA tA rest _) ?_
        rw [List.filter_append]
        rw [show List.filter p [_] = [] from by
          rw [List.filter_cons]
          rw [if_neg (by rw [hpn _ rfl]; simp)]
          rfl]
        rw [List.append_nil]

theorem relaxAll_processed (current : NodeId) (pA tA : List (NodeId × DVal)) :
    ∀ (l : List (NodeId × ℤ)) (st : DState), current ∈ st.perm →
      ∀ tgt w, (tgt, w) ∈ l → tgt ∉ st.perm →
        (relaxAll current pA tA l st).dmap tgt ≤ st.dmap current + (w : DVal)
  | [], st, _, tgt, w, hmem, _ => absurd hmem (by simp)
  | (t0, w0) :: rest, st, hcur, tgt, w, hmem, htgt => by
    rw [relaxAll]
    split
    · next ht0 =>
      rcases List.mem_cons.mp hmem with heq | hmem'
      · injection heq with h1 h2
        subst h1
        exact absurd ht0 htgt
      · exact relaxAll_processed current pA tA rest st hcur tgt w hmem' htgt
    · next ht0 =>
      dsimp only
      split
      · next halt =>
        rcases List.mem_cons.mp hmem with heq | hmem'
        · injection heq with h1 h2
          subst h1
          subst h2
          refine (relaxAll_dmap_le current pA tA rest _ tgt).trans ?_
          dsimp only
          rw [Function.update_same]
        · have hct : current ≠ t0 := by rintro rfl; exact ht0 hcur
          refine le_trans (relaxAll_processed current pA tA rest _ ?_ tgt w ?_ ?_) ?_
          · exact hcur
          · exact hmem'
          · exact htgt
          · simp only [Function.update_apply, if_neg hct]
            exact le_refl _
      · next halt =>
        rcases List.mem_cons.mp hmem with heq | hmem'
        · injection heq with h1 h2
          subst h1
          subst h2
          refine (relaxAll_dmap_le current pA tA rest _ tgt).trans ?_
          exact le_of_not_lt halt
        · refine le_trans (relaxAll_processed current pA tA rest _ ?_ tgt w ?_ ?_) (le_refl _)
          · exact hcur
          · exact hmem'
          · exact htgt

theorem relaxAll_core (edges : List Edge) (source : NodeId) (hNN : NonnegWeights edges)
    (current : NodeId) (pA tA : List (NodeId × DVal)) :
    ∀ (l : List (NodeId × ℤ)) (st : DState),
      current ∈ st.perm →
      (∀ p ∈ l, ∃ e ∈ edges, e.fromId = current ∧ e.toId = p.1 ∧ e.weight = p.2) →
      DCore edges source st → DCore edges source (relaxAll current pA tA l st)
  | [], st, _, _, hcore => hcore
  | (t0, w0) :: rest, st, hcur, hpairs, hcore => by
    rw [relaxAll]
    split
    · exact relaxAll_core edges source hNN current pA tA rest st hcur
        (fun p hp => hpairs p (List.mem_cons_of_mem _ hp)) hcore
    · next ht0 =>
      dsimp only
      split
      · next halt =>
        obtain ⟨e, he, hef, het0, hew0⟩ := hpairs (t0, w0) (List.mem_cons_self _ _)
        have het : e.toId = t0 := het0
        have hew : e.weight = w0 := hew0
        have haltne : st.dmap current + (w0 : DVal) ≠ ⊤ := ne_top_of_lt halt
        have hcurne : st.dmap current ≠ ⊤ := by
          intro hc
          rw [hc] at haltne
          exact haltne (by simp)
        have halt0 : (0 : DVal) ≤ st.dmap current + (w0 : DVal) := by
          have h1 := hcore.hnonneg current
          have h2 : (0 : DVal) ≤ (w0 : DVal) := by
            rw [← WithTop.coe_zero, WithTop.coe_le_coe]
            rw [← hew]
            exact hNN e he
          calc (0 : DVal) = 0 + 0 := by rw [add_zero]
            _ ≤ st.dmap current + (w0 : DVal) := add_le_add h1 h2
        have hst0 : source ≠ t0 := by
          rintro rfl
          rw [hcore.hsrc] at halt
          exact absurd (halt0.trans_lt halt) (by simp)
        refine relaxAll_core edges source hNN current pA tA rest _ ?_ ?_ ?_
        · exact hcur
        · exact fun p hp => hpairs p (List.mem_cons_of_mem _ hp)
        constructor
        · exact push_isHeap _ _ _ hcore.hheap
        · intro x hx
          rcases (mem_push _ _ _ x).mp hx with hx' | rfl
          · exact hcore.hfin x hx'
          · exact haltne
        · intro x hx
          rcases (mem_push _ _ _ x).mp hx with hx' | rfl
          · simp only [Function.update_apply]
            split
            · next hxe =>
              refine le_trans ?_ (hcore.hentries x hx')
              rw [← hxe] at halt
              exact halt.le
            · exact hcore.hentries x hx'
          · dsimp only
            rw [Function.update_same]
        · intro v hv hne
          rcases eq_or_ne v t0 with rfl | hvne
          · dsimp only
            rw [Function.update_same]
            exact (mem_push _ _ _ _).mpr (Or.inr rfl)
          · simp only [Function.update_apply, if_neg hvne] at hne ⊢
            exact (mem_push _ _ _ _).mpr (Or.inl (hcore.htent v hv hne))
        · intro v hne
          rcases eq_or_ne v t0 with rfl | hvne
          · dsimp only
            rw [Function.update_same]
            obtain ⟨W, hW, hWw⟩ := hcore.hreach current hcurne
            refine ⟨W ++ [e], ?_, ?_⟩
            · refine IsWalk.append edges W source current v [e] hW ?_
              rw [isWalk_cons]
              exact ⟨he, hef, by rw [isWalk_nil]; exact het⟩
            · rw [walkWeight_append, walkWeight_cons, walkWeight_nil, add_zero,
                hWw, hew, ← WithTop.coe_add]
          · simp only [Function.update_apply, if_neg hvne] at hne ⊢
            exact hcore.hreach v hne
        · intro v
          rcases eq_or_ne v t0 with rfl | hvne
          · dsimp only
            rw [Function.update_same]
            exact halt0
          · simp only [Function.update_apply, if_neg hvne]
            exact hcore.hnonneg v
        · simp only [Function.update_apply, if_neg hst0]
          exact hcore.hsrc
      · refine relaxAll_core edges source hNN current pA tA rest _ ?_ ?_ ?_
        · exact hcur
        · exact fun p hp => hpairs p (List.mem_cons_of_mem _ hp)
        · exact ⟨hcore.hheap, hcore.hfin, hcore.hentries, hcore.htent, hcore.hreach,
            hcore.hnonneg, hcore.hsrc⟩

theorem fresh_pop_opt (edges : List Edge) (source : NodeId) (hNN : NonnegWeights edges)
    (st : DState) (hinv : DInv edges source st) (entry : HeapEntry) (rest : Heap)
    (hpop : MinHeap.pop st.heap = some (entry, rest)) (hfresh : entry.node ∉ st.perm) :
    IsMinDist edges source entry.node (st.dmap entry.node) ∧ st.dmap entry.node ≠ ⊤ := by
  have hmem : entry ∈ st.heap :=
    ((pop_spec _ _ _ hpop).2.mem_iff).mp (List.mem_cons_self _ _)
  have hdfin : st.dmap entry.node ≠ ⊤ := by
    intro htop
    have h1 := hinv.hentries entry hmem
    have h2 := hinv.hfin entry hmem
    rw [htop] at h1
    exact h2 (top_le_iff.mp h1)
  refine ⟨⟨?_, fun _ => hinv.hreach entry.node hdfin⟩, hdfin⟩
  intro W hW
  have hmin := pop_min st.heap hinv.hheap entry rest hpop
  have h4 := hinv.hentries entry hmem
  by_cases hvs : entry.node = source
  · rw [hvs] at hW ⊢
    rw [hinv.hsrc, ← WithTop.coe_zero, WithTop.coe_le_coe]
    exact walkWeight_nonneg edges hNN W source source hW
  · by_cases hsp : source ∈ st.perm
    · obtain ⟨x, e, es₁, hx, he, hef, hto, hW₁, hwt⟩ :=
        walk_crossing edges hNN st.perm W source entry.node hW hsp hfresh
      have hdx := hinv.hopt x hx
      have hdy : st.dmap e.toId ≤ (walkWeight es₁ : DVal) + (e.weight : DVal) :=
        (hinv.hfrontier x hx e he hef).trans (add_le_add_right (hdx.1 es₁ hW₁) _)
      have hdyfin : st.dmap e.toId ≠ ⊤ := by
        intro htop
        rw [htop, ← WithTop.coe_add, top_le_iff] at hdy
        exact absurd hdy WithTop.coe_ne_top
      have hyent := hinv.htent e.toId hto hdyfin
      have h3 := hmin _ hyent
      calc st.dmap entry.node ≤ entry.priority := h4
        _ ≤ st.dmap e.toId := h3
        _ ≤ (walkWeight es₁ : DVal) + (e.weight : DVal) := hdy
        _ ≤ (walkWeight W : DVal) := by
            rw [← WithTop.coe_add]
            exact WithTop.coe_le_coe.mpr hwt
    · have hsfin : st.dmap source ≠ ⊤ := by
        rw [hinv.hsrc]
        simp
      have hsent := hinv.htent source hsp hsfin
      have h3 := hmin _ hsent
      calc st.dmap entry.node ≤ entry.priority := h4
        _ ≤ st.dmap source := h3
        _ = (0 : DVal) := hinv.hsrc
        _ ≤ (walkWeight W : DVal) := by
            rw [← WithTop.coe_zero, WithTop.coe_le_coe]
            exact walkWeight_nonneg edges hNN W source entry.node hW

theorem filter_perm_partition (edges : List Edge) (perm : List NodeId) (current : NodeId)
    (hc : current ∉ perm) :
    (edges.filter fun e => e.fromId ∉ perm ++ [current]).length +
      (edges.filter fun e => e.fromId = current).length =
    (edges.filter fun e => e.fromId ∉ perm).length := by
  induction edges with
  | nil => rfl
  | cons e es ih =>
    simp only [List.filter_cons, decide_not] at ih ⊢
    by_cases h1 : e.fromId = current
    · have h2 : e.fromId ∉ perm := fun hmem => hc (h1 ▸ hmem)
      rw [if_neg (by simp [h1]), if_pos (by simp [h1]), if_pos (by simp [h2])]
      simp only [List.length_cons]
      omega
    · by_cases h2 : e.fromId ∈ perm
      · rw [if_neg (by simp [h2]), if_neg (by simp [h1]), if_neg (by simp [h2])]
        exact ih
      · rw [if_pos (by simp [h1, h2]), if_neg (by simp [h1]), if_pos (by simp [h2])]
        simp only [List.length_cons]
        omega

theorem extractState_dmap (edges : List Edge) (st : DState) (entry : HeapEntry) (rest : Heap) :
    (extractState edges st entry rest).dmap = st.dmap := rfl

theorem extractState_pmap (edges : List Edge) (st : DState) (entry : HeapEntry) (rest : Heap) :
    (extractState edges st entry rest).pmap = st.pmap := rfl

theorem extractState_perm (edges : List Edge) (st : DState) (entry : HeapEntry) (rest : Heap) :
    (extractState edges st entry rest).perm = st.perm ++ [entry.node] := rfl

theorem extractState_heap (edges : List Edge) (st : DState) (entry : HeapEntry) (rest : Heap) :
    (extractState edges st entry rest).heap = rest := rfl

theorem dijkstraLoop_zero (edges : List Edge) (dest : NodeId) (st : DState) :
    dijkstraLoop edges dest 0 st = st := rfl

theorem dijkstraLoop_none (edges : List Edge) (dest : NodeId) (fuel : ℕ) (st : DState)
    (h : MinHeap.pop st.heap = none) :
    dijkstraLoop edges dest (fuel + 1) st = st := by
  rw [dijkstraLoop, h]

theorem dijkstraLoop_stale (edges : List Edge) (dest : NodeId) (fuel : ℕ) (st : DState)
    (entry : HeapEntry) (rest : Heap)
    (h : MinHeap.pop st.heap = some (entry, rest)) (hmem : entry.node ∈ st.perm) :
    dijkstraLoop edges dest (fuel + 1) st = dijkstraLoop edges dest fuel { st with heap := rest } := by
  rw [dijkstraLoop, h]
  dsimp only
  rw [if_pos hmem]

theorem dijkstraLoop_fresh (edges : List Edge) (dest : NodeId) (fuel : ℕ) (st : DState)
    (entry : HeapEntry) (rest : Heap)
    (h : MinHeap.pop st.heap = some (entry, rest)) (hfresh : entry.node ∉ st.perm) :
    dijkstraLoop edges dest (fuel + 1) st =
      if entry.node = dest then extractState edges st entry rest
      else
        dijkstraLoop edges dest fuel
          (relaxAll entry.node ((st.perm ++ [entry.node]).map fun n => (n, st.dmap n))
            (MinHeap.getAll rest) (neighborsOf edges entry.node)
            (extractState edges st entry rest)) := by
  rw [dijkstraLoop, h]
  dsimp only
  rw [if_neg hfresh]
  rfl

theorem stale_inv (edges : List Edge) (source : NodeId) (st : DState)
    (hinv : DInv edges source st) (entry : HeapEntry) (rest : Heap)
    (hpop : MinHeap.pop st.heap = some (entry, rest)) (hstale : entry.node ∈ st.perm) :
    DInv edges source { st with heap := rest } := by
  have hperm := (pop_spec _ _ _ hpop).2
  have hmemrest : ∀ x ∈ rest, x ∈ st.heap := fun x hx =>
    hperm.mem_iff.mp (List.mem_cons_of_mem _ hx)
  refine ⟨⟨?_, ?_, ?_, ?_, hinv.hreach, hinv.hnonneg, hinv.hsrc⟩, hinv.hopt, hinv.hfrontier⟩
  · exact pop_isHeap st.heap hinv.hheap entry rest hpop
  · exact fun x hx => hinv.hfin x (hmemrest x hx)
  · exact fun x hx => hinv.hentries x (hmemrest x hx)
  · intro v hv hne
    have hmem := hinv.htent v hv hne
    rcases List.mem_cons.mp (hperm.mem_iff.mpr hmem) with heq | hmem'
    · have hv' : entry.node = v := congrArg HeapEntry.node heq.symm
      exact absurd (hv' ▸ hstale) hv
    · exact hmem'

theorem extract_core (edges : List Edge) (source : NodeId) (hNN : NonnegWeights edges)
    (st : DState) (hinv : DInv edges source st) (entry : HeapEntry) (rest : Heap)
    (hpop : MinHeap.pop st.heap = some (entry, rest)) (hfresh : entry.node ∉ st.perm) :
    DCore edges source (extractState edges st entry rest) ∧
      DOpt edges source (extractState edges st entry rest) := by
  have hperm := (pop_spec _ _ _ hpop).2
  have hmemrest : ∀ x ∈ rest, x ∈ st.heap := fun x hx =>
    hperm.mem_iff.mp (List.mem_cons_of_mem _ hx)
  constructor
  · refine ⟨?_, ?_, ?_, ?_, hinv.hreach, hinv.hnonneg, hinv.hsrc⟩
    · exact pop_isHeap st.heap hinv.hheap entry rest hpop
    · exact fun x hx => hinv.hfin x (hmemrest x hx)
    · exact fun x hx => hinv.hentries x (hmemrest x hx)
    · intro v hv hne
      rw [extractState_perm] at hv
      have hv1 : v ∉ st.perm := fun h => hv (List.mem_append_left _ h)
      have hv2 : v ≠ entry.node := fun h => hv (List.mem_append_right _ (by simp [h]))
      have hmem := hinv.htent v hv1 hne
      rcases List.mem_cons.mp (hperm.mem_iff.mpr hmem) with heq | hmem'
      · exact absurd (congrArg HeapEntry.node heq) hv2
      · exact hmem'
  · intro v hv
    rw [extractState_perm] at hv
    rcases List.mem_append.mp hv with h | h
    · exact hinv.hopt v h
    · have hv' : v = entry.node := by simpa using h
      subst hv'
      exact (fresh_pop_opt edges source hNN st hinv entry rest hpop hfresh).1

theorem neighborsOf_mem (edges : List Edge) (current : NodeId) :
    ∀ p ∈ neighborsOf edges current,
      ∃ e ∈ edges, e.fromId = current ∧ e.toId = p.1 ∧ e.weight = p.2 := by
  intro p hp
  simp only [neighborsOf, List.mem_map, List.mem_filter, decide_eq_true_eq] at hp
  obtain ⟨e, ⟨he, hef⟩, rfl⟩ := hp
  exact ⟨e, he, hef, rfl, rfl⟩

theorem mem_neighborsOf (edges : List Edge) (current : NodeId) (e : Edge)
    (he : e ∈ edges) (hef : e.fromId = current) :
    (e.toId, e.weight) ∈ neighborsOf edges current := by
  simp only [neighborsOf, List.mem_map, List.mem_filter, decide_eq_true_eq]
  exact ⟨e, ⟨he, hef⟩, rfl⟩

theorem relax_inv (edges : List Edge) (source : NodeId) (hNN : NonnegWeights edges)
    (st : DState) (hinv : DInv edges source st) (entry : HeapEntry) (rest : Heap)
    (hpop : MinHeap.pop st.heap = some (entry, rest)) (hfresh : entry.node ∉ st.perm)
    (pA tA : List (NodeId × DVal)) :
    DInv edges source
      (relaxAll entry.node pA tA (neighborsOf edges entry.node)
        (extractState edges st entry rest)) := by
  obtain ⟨hcore1, hopt1⟩ := extract_core edges source hNN st hinv entry rest hpop hfresh
  have hcur : entry.node ∈ (extractState edges st entry rest).perm := by
    rw [extractState_perm]
    exact List.mem_append_right _ (by simp)
  have hpairs := neighborsOf_mem edges entry.node
  have hcore2 := relaxAll_core edges source hNN entry.node pA tA (neighborsOf edges entry.node)
    (extractState edges st entry rest) hcur hpairs hcore1
  refine ⟨hcore2, ?_, ?_⟩
  · intro v hv
    rw [relaxAll_perm_eq] at hv
    rw [relaxAll_dmap_of_perm entry.node pA tA (neighborsOf edges entry.node) _ v hv]
    exact hopt1 v hv
  · intro u hu e he hef
    rw [relaxAll_perm_eq] at hu
    have hdu : (relaxAll entry.node pA tA (neighborsOf edges entry.node)
        (extractState edges st entry rest)).dmap u = st.dmap u := by
      rw [relaxAll_dmap_of_perm entry.node pA tA (neighborsOf edges entry.node) _ u hu,
        extractState_dmap]
    have hu' := hu
    rw [extractState_perm] at hu'
    rcases List.mem_append.mp hu' with hup | hue
    · have h1 := relaxAll_dmap_le entry.node pA tA (neighborsOf edges entry.node)
        (extractState edges st entry rest) e.toId
      rw [extractState_dmap] at h1
      rw [hdu]
      exact h1.trans (hinv.hfrontier u hup e he hef)
    · have huc : u = entry.node := by simpa using hue
      subst huc
      have hnb : (e.toId, e.weight) ∈ neighborsOf edges entry.node :=
        mem_neighborsOf edges entry.node e he hef
      by_cases hto : e.toId ∈ (extractState edges st entry rest).perm
      · have h2 : (relaxAll entry.node pA tA (neighborsOf edges entry.node)
            (extractState edges st entry rest)).dmap e.toId = st.dmap e.toId := by
          rw [relaxAll_dmap_of_perm entry.node pA tA (neighborsOf edges entry.node) _ e.toId hto,
            extractState_dmap]
        have hdcur := (fresh_pop_opt edges source hNN st hinv entry rest hpop hfresh).2
        obtain ⟨W, hW, hWw⟩ := hinv.hreach entry.node hdcur
        have hopte := hopt1 e.toId hto
        rw [show (extractState edges st entry rest).dmap e.toId = st.dmap e.toId from rfl]
          at hopte
        have hwalk : IsWalk edges source (W ++ [e]) e.toId := by
          refine IsWalk.append edges W source entry.node e.toId [e] hW ?_
          rw [isWalk_cons]
          exact ⟨he, hef, by rw [isWalk_nil]⟩
        have h3 := hopte.1 (W ++ [e]) hwalk
        rw [h2, hdu]
        refine h3.trans ?_
        rw [walkWeight_append, walkWeight_cons, walkWeight_nil, add_zero, WithTop.coe_add,
          ← hWw]
      · have h3 := relaxAll_processed entry.node pA tA (neighborsOf edges entry.node)
          (extractState edges st entry rest) hcur e.toId e.weight hnb hto
        rw [hdu]
        rw [show (extractState edges st entry rest).dmap entry.node = st.dmap entry.node from rfl]
          at h3
        exact h3

theorem relax_measure (edges : List Edge) (st : DState) (entry : HeapEntry) (rest : Heap)
    (hpop : MinHeap.pop st.heap = some (entry, rest)) (hfresh : entry.node ∉ st.perm)
    (pA tA : List (NodeId × DVal)) :
    dMeasure edges
        (relaxAll entry.node pA tA (neighborsOf edges entry.node)
          (extractState edges st entry rest))
      < dMeasure edges st := by
  have hlen := pop_length st.heap entry rest hpop
  have hheap := relaxAll_heap_le entry.node pA tA (neighborsOf edges entry.node)
    (extractState edges st entry rest)
  rw [extractState_heap] at hheap
  have hnlen : (neighborsOf edges entry.node).length
      = (edges.filter fun e => e.fromId = entry.node).length := List.length_map _ _
  have hpart := filter_perm_partition edges st.perm entry.node hfresh
  have hpermeq : (relaxAll entry.node pA tA (neighborsOf edges entry.node)
      (extractState edges st entry rest)).perm = st.perm ++ [entry.node] := by
    rw [relaxAll_perm_eq, extractState_perm]
  simp only [dMeasure]
  rw [hpermeq]
  omega

theorem dloop_master (edges : List Edge) (source dest : NodeId) (hNN : NonnegWeights edges) :
    ∀ (fuel : ℕ) (st : DState), DInv edges source st →
      (DCore edges source (dijkstraLoop edges dest fuel st) ∧
        DOpt edges source (dijkstraLoop edges dest fuel st)) ∧
      (dMeasure edges st < fuel →
        dest ∈ (dijkstraLoop edges dest fuel st).perm ∨
          ((dijkstraLoop edges dest fuel st).heap = [] ∧
            DFrontier edges (dijkstraLoop edges dest fuel st))) := by
  intro fuel
  induction fuel with
  | zero =>
    intro st hinv
    rw [dijkstraLoop_zero]
    exact ⟨⟨hinv.toDCore, hinv.hopt⟩, fun h => absurd h (by omega)⟩
  | succ fuel ih =>
    intro st hinv
    rcases hpop : MinHeap.pop st.heap with _ | ⟨entry, rest⟩
    · have hempty : st.heap = [] := (pop_none_iff st.heap).mp hpop
      rw [dijkstraLoop_none edges dest fuel st hpop]
      exact ⟨⟨hinv.toDCore, hinv.hopt⟩, fun _ => Or.inr ⟨hempty, hinv.hfrontier⟩⟩
    · by_cases hstale : entry.node ∈ st.perm
      · rw [dijkstraLoop_stale edges dest fuel st entry rest hpop hstale]
        have hinv' := stale_inv edges source st hinv entry rest hpop hstale
        have hlen := pop_length st.heap entry rest hpop
        obtain ⟨hA, hB⟩ := ih { st with heap := rest } hinv'
        refine ⟨hA, fun h => hB ?_⟩
        simp only [dMeasure] at h ⊢
        omega
      · rw [dijkstraLoop_fresh edges dest fuel st entry rest hpop hstale]
        by_cases hdest : entry.node = dest
        · rw [if_pos hdest]
          obtain ⟨hcore1, hopt1⟩ := extract_core edges source hNN st hinv entry rest hpop hstale
          refine ⟨⟨hcore1, hopt1⟩, fun _ => Or.inl ?_⟩
          rw [extractState_perm]
          exact List.mem_append_right _ (by simp [hdest])
        · rw [if_neg hdest]
          have hinv2 := relax_inv edges source hNN st hinv entry rest hpop hstale
            ((st.perm ++ [entry.node]).map fun n => (n, st.dmap n)) (MinHeap.getAll rest)
          obtain ⟨hA, hB⟩ := ih _ hinv2
          refine ⟨hA, fun h => hB ?_⟩
          have := relax_measure edges st entry rest hpop hstale
            ((st.perm ++ [entry.node]).map fun n => (n, st.dmap n)) (MinHeap.getAll rest)
          omega

theorem init_inv (edges : List Edge) (source : NodeId) (steps0 : List Step) :
    DInv edges source
      { dmap := initDmap source, pmap := fun _ => none, perm := [],
        heap := MinHeap.push [] source ((0 : ℤ) : DVal), steps := steps0 } := by
  have hsrc0 : initDmap source source = ((0 : ℤ) : DVal) := Function.update_same _ _ _
  have hother : ∀ v, v ≠ source → initDmap source v = ⊤ := by
    intro v hv
    simp only [initDmap, Function.update_apply, if_neg hv]
  refine ⟨⟨?_, ?_, ?_, ?_, ?_, ?_, hsrc0⟩, ?_, ?_⟩
  · exact push_isHeap [] source _ isHeap_nil
  · intro x hx
    rcases (mem_push [] source _ x).mp hx with hx' | rfl
    · exact absurd hx' (List.not_mem_nil x)
    · exact WithTop.coe_ne_top
  · intro x hx
    rcases (mem_push [] source _ x).mp hx with hx' | rfl
    · exact absurd hx' (List.not_mem_nil x)
    · exact le_of_eq hsrc0
  · intro v hv hne
    dsimp only at hne ⊢
    rcases eq_or_ne v source with rfl | hvs
    · rw [hsrc0]
      exact (mem_push [] v _ _).mpr (Or.inr rfl)
    · exact absurd (hother v hvs) hne
  · intro v hne
    dsimp only at hne ⊢
    rcases eq_or_ne v source with rfl | hvs
    · refine ⟨[], ?_, ?_⟩
      · rw [isWalk_nil]
      · rw [hsrc0, walkWeight_nil]
    · exact absurd (hother v hvs) hne
  · intro v
    dsimp only
    rcases eq_or_ne v source with rfl | hvs
    · rw [hsrc0]
      exact le_refl _
    · rw [hother v hvs]
      exact le_top
  · intro v hv
    exact absurd hv (List.not_mem_nil v)
  · intro u hu
    exact absurd hu (List.not_mem_nil u)

theorem init_measure (edges : List Edge) (source : NodeId) (steps0 : List Step) :
    dMeasure edges
      { dmap := initDmap source, pmap := fun _ => none, perm := [],
        heap := MinHeap.push [] source ((0 : ℤ) : DVal), steps := steps0 }
      = edges.length + 1 := by
  simp only [dMeasure, push_length]
  have h : (edges.filter fun e => e.fromId ∉ ([] : List NodeId)) = edges :=
    List.filter_eq_self.mpr fun a _ => by simp
  rw [h]
  simp [List.length_nil]
  omega

theorem dijkstraRun_eq (nodes : List Node) (edges : List Edge) (source dest : NodeId) :
    dijkstraRun nodes edges source dest
      = dijkstraLoop edges dest (edges.length + 2)
          { dmap := initDmap source, pmap := fun _ => none, perm := [],
            heap := MinHeap.push [] source ((0 : ℤ) : DVal),
            steps := [{ tag := .init, distances := initDmap source,
                        previous := (fun _ => none),
                        tentative := [(source, ((0 : ℤ) : DVal))],
                        activeEdges := [] }] } := rfl

theorem dijkstraRun_master (nodes : List Node) (edges : List Edge) (source dest : NodeId)
    (hNN : NonnegWeights edges) :
    (DCore edges source (dijkstraRun nodes edges source dest) ∧
      DOpt edges source (dijkstraRun nodes edges source dest)) ∧
    (dest ∈ (dijkstraRun nodes edges source dest).perm ∨
      ((dijkstraRun nodes edges source dest).heap = [] ∧
        DFrontier edges (dijkstraRun nodes edges source dest))) := by
  rw [dijkstraRun_eq]
  obtain ⟨hA, hB⟩ := dloop_master edges source dest hNN (edges.length + 2) _
    (init_inv edges source _)
  exact ⟨hA, hB (by rw [init_measure]; omega)⟩

theorem empty_heap_allmin (edges : List Edge) (source : NodeId) (hNN : NonnegWeights edges)
    (st : DState) (hcore : DCore edges source st)
    (hopt : DOpt edges source st) (hfr : DFrontier edges st) (hheap : st.heap = []) :
    ∀ v, IsMinDist edges source v (st.dmap v) := by
  have htop : ∀ v, v ∉ st.perm → st.dmap v = ⊤ := by
    intro v hv
    by_contra hne
    have hmem := hcore.htent v hv hne
    rw [hheap] at hmem
    exact absurd hmem (List.not_mem_nil _)
  have hsrcmem : source ∈ st.perm := by
    by_contra hs
    have h0 := htop source hs
    rw [hcore.hsrc] at h0
    exact absurd h0 (by simp)
  intro v
  by_cases hv : v ∈ st.perm
  · exact hopt v hv
  · rw [htop v hv]
    constructor
    · intro W hW
      exfalso
      obtain ⟨x, e, es₁, hx, he, hef, hto, hW₁, hwt⟩ :=
        walk_crossing edges hNN st.perm W source v hW hsrcmem hv
      have hdx : st.dmap x ≤ (walkWeight es₁ : DVal) := (hopt x hx).1 es₁ hW₁
      have h2 : st.dmap e.toId ≤ st.dmap x + (e.weight : DVal) := hfr x hx e he hef
      rw [htop e.toId hto] at h2
      have h4 := top_le_iff.mp h2
      have h5 : st.dmap x = ⊤ := by
        rcases WithTop.add_eq_top.mp h4 with h | h
        · exact h
        · exact absurd h WithTop.coe_ne_top
      rw [h5] at hdx
      exact absurd (top_le_iff.mp hdx) WithTop.coe_ne_top
    · intro hne
      exact absurd rfl hne

theorem dijkstraCompleteStep_tag (nodes : List Node) (dest : NodeId) (st : DState) :
    (dijkstraCompleteStep nodes dest st).tag = StepTag.complete := rfl

theorem dijkstraCompleteStep_distances (nodes : List Node) (dest : NodeId) (st : DState) :
    (dijkstraCompleteStep nodes dest st).distances = st.dmap := rfl

theorem dijkstraCompleteStep_permanent (nodes : List Node) (dest : NodeId) (st : DState) :
    (dijkstraCompleteStep nodes dest st).permanent
      = st.perm.map fun nodeId => (nodeId, st.dmap nodeId) := rfl

theorem getLast_append_single {α : Type} (l : List α) (a : α) :
    (l ++ [a]).getLast? = some a := by
  rw [List.getLast?_concat]

theorem dijkstraSteps_eq (nodes : List Node) (edges : List Edge) (source dest : NodeId) :
    dijkstraSteps nodes edges source dest
      = (dijkstraRun nodes edges source dest).steps
          ++ [dijkstraCompleteStep nodes dest (dijkstraRun nodes edges source dest)] := rfl

/-- C1: on a graph with non-negative edge weights, the terminal `complete`
step of the Dijkstra tracer reports a minimal distance — minimum total edge
weight over all walks from the source, `⊤` (= `Infinity`) when the node is
unreachable — for the destination and for every node of the final permanent
set (the nodes whose distance the spec's own `extract` narration calls
final). The spec's claim over *every* node fails because the loop breaks as
soon as the destination is extracted, leaving still-tentative nodes with
over-approximated distances; see the counterexample. -/
theorem C1_dijkstra_complete (nodes : List Node) (edges : List Edge) (source dest : NodeId)
    (hNN : NonnegWeights edges) :
    ∃ S, (dijkstraSteps nodes edges source dest).getLast? = some S ∧
      S.tag = StepTag.complete ∧
      IsMinDist edges source dest (S.distances dest) ∧
      ∀ p ∈ S.permanent, S.distances p.1 = p.2 ∧ IsMinDist edges source p.1 p.2 := by
  obtain ⟨⟨hcore, hopt⟩, hterm⟩ := dijkstraRun_master nodes edges source dest hNN
  refine ⟨dijkstraCompleteStep nodes dest (dijkstraRun nodes edges source dest), ?_, rfl, ?_, ?_⟩
  · rw [dijkstraSteps_eq]
    exact getLast_append_single _ _
  · rw [dijkstraCompleteStep_distances]
    rcases hterm with hdest | ⟨hempty, hfr⟩
    · exact hopt dest hdest
    · exact empty_heap_allmin edges source hNN _ hcore hopt hfr hempty dest
  · intro p hp
    rw [dijkstraCompleteStep_permanent] at hp
    rw [dijkstraCompleteStep_distances]
    obtain ⟨n, hn, rfl⟩ := List.mem_map.mp hp
    exact ⟨rfl, hopt n hn⟩

/-- Witness for C1 at the spec's Example 1 (nodes A,B,C; edges (A,B,4),
(A,C,1), (C,B,1); source A, destination B): the hypotheses hold, the
theorem applies, and the complete step indeed reports distance 2 for B with
path [A,C,B]. -/
theorem C1_dijkstra_complete_witness :
    NonnegWeights [(⟨"A","B",4⟩ : Edge), ⟨"A","C",1⟩, ⟨"C","B",1⟩] ∧
    ((dijkstraSteps [⟨"A"⟩, ⟨"B"⟩, ⟨"C"⟩] [(⟨"A","B",4⟩ : Edge), ⟨"A","C",1⟩, ⟨"C","B",1⟩]
        "A" "B").getLast?.map fun S => (S.distances "B", S.path))
      = some (((2 : ℤ) : DVal), ["A", "C", "B"]) ∧
    ∃ S, (dijkstraSteps [⟨"A"⟩, ⟨"B"⟩, ⟨"C"⟩] [(⟨"A","B",4⟩ : Edge), ⟨"A","C",1⟩, ⟨"C","B",1⟩]
        "A" "B").getLast? = some S ∧
      S.tag = StepTag.complete ∧
      IsMinDist [(⟨"A","B",4⟩ : Edge), ⟨"A","C",1⟩, ⟨"C","B",1⟩] "A" "B" (S.distances "B") ∧
      ∀ p ∈ S.permanent, S.distances p.1 = p.2 ∧
        IsMinDist [(⟨"A","B",4⟩ : Edge), ⟨"A","C",1⟩, ⟨"C","B",1⟩] "A" p.1 p.2 :=
  ⟨by unfold NonnegWeights; decide, by decide,
    C1_dijkstra_complete [⟨"A"⟩, ⟨"B"⟩, ⟨"C"⟩] [⟨"A","B",4⟩, ⟨"A","C",1⟩, ⟨"C","B",1⟩]
      "A" "B" (by unfold NonnegWeights; decide)⟩

/-- Counterexample to C1 as stated: on nodes A,B,C with non-negative
edges (A,B,1), (A,C,5), (B,C,1), source A, destination B, the Dijkstra
tracer breaks as soon as B is extracted, so the terminal `complete` step
still reports the tentative distance 5 for C although the walk A→B→C has
total weight 2 — the complete step's distance is not minimal for every
node. -/
theorem C1_counterexample :
    NonnegWeights [(⟨"A","B",1⟩ : Edge), ⟨"A","C",5⟩, ⟨"B","C",1⟩] ∧
    ((dijkstraSteps [⟨"A"⟩, ⟨"B"⟩, ⟨"C"⟩] [(⟨"A","B",1⟩ : Edge), ⟨"A","C",5⟩, ⟨"B","C",1⟩]
        "A" "B").getLast?.map fun S => S.distances "C")
      = some ((5 : ℤ) : DVal) ∧
    ¬ IsMinDist [(⟨"A","B",1⟩ : Edge), ⟨"A","C",5⟩, ⟨"B","C",1⟩] "A" "C" ((5 : ℤ) : DVal) := by
  refine ⟨by unfold NonnegWeights; decide, by decide, ?_⟩
  intro h
  have h2 := h.1 [⟨"A","B",1⟩, ⟨"B","C",1⟩] (by decide)
  exact absurd h2 (by decide)

theorem relaxAll_steps_permanent (current : NodeId) (pA tA : List (NodeId × DVal)) :
    ∀ (l : List (NodeId × ℤ)) (st : DState) (s : Step),
      s ∈ (relaxAll current pA tA l st).steps → s ∈ st.steps ∨ s.permanent = pA
  | [], st, s => fun hs => Or.inl hs
  | (tgt, w) :: rest, st, s => by
    rw [relaxAll]
    split
    · exact relaxAll_steps_permanent current pA tA rest st s
    · dsimp only
      split
      · intro hs
        rcases relaxAll_steps_permanent current pA tA rest _ s hs with hs' | hp
        · rcases List.mem_append.mp hs' with h | h
          · exact Or.inl h
          · refine Or.inr ?_
            rw [List.mem_singleton] at h
            subst h
            rfl
        · exact Or.inr hp
      · intro hs
        rcases relaxAll_steps_permanent current pA tA rest _ s hs with hs' | hp
        · rcases List.mem_append.mp hs' with h | h
          · exact Or.inl h
          · refine Or.inr ?_
            rw [List.mem_singleton] at h
            subst h
            rfl
        · exact Or.inr hp

theorem map_fst_pair (l : List NodeId) (f : NodeId → DVal) :
    ((l.map fun n => (n, f n)).map Prod.fst) = l := by
  rw [List.map_map]
  exact List.map_id l

theorem mem_of_getLast_opt {α : Type} {l : List α} {x : α} (h : x ∈ l.getLast?) : x ∈ l := by
  obtain ⟨hne, rfl⟩ := List.mem_getLast?_eq_getLast h
  exact List.getLast_mem hne

theorem extractState_steps (edges : List Edge) (st : DState) (entry : HeapEntry) (rest : Heap) :
    ∃ ex : Step, (extractState edges st entry rest).steps = st.steps ++ [ex] ∧
      ex.tag = StepTag.extract ∧
      ex.permanent = (st.perm ++ [entry.node]).map fun n => (n, st.dmap n) :=
  ⟨_, rfl, rfl, rfl⟩

theorem dloop_steps_inv (edges : List Edge) (dest : NodeId) :
    ∀ (fuel : ℕ) (st : DState),
      st.perm.Nodup →
      (∀ s ∈ st.steps, (s.permanent.map Prod.fst).Nodup) →
      (∀ s ∈ st.steps, s.tag = StepTag.extract → s.permanent.map Prod.fst ⊆ st.perm) →
      List.Chain' (fun s₁ s₂ => s₁.permanent.map Prod.fst ⊆ s₂.permanent.map Prod.fst)
        (st.steps.filter fun s => s.tag = StepTag.extract) →
      (dijkstraLoop edges dest fuel st).perm.Nodup ∧
      (∀ s ∈ (dijkstraLoop edges dest fuel st).steps, (s.permanent.map Prod.fst).Nodup) ∧
      (∀ s ∈ (dijkstraLoop edges dest fuel st).steps, s.tag = StepTag.extract →
        s.permanent.map Prod.fst ⊆ (dijkstraLoop edges dest fuel st).perm) ∧
      List.Chain' (fun s₁ s₂ => s₁.permanent.map Prod.fst ⊆ s₂.permanent.map Prod.fst)
        ((dijkstraLoop edges dest fuel st).steps.filter fun s => s.tag = StepTag.extract) := by
  intro fuel
  induction fuel with
  | zero =>
    intro st h1 h2 h3 h4
    rw [dijkstraLoop_zero]
    exact ⟨h1, h2, h3, h4⟩
  | succ fuel ih =>
    intro st h1 h2 h3 h4
    rcases hpop : MinHeap.pop st.heap with _ | ⟨entry, rest⟩
    · rw [dijkstraLoop_none edges dest fuel st hpop]
      exact ⟨h1, h2, h3, h4⟩
    · by_cases hstale : entry.node ∈ st.perm
      · rw [dijkstraLoop_stale edges dest fuel st entry rest hpop hstale]
        exact ih { st with heap := rest } h1 h2 h3 h4
      · -- invariants for the extract state
        obtain ⟨ex, hexsteps, hextag, hexperm⟩ := extractState_steps edges st entry rest
        have hids : ex.permanent.map Prod.fst = st.perm ++ [entry.node] := by
          rw [hexperm, map_fst_pair]
        have h1' : (extractState edges st entry rest).perm.Nodup := by
          rw [extractState_perm]
          simp only [List.nodup_append, List.nodup_cons, List.not_mem_nil, not_false_iff,
            List.nodup_nil]
          refine ⟨h1, by simp, ?_⟩
          intro a ha hb
          have : a = entry.node := by simpa using hb
          subst this
          exact hstale ha
        have h2' : ∀ s ∈ (extractState edges st entry rest).steps,
            (s.permanent.map Prod.fst).Nodup := by
          intro s hs
          rw [hexsteps] at hs
          rcases List.mem_append.mp hs with h | h
          · exact h2 s h
          · rw [List.mem_singleton] at h
            subst h
            rw [hids]
            rw [extractState_perm] at h1'
            exact h1'
        have h3' : ∀ s ∈ (extractState edges st entry rest).steps,
            s.tag = StepTag.extract →
            s.permanent.map Prod.fst ⊆ (extractState edges st entry rest).perm := by
          intro s hs htag
          rw [extractState_perm]
          rw [hexsteps] at hs
          rcases List.mem_append.mp hs with h | h
          · exact (h3 s h htag).trans (List.subset_append_left _ _)
          · rw [List.mem_singleton] at h
            subst h
            rw [hids]
            exact List.Subset.refl _
        have h4' : List.Chain' (fun s₁ s₂ =>
              s₁.permanent.map Prod.fst ⊆ s₂.permanent.map Prod.fst)
            ((extractState edges st entry rest).steps.filter
              fun s => s.tag = StepTag.extract) := by
          rw [hexsteps, List.filter_append]
          rw [show List.filter (fun s => decide (s.tag = StepTag.extract)) [ex] = [ex] from by
            rw [List.filter_cons, if_pos (by rw [hextag]; simp)]
            rfl]
          rw [List.chain'_append]
          refine ⟨h4, List.chain'_singleton _, ?_⟩
          intro x hx y hy
          have hy' : ex = y := by simpa using hy
          subst hy'
          have hxmem := mem_of_getLast_opt hx
          have hxfil := List.mem_filter.mp hxmem
          have hxtag : x.tag = StepTag.extract := by simpa using hxfil.2
          rw [hids]
          exact (h3 x hxfil.1 hxtag).trans (List.subset_append_left _ _)
        have hfresh := dijkstraLoop_fresh edges dest fuel st entry rest hpop hstale
        by_cases hdest : entry.node = dest
        · rw [hfresh, if_pos hdest]
          exact ⟨h1', h2', h3', h4'⟩
        · rw [hfresh, if_neg hdest]
          set pA := (st.perm ++ [entry.node]).map fun n => (n, st.dmap n) with hpA
          have hpermeq := relaxAll_perm_eq entry.node pA (MinHeap.getAll rest)
            (neighborsOf edges entry.node) (extractState edges st entry rest)
          have hfilter := relaxAll_steps_filter (fun s => s.tag = StepTag.extract)
            (fun s hs => by simp [hs]) (fun s hs => by simp [hs])
            entry.node pA (MinHeap.getAll rest) (neighborsOf edges entry.node)
            (extractState edges st entry rest)
          refine ih _ ?_ ?_ ?_ ?_
          · rw [hpermeq]
            exact h1'
          · intro s hs
            rcases relaxAll_steps_permanent entry.node pA (MinHeap.getAll rest)
                (neighborsOf edges entry.node) (extractState edges st entry rest) s hs
              with h | h
            · exact h2' s h
            · rw [h, hpA, map_fst_pair]
              rw [extractState_perm] at h1'
              exact h1'
          · intro s hs htag
            rw [hpermeq]
            rcases relaxAll_steps_mem entry.node pA (MinHeap.getAll rest)
                (neighborsOf edges entry.node) (extractState edges st entry rest) s hs
              with h | h | h
            · exact h3' s h htag
            · rw [htag] at h
              exact absurd h (by simp)
            · rw [htag] at h
              exact absurd h (by simp)
          · rw [hfilter]
            exact h4'

/-- C5: in every step sequence produced by the Dijkstra tracer, the
permanent sets of the `extract` steps, read in emission order, grow
monotonically (each one's node-id list is contained in the next), and the
permanent set of every step lists each node id at most once. -/
theorem C5_permanent_monotone (nodes : List Node) (edges : List Edge) (source dest : NodeId) :
    List.Chain' (fun s₁ s₂ => s₁.permanent.map Prod.fst ⊆ s₂.permanent.map Prod.fst)
      ((dijkstraSteps nodes edges source dest).filter fun s => s.tag = StepTag.extract) ∧
    ∀ s ∈ dijkstraSteps nodes edges source dest, (s.permanent.map Prod.fst).Nodup := by
  have hrun := dijkstraRun_eq nodes edges source dest
  obtain ⟨hnd, hall, hsub, hchain⟩ := dloop_steps_inv edges dest (edges.length + 2)
    { dmap := initDmap source, pmap := fun _ => none, perm := [],
      heap := MinHeap.push [] source ((0 : ℤ) : DVal),
      steps := [{ tag := .init, distances := initDmap source,
                  previous := (fun _ => none),
                  tentative := [(source, ((0 : ℤ) : DVal))],
                  activeEdges := [] }] }
    (by simp) (by intro s hs; rw [List.mem_singleton] at hs; subst hs; simp)
    (by intro s hs htag; rw [List.mem_singleton] at hs; subst hs; simp at htag)
    (by dsimp only
        rw [List.filter_cons, if_neg (by simp), List.filter_nil]
        exact List.chain'_nil)
  rw [← hrun] at hnd hall hsub hchain
  constructor
  · rw [dijkstraSteps_eq, List.filter_append]
    rw [show List.filter (fun s => decide (s.tag = StepTag.extract))
        [dijkstraCompleteStep nodes dest (dijkstraRun nodes edges source dest)] = [] from by
      rw [List.filter_cons, if_neg (by rw [dijkstraCompleteStep_tag]; simp)]
      rfl]
    rw [List.append_nil]
    exact hchain
  · intro s hs
    rw [dijkstraSteps_eq] at hs
    rcases List.mem_append.mp hs with h | h
    · exact hall s h
    · rw [List.mem_singleton] at h
      subst h
      rw [dijkstraCompleteStep_permanent, map_fst_pair]
      exact hnd

theorem relaxAll_pmap_fin (current : NodeId) (pA tA : List (NodeId × DVal)) :
    ∀ (l : List (NodeId × ℤ)) (st : DState),
      (∀ v, st.pmap v ≠ none → st.dmap v ≠ ⊤) →
      ∀ v, (relaxAll current pA tA l st).pmap v ≠ none →
        (relaxAll current pA tA l st).dmap v ≠ ⊤
  | [], st, h, v => h v
  | (tgt, w) :: rest, st, h, v => by
    rw [relaxAll]
    split
    · exact relaxAll_pmap_fin current pA tA rest st h v
    · dsimp only
      split
      · next halt =>
        refine relaxAll_pmap_fin current pA tA rest _ ?_ v
        intro u hu
        dsimp only at hu ⊢
        rcases eq_or_ne u tgt with rfl | hne
        · rw [Function.update_same]
          exact ne_top_of_lt halt
        · rw [Function.update_apply, if_neg hne] at hu ⊢
          exact h u hu
      · refine relaxAll_pmap_fin current pA tA rest _ ?_ v
        exact h

theorem dloop_pmap_fin (edges : List Edge) (dest : NodeId) :
    ∀ (fuel : ℕ) (st : DState),
      (∀ v, st.pmap v ≠ none → st.dmap v ≠ ⊤) →
      ∀ v, (dijkstraLoop edges dest fuel st).pmap v ≠ none →
        (dijkstraLoop edges dest fuel st).dmap v ≠ ⊤ := by
  intro fuel
  induction fuel with
  | zero =>
    intro st h v
    rw [dijkstraLoop_zero]
    exact h v
  | succ fuel ih =>
    intro st h v
    rcases hpop : MinHeap.pop st.heap with _ | ⟨entry, rest⟩
    · rw [dijkstraLoop_none edges dest fuel st hpop]
      exact h v
    · by_cases hstale : entry.node ∈ st.perm
      · rw [dijkstraLoop_stale edges dest fuel st entry rest hpop hstale]
        exact ih { st with heap := rest } h v
      · rw [dijkstraLoop_fresh edges dest fuel st entry rest hpop hstale]
        by_cases hdest : entry.node = dest
        · rw [if_pos hdest]
          exact h v
        · rw [if_neg hdest]
          refine ih _ ?_ v
          exact relaxAll_pmap_fin entry.node _ _ (neighborsOf edges entry.node)
            (extractState edges st entry rest) h

theorem dloop_steps_tags (edges : List Edge) (dest : NodeId) :
    ∀ (fuel : ℕ) (st : DState) (s : Step),
      s ∈ (dijkstraLoop edges dest fuel st).steps →
      s ∈ st.steps ∨ s.tag = StepTag.extract ∨ s.tag = StepTag.update ∨
        s.tag = StepTag.noUpdate := by
  intro fuel
  induction fuel with
  | zero =>
    intro st s hs
    rw [dijkstraLoop_zero] at hs
    exact Or.inl hs
  | succ fuel ih =>
    intro st s hs
    rcases hpop : MinHeap.pop st.heap with _ | ⟨entry, rest⟩
    · rw [dijkstraLoop_none edges dest fuel st hpop] at hs
      exact Or.inl hs
    · obtain ⟨ex, hexsteps, hextag, hexperm⟩ := extractState_steps edges st entry rest
      by_cases hstale : entry.node ∈ st.perm
      · rw [dijkstraLoop_stale edges dest fuel st entry rest hpop hstale] at hs
        exact ih { st with heap := rest } s hs
      · rw [dijkstraLoop_fresh edges dest fuel st entry rest hpop hstale] at hs
        by_cases hdest : entry.node = dest
        · rw [if_pos hdest, hexsteps] at hs
          rcases List.mem_append.mp hs with h | h
          · exact Or.inl h
          · rw [List.mem_singleton] at h
            subst h
            exact Or.inr (Or.inl hextag)
        · rw [if_neg hdest] at hs
          rcases ih _ s hs with h | h
          · rcases relaxAll_steps_mem entry.node _ _ (neighborsOf edges entry.node)
                (extractState edges st entry rest) s h with h' | h' | h'
            · rw [hexsteps] at h'
              rcases List.mem_append.mp h' with h'' | h''
              · exact Or.inl h''
              · rw [List.mem_singleton] at h''
                subst h''
                exact Or.inr (Or.inl hextag)
            · exact Or.inr (Or.inr (Or.inl h'))
            · exact Or.inr (Or.inr (Or.inr h'))
          · exact Or.inr h

theorem dijkstraCompleteStep_path (nodes : List Node) (dest : NodeId) (st : DState) :
    (dijkstraCompleteStep nodes dest st).path
      = if st.dmap dest ≠ ⊤ then (chainFrom st.pmap (nodes.length + 1) (some dest)).reverse
        else [] := rfl

theorem dijkstraCompleteStep_activeEdges (nodes : List Node) (dest : NodeId) (st : DState) :
    (dijkstraCompleteStep nodes dest st).activeEdges
      = pairsOf (chainFrom st.pmap (nodes.length + 1) (some dest)).reverse := rfl

theorem chainFrom_none (previous : NodeId → Option NodeId) (fuel : ℕ) :
    chainFrom previous fuel none = [] := by
  cases fuel with
  | zero => rfl
  | succ fuel => rfl

theorem dijkstraRun_pmap_fin (nodes : List Node) (edges : List Edge) (source dest : NodeId) :
    ∀ v, (dijkstraRun nodes edges source dest).pmap v ≠ none →
      (dijkstraRun nodes edges source dest).dmap v ≠ ⊤ := by
  rw [dijkstraRun_eq]
  refine dloop_pmap_fin edges dest (edges.length + 2) _ ?_
  intro v hv
  exact absurd rfl hv

theorem dijkstra_complete_path_edges (nodes : List Node) (edges : List Edge)
    (source dest : NodeId) :
    ∀ S ∈ dijkstraSteps nodes edges source dest, S.tag = StepTag.complete →
      pairsOf S.path = S.activeEdges ∧
        (S.distances dest = ⊤ → S.path = [] ∧ S.activeEdges = []) := by
  intro S hS htag
  rw [dijkstraSteps_eq] at hS
  rcases List.mem_append.mp hS with h | h
  · rw [dijkstraRun_eq] at h
    rcases dloop_steps_tags edges dest (edges.length + 2) _ S h with h' | h' | h' | h'
    · rw [List.mem_singleton] at h'
      subst h'
      simp at htag
    · rw [h'] at htag
      exact absurd htag (by decide)
    · rw [h'] at htag
      exact absurd htag (by decide)
    · rw [h'] at htag
      exact absurd htag (by decide)
  · rw [List.mem_singleton] at h
    subst h
    by_cases hd : (dijkstraRun nodes edges source dest).dmap dest = ⊤
    · have hpnone : (dijkstraRun nodes edges source dest).pmap dest = none := by
        by_contra hp
        exact dijkstraRun_pmap_fin nodes edges source dest dest hp hd
      have hchain : chainFrom (dijkstraRun nodes edges source dest).pmap (nodes.length + 1)
          (some dest) = [dest] := by
        rw [chainFrom, hpnone, chainFrom_none]
      rw [dijkstraCompleteStep_path, dijkstraCompleteStep_activeEdges, hchain,
        dijkstraCompleteStep_distances]
      rw [if_neg (not_not_intro hd)]
      exact ⟨rfl, fun _ => ⟨rfl, rfl⟩⟩
    · rw [dijkstraCompleteStep_path, dijkstraCompleteStep_activeEdges,
        dijkstraCompleteStep_distances]
      rw [if_pos hd]
      exact ⟨rfl, fun h => absurd h hd⟩

theorem bfScan_pmap_fin (iter : ℕ) :
    ∀ (l : List (ℕ × Edge)) (acc : BFState × Bool),
      (∀ v, acc.1.pmap v ≠ none → acc.1.dmap v ≠ ⊤) →
      ∀ v, (bfScan iter l acc).1.pmap v ≠ none → (bfScan iter l acc).1.dmap v ≠ ⊤
  | [], acc, h, v => h v
  | (edgeIndex, edge) :: rest, (st, updated), h, v => by
    rw [bfScan]
    split
    · next hfin =>
      dsimp only
      split
      · next halt =>
        refine bfScan_pmap_fin iter rest _ ?_ v
        intro u hu
        dsimp only at hu ⊢
        rcases eq_or_ne u edge.toId with rfl | hne
        · rw [Function.update_same]
          exact WithTop.add_ne_top.mpr ⟨hfin, WithTop.coe_ne_top⟩
        · rw [Function.update_apply, if_neg hne] at hu ⊢
          exact h u hu
      · refine bfScan_pmap_fin iter rest _ ?_ v
        exact h
    · refine bfScan_pmap_fin iter rest _ ?_ v
      exact h

theorem bfPasses_pmap_fin (edges : List Edge) :
    ∀ (k i : ℕ) (st : BFState),
      (∀ v, st.pmap v ≠ none → st.dmap v ≠ ⊤) →
      ∀ v, (bfPasses edges k i st).pmap v ≠ none → (bfPasses edges k i st).dmap v ≠ ⊤ := by
  intro k
  induction k with
  | zero =>
    intro i st h v
    rw [bfPasses]
    exact h v
  | succ k ih =>
    intro i st h v
    rw [bfPasses]
    dsimp only
    have hscan := bfScan_pmap_fin (i + 1) edges.enum
      ({ st with steps := st.steps ++
          [{ tag := .iterationStart, distances := st.dmap, previous := st.pmap,
             iteration := i + 1 }] }, false) h
    split
    · refine ih (i + 1) _ ?_ v
      exact hscan
    · exact hscan v

theorem bfScan_steps_tags (iter : ℕ) :
    ∀ (l : List (ℕ × Edge)) (acc : BFState × Bool) (s : Step),
      s ∈ (bfScan iter l acc).1.steps →
      s ∈ acc.1.steps ∨ s.tag = StepTag.update ∨ s.tag = StepTag.noUpdate ∨
        s.tag = StepTag.skip
  | [], acc, s => fun hs => Or.inl hs
  | (edgeIndex, edge) :: rest, (st, updated), s => by
    rw [bfScan]
    split
    · dsimp only
      split
      · intro hs
        rcases bfScan_steps_tags iter rest _ s hs with h | h
        · rcases List.mem_append.mp h with h' | h'
          · exact Or.inl h'
          · rw [List.mem_singleton] at h'
            subst h'
            exact Or.inr (Or.inl rfl)
        · exact Or.inr h
      · intro hs
        rcases bfScan_steps_tags iter rest _ s hs with h | h
        · rcases List.mem_append.mp h with h' | h'
          · exact Or.inl h'
          · rw [List.mem_singleton] at h'
            subst h'
            exact Or.inr (Or.inr (Or.inl rfl))
        · exact Or.inr h
    · intro hs
      rcases bfScan_steps_tags iter rest _ s hs with h | h
      · rcases List.mem_append.mp h with h' | h'
        · exact Or.inl h'
        · rw [List.mem_singleton] at h'
          subst h'
          exact Or.inr (Or.inr (Or.inr rfl))
      · exact Or.inr h

theorem bfPasses_steps_tags (edges : List Edge) :
    ∀ (k i : ℕ) (st : BFState) (s : Step),
      s ∈ (bfPasses edges k i st).steps →
      s ∈ st.steps ∨ s.tag = StepTag.iterationStart ∨ s.tag = StepTag.iterationEnd ∨
        s.tag = StepTag.update ∨ s.tag = StepTag.noUpdate ∨ s.tag = StepTag.skip := by
  intro k
  induction k with
  | zero =>
    intro i st s hs
    rw [bfPasses] at hs
    exact Or.inl hs
  | succ k ih =>
    intro i st s hs
    rw [bfPasses] at hs
    dsimp only at hs
    have hstep : ∀ t : BFState, s ∈ t.steps ++
        [{ tag := StepTag.iterationEnd, distances := t.dmap, previous := t.pmap,
           iteration := i + 1,
           updatedFlag := (bfScan (i + 1) edges.enum
             ({ st with steps := st.steps ++
                [{ tag := StepTag.iterationStart, distances := st.dmap, previous := st.pmap,
                   iteration := i + 1 }] }, false)).2 }] →
        s ∈ t.steps ∨ s.tag = StepTag.iterationEnd := by
      intro t ht
      rcases List.mem_append.mp ht with h | h
      · exact Or.inl h
      · rw [List.mem_singleton] at h
        subst h
        exact Or.inr rfl
    split at hs
    · rcases ih (i + 1) _ s hs with h | h
      · rcases hstep _ h with h' | h'
        · rcases bfScan_steps_tags (i + 1) edges.enum _ s h' with h'' | h''
          · rcases List.mem_append.mp h'' with h3 | h3
            · exact Or.inl h3
            · rw [List.mem_singleton] at h3
              subst h3
              exact Or.inr (Or.inl rfl)
          · exact Or.inr (Or.inr (Or.inr h''))
        · exact Or.inr (Or.inr (Or.inl h'))
      · exact Or.inr h
    · rcases hstep _ hs with h' | h'
      · rcases bfScan_steps_tags (i + 1) edges.enum _ s h' with h'' | h''
        · rcases List.mem_append.mp h'' with h3 | h3
          · exact Or.inl h3
          · rw [List.mem_singleton] at h3
            subst h3
            exact Or.inr (Or.inl rfl)
        · exact Or.inr (Or.inr (Or.inr h''))
      · exact Or.inr (Or.inr (Or.inl h'))

theorem bf_complete_path_edges (nodes : List Node) (edges : List Edge) (source dest : NodeId) :
    ∀ S ∈ bellmanFordSteps nodes edges source dest, S.tag = StepTag.complete →
      pairsOf S.path = S.activeEdges ∧
        (S.distances dest = ⊤ → S.path = [] ∧ S.activeEdges = []) := by
  have hfin := bfPasses_pmap_fin edges (nodes.length - 1) 0
    { dmap := initDmap source, pmap := (fun _ => none),
      steps := [{ tag := .showEdges, distances := initDmap source,
                  previous := (fun _ => none), iteration := 0, edgesShown := edges },
                { tag := .init, distances := initDmap source,
                  previous := (fun _ => none), iteration := 0 }] }
    (fun v hv => absurd rfl hv)
  have htags := bfPasses_steps_tags edges (nodes.length - 1) 0
    { dmap := initDmap source, pmap := (fun _ => none),
      steps := [{ tag := .showEdges, distances := initDmap source,
                  previous := (fun _ => none), iteration := 0, edgesShown := edges },
                { tag := .init, distances := initDmap source,
                  previous := (fun _ => none), iteration := 0 }] }
  unfold bellmanFordSteps bellmanFordRun
  dsimp only
  intro S hS htag
  have hnotloop : S ∉ (bfPasses edges (nodes.length - 1) 0
      { dmap := initDmap source, pmap := (fun _ => none),
        steps := [{ tag := .showEdges, distances := initDmap source,
                    previous := (fun _ => none), iteration := 0, edgesShown := edges },
                  { tag := .init, distances := initDmap source,
                    previous := (fun _ => none), iteration := 0 }] }).steps := by
    intro hmem
    rcases htags S hmem with h | h | h | h | h | h
    · rcases List.mem_cons.mp h with h' | h'
      · subst h'
        simp at htag
      · rcases List.mem_cons.mp h' with h'' | h''
        · subst h''
          simp at htag
        · exact absurd h'' (List.not_mem_nil S)
    all_goals rw [h] at htag; exact absurd htag (by decide)
  split at hS
  · dsimp only at hS
    rcases List.mem_append.mp hS with h | h
    · exact absurd h hnotloop
    · rw [List.mem_singleton] at h
      subst h
      simp at htag
  · next hchk =>
    dsimp only at hS
    rcases List.mem_append.mp hS with h | h
    · exact absurd h hnotloop
    · rw [List.mem_singleton] at h
      subst h
      dsimp only
      by_cases hd : (bfPasses edges (nodes.length - 1) 0
          { dmap := initDmap source, pmap := (fun _ => none),
            steps := [{ tag := .showEdges, distances := initDmap source,
                        previous := (fun _ => none), iteration := 0, edgesShown := edges },
                      { tag := .init, distances := initDmap source,
                        previous := (fun _ => none), iteration := 0 }] }).dmap dest = ⊤
      · have hpnone : (bfPasses edges (nodes.length - 1) 0
            { dmap := initDmap source, pmap := (fun _ => none),
              steps := [{ tag := .showEdges, distances := initDmap source,
                          previous := (fun _ => none), iteration := 0, edgesShown := edges },
                        { tag := .init, distances := initDmap source,
                          previous := (fun _ => none), iteration := 0 }] }).pmap dest = none := by
          by_contra hp
          exact hfin dest hp hd
        have hchain : chainFrom (bfPasses edges (nodes.length - 1) 0
            { dmap := initDmap source, pmap := (fun _ => none),
              steps := [{ tag := .showEdges, distances := initDmap source,
                          previous := (fun _ => none), iteration := 0, edgesShown := edges },
                        { tag := .init, distances := initDmap source,
                          previous := (fun _ => none), iteration := 0 }] }).pmap
            (nodes.length + 1) (some dest) = [dest] := by
          rw [chainFrom, hpnone, chainFrom_none]
        rw [hchain, if_neg (not_not_intro hd)]
        exact ⟨rfl, fun _ => ⟨rfl, rfl⟩⟩
      · rw [if_pos hd]
        exact ⟨rfl, fun h => absurd h hd⟩

/-- C7: every `complete` step of either tracer satisfies the path/edges
relation: turning the step's `path` into its list of consecutive ordered
pairs gives exactly the step's `activeEdges`, and when the destination's
recorded distance is `⊤` (= `Infinity`, unreached) both the path and the
active edges are empty. -/
theorem C7_path_edges (nodes : List Node) (edges : List Edge) (source dest : NodeId) :
    (∀ S ∈ dijkstraSteps nodes edges source dest, S.tag = StepTag.complete →
      pairsOf S.path = S.activeEdges ∧
        (S.distances dest = ⊤ → S.path = [] ∧ S.activeEdges = [])) ∧
    (∀ S ∈ bellmanFordSteps nodes edges source dest, S.tag = StepTag.complete →
      pairsOf S.path = S.activeEdges ∧
        (S.distances dest = ⊤ → S.path = [] ∧ S.activeEdges = [])) :=
  ⟨dijkstra_complete_path_edges nodes edges source dest,
   bf_complete_path_edges nodes edges source dest⟩

theorem bfScan_dmap_le (iter : ℕ) :
    ∀ (l : List (ℕ × Edge)) (acc : BFState × Bool) (v : NodeId),
      (bfScan iter l acc).1.dmap v ≤ acc.1.dmap v
  | [], acc, v => le_refl _
  | (edgeIndex, edge) :: rest, (st, updated), v => by
    rw [bfScan]
    split
    · next hfin =>
      dsimp only
      split
      · next halt =>
        refine (bfScan_dmap_le iter rest _ v).trans ?_
        dsimp only
        rw [Function.update_apply]
        split
        · next hveq =>
          rw [hveq]
          exact halt.le
        · exact le_refl _
      · exact bfScan_dmap_le iter rest _ v
    · exact bfScan_dmap_le iter rest _ v

theorem bfScan_flag_mono (iter : ℕ) :
    ∀ (l : List (ℕ × Edge)) (st : BFState), (bfScan iter l (st, true)).2 = true
  | [], st => rfl
  | (edgeIndex, edge) :: rest, st => by
    rw [bfScan]
    split
    · dsimp only
      split
      · exact bfScan_flag_mono iter rest _
      · exact bfScan_flag_mono iter rest _
    · exact bfScan_flag_mono iter rest _

theorem bfScan_false_dmap (iter : ℕ) :
    ∀ (l : List (ℕ × Edge)) (acc : BFState × Bool),
      (bfScan iter l acc).2 = false → (bfScan iter l acc).1.dmap = acc.1.dmap
  | [], acc, _ => rfl
  | (edgeIndex, edge) :: rest, (st, updated), h => by
    rw [bfScan] at h ⊢
    by_cases hfin : st.dmap edge.fromId ≠ ⊤
    · rw [if_pos hfin] at h ⊢
      dsimp only at h ⊢
      by_cases halt : st.dmap edge.fromId + (edge.weight : DVal) < st.dmap edge.toId
      · rw [if_pos halt] at h
        rw [bfScan_flag_mono iter rest _] at h
        exact absurd h (by decide)
      · rw [if_neg halt] at h ⊢
        exact bfScan_false_dmap iter rest _ h
    · rw [if_neg hfin] at h ⊢
      exact bfScan_false_dmap iter rest _ h

theorem bfScan_false_relax (iter : ℕ) :
    ∀ (l : List (ℕ × Edge)) (st : BFState) (b : Bool),
      (bfScan iter l (st, b)).2 = false →
      ∀ p ∈ l, st.dmap p.2.fromId ≠ ⊤ →
        st.dmap p.2.toId ≤ st.dmap p.2.fromId + (p.2.weight : DVal)
  | [], st, b, _, p, hp => absurd hp (List.not_mem_nil p)
  | (edgeIndex, edge) :: rest, st, b, h, p, hp => by
    intro hfin
    rw [bfScan] at h
    by_cases hfin0 : st.dmap edge.fromId ≠ ⊤
    · rw [if_pos hfin0] at h
      dsimp only at h
      by_cases halt : st.dmap edge.fromId + (edge.weight : DVal) < st.dmap edge.toId
      · rw [if_pos halt] at h
        rw [bfScan_flag_mono iter rest _] at h
        exact absurd h (by decide)
      · rw [if_neg halt] at h
        rcases List.mem_cons.mp hp with rfl | hp'
        · exact le_of_not_lt halt
        · exact bfScan_false_relax iter rest _ b h p hp' hfin
    · rw [if_neg hfin0] at h
      rcases List.mem_cons.mp hp with rfl | hp'
      · exact absurd hfin hfin0
      · exact bfScan_false_relax iter rest _ b h p hp' hfin

theorem bfScan_relax (iter : ℕ) :
    ∀ (l : List (ℕ × Edge)) (acc : BFState × Bool) (p : ℕ × Edge), p ∈ l →
      acc.1.dmap p.2.fromId ≠ ⊤ →
      (bfScan iter l acc).1.dmap p.2.toId ≤ acc.1.dmap p.2.fromId + (p.2.weight : DVal)
  | [], _, p, hp, _ => absurd hp (List.not_mem_nil p)
  | (edgeIndex, edge) :: rest, (st, updated), p, hp, hfin => by
    rw [bfScan]
    rcases List.mem_cons.mp hp with rfl | hp'
    · rw [if_pos hfin]
      dsimp only
      by_cases halt : st.dmap edge.fromId + (edge.weight : DVal) < st.dmap edge.toId
      · rw [if_pos halt]
        refine (bfScan_dmap_le iter rest _ edge.toId).trans ?_
        dsimp only
        rw [Function.update_same]
      · rw [if_neg halt]
        refine (bfScan_dmap_le iter rest _ edge.toId).trans ?_
        exact le_of_not_lt halt
    · by_cases hfin0 : st.dmap edge.fromId ≠ ⊤
      · rw [if_pos hfin0]
        dsimp only
        by_cases halt : st.dmap edge.fromId + (edge.weight : DVal) < st.dmap edge.toId
        · rw [if_pos halt]
          have hle : Function.update st.dmap edge.toId
                (st.dmap edge.fromId + (edge.weight : DVal)) p.2.fromId
              ≤ st.dmap p.2.fromId := by
            rw [Function.update_apply]
            split
            · next heq =>
              rw [heq]
              exact halt.le
            · exact le_refl _
          have hfin' : Function.update st.dmap edge.toId
              (st.dmap edge.fromId + (edge.weight : DVal)) p.2.fromId ≠ ⊤ :=
            ne_top_of_le_ne_top hfin hle
          refine (bfScan_relax iter rest _ p hp' hfin').trans ?_
          exact add_le_add_right hle _
        · rw [if_neg halt]
          exact bfScan_relax iter rest _ p hp' hfin
      · rw [if_neg hfin0]
        exact bfScan_relax iter rest _ p hp' hfin

theorem bfScan_reach (edges : List Edge) (source : NodeId) (iter : ℕ) :
    ∀ (l : List (ℕ × Edge)) (acc : BFState × Bool),
      (∀ p ∈ l, p.2 ∈ edges) →
      (∀ v, acc.1.dmap v ≠ ⊤ →
        ∃ es, IsWalk edges source es v ∧ acc.1.dmap v = (walkWeight es : DVal)) →
      ∀ v, (bfScan iter l acc).1.dmap v ≠ ⊤ →
        ∃ es, IsWalk edges source es v ∧ (bfScan iter l acc).1.dmap v = (walkWeight es : DVal)
  | [], acc, _, hreach, v => hreach v
  | (edgeIndex, edge) :: rest, (st, updated), hl, hreach, v => by
    rw [bfScan]
    split
    · next hfin =>
      dsimp only
      split
      · next halt =>
        refine bfScan_reach edges source iter rest _
          (fun p hp => hl p (List.mem_cons_of_mem _ hp)) ?_ v
        intro u hu
        dsimp only at hu ⊢
        rcases eq_or_ne u edge.toId with rfl | hne
        · rw [Function.update_same] at hu ⊢
          obtain ⟨W, hW, hWw⟩ := hreach edge.fromId hfin
          refine ⟨W ++ [edge], ?_, ?_⟩
          · refine IsWalk.append edges W source edge.fromId edge.toId [edge] hW ?_
            rw [isWalk_cons]
            exact ⟨hl (edgeIndex, edge) (List.mem_cons_self _ _), rfl, by rw [isWalk_nil]⟩
          · rw [walkWeight_append, walkWeight_cons, walkWeight_nil, add_zero,
              WithTop.coe_add, hWw]
        · rw [Function.update_apply, if_neg hne] at hu ⊢
          exact hreach u hu
      · refine bfScan_reach edges source iter rest _
          (fun p hp => hl p (List.mem_cons_of_mem _ hp)) ?_ v
        exact hreach
    · refine bfScan_reach edges source iter rest _
        (fun p hp => hl p (List.mem_cons_of_mem _ hp)) ?_ v
      exact hreach

theorem mem_enumFrom_of_mem {α : Type} :
    ∀ (l : List α) (n : ℕ) (a : α), a ∈ l → ∃ i, (i, a) ∈ l.enumFrom n
  | [], _, a, ha => absurd ha (List.not_mem_nil a)
  | x :: t, n, a, ha => by
    rcases List.mem_cons.mp ha with rfl | ha'
    · exact ⟨n, List.mem_cons_self _ _⟩
    · obtain ⟨i, hi⟩ := mem_enumFrom_of_mem t (n + 1) a ha'
      exact ⟨i, List.mem_cons_of_mem _ hi⟩

theorem mem_enum_of_mem {α : Type} (l : List α) (a : α) (ha : a ∈ l) :
    ∃ i, (i, a) ∈ l.enum :=
  mem_enumFrom_of_mem l 0 a ha

theorem enum_mem {α : Type} :
    ∀ (l : List α) (n : ℕ) (p : ℕ × α), p ∈ l.enumFrom n → p.2 ∈ l
  | [], _, p, hp => absurd hp (List.not_mem_nil p)
  | x :: t, n, p, hp => by
    rcases List.mem_cons.mp hp with rfl | hp'
    · exact List.mem_cons_self _ _
    · exact List.mem_cons_of_mem _ (enum_mem t (n + 1) p hp')

theorem walk_snoc (edges : List Edge) :
    ∀ (es : List Edge) (e : Edge) (u v : NodeId),
      IsWalk edges u (es ++ [e]) v ↔ IsWalk edges u es e.fromId ∧ e ∈ edges ∧ e.toId = v
  | [], e, u, v => by
    rw [List.nil_append, isWalk_cons, isWalk_nil, isWalk_nil]
    constructor
    · rintro ⟨he, hf, ht⟩
      exact ⟨hf.symm, he, ht⟩
    · rintro ⟨hf, he, ht⟩
      exact ⟨he, hf.symm, ht⟩
  | e' :: es, e, u, v => by
    rw [List.cons_append, isWalk_cons, isWalk_cons, walk_snoc edges es e e'.toId v]
    tauto

theorem bfScan_pass_bound (edges : List Edge) (source : NodeId) (iter : ℕ) (j : ℕ)
    (acc : BFState × Bool)
    (hbnd : ∀ v es, IsWalk edges source es v → es.length ≤ j →
      acc.1.dmap v ≤ (walkWeight es : DVal)) :
    ∀ v es, IsWalk edges source es v → es.length ≤ j + 1 →
      (bfScan iter edges.enum acc).1.dmap v ≤ (walkWeight es : DVal) := by
  intro v es hW hlen
  rcases List.eq_nil_or_concat es with rfl | ⟨es', e, rfl⟩
  · rw [isWalk_nil] at hW
    subst hW
    exact (bfScan_dmap_le iter edges.enum acc source).trans
      (hbnd source [] (by rw [isWalk_nil]) (by simp))
  · rw [List.concat_eq_append] at hW hlen ⊢
    rw [walk_snoc] at hW
    obtain ⟨hW', he, htv⟩ := hW
    have hlen' : es'.length ≤ j := by
      rw [List.length_append] at hlen
      simp only [List.length_cons, List.length_nil] at hlen
      omega
    have hb := hbnd e.fromId es' hW' hlen'
    have hfin : acc.1.dmap e.fromId ≠ ⊤ := ne_top_of_le_ne_top WithTop.coe_ne_top hb
    obtain ⟨i, hi⟩ := mem_enum_of_mem edges e he
    have hr := bfScan_relax iter edges.enum acc (i, e) hi hfin
    subst htv
    refine hr.trans ?_
    rw [walkWeight_append, walkWeight_cons, walkWeight_nil, add_zero, WithTop.coe_add]
    exact add_le_add_right hb _

theorem bfPasses_master (edges : List Edge) (source : NodeId) :
    ∀ (k i : ℕ) (st : BFState) (j : ℕ),
      (∀ v, st.dmap v ≠ ⊤ →
        ∃ es, IsWalk edges source es v ∧ st.dmap v = (walkWeight es : DVal)) →
      (∀ v es, IsWalk edges source es v → es.length ≤ j →
        st.dmap v ≤ (walkWeight es : DVal)) →
      (∀ v, (bfPasses edges k i st).dmap v ≠ ⊤ →
        ∃ es, IsWalk edges source es v ∧
          (bfPasses edges k i st).dmap v = (walkWeight es : DVal)) ∧
      ((∀ v es, IsWalk edges source es v → es.length ≤ j + k →
          (bfPasses edges k i st).dmap v ≤ (walkWeight es : DVal)) ∨
        Fixpoint edges (bfPasses edges k i st).dmap) := by
  intro k
  induction k with
  | zero =>
    intro i st j hreach hbnd
    rw [bfPasses]
    exact ⟨hreach, Or.inl fun v es hW hl => hbnd v es hW (by omega)⟩
  | succ k ih =>
    intro i st j hreach hbnd
    rw [bfPasses]
    dsimp only
    have hreach1 : ∀ v, (bfScan (i + 1) edges.enum
        ({ st with steps := st.steps ++
          [{ tag := .iterationStart, distances := st.dmap, previous := st.pmap,
             iteration := i + 1 }] }, false)).1.dmap v ≠ ⊤ →
        ∃ es, IsWalk edges source es v ∧ (bfScan (i + 1) edges.enum
          ({ st with steps := st.steps ++
            [{ tag := .iterationStart, distances := st.dmap, previous := st.pmap,
               iteration := i + 1 }] }, false)).1.dmap v = (walkWeight es : DVal) := by
      refine bfScan_reach edges source (i + 1) edges.enum _
        (fun p hp => enum_mem edges 0 p hp) ?_
      exact hreach
    have hbnd1 : ∀ v es, IsWalk edges source es v → es.length ≤ j + 1 →
        (bfScan (i + 1) edges.enum
          ({ st with steps := st.steps ++
            [{ tag := .iterationStart, distances := st.dmap, previous := st.pmap,
               iteration := i + 1 }] }, false)).1.dmap v ≤ (walkWeight es : DVal) := by
      refine bfScan_pass_bound edges source (i + 1) j _ ?_
      exact hbnd
    split
    · constructor
      · refine (ih (i + 1) _ (j + 1) ?_ ?_).1
        · exact hreach1
        · exact hbnd1
      · refine ((ih (i + 1) _ (j + 1) ?_ ?_).2).imp ?_ id
        · exact hreach1
        · exact hbnd1
        · intro hb v es hW hl
          exact hb v es hW (by omega)
    · next hflag =>
      have hflag' : (bfScan (i + 1) edges.enum
          ({ st with steps := st.steps ++
            [{ tag := .iterationStart, distances := st.dmap, previous := st.pmap,
               iteration := i + 1 }] }, false)).2 = false := by
        simpa using hflag
      have hdm := bfScan_false_dmap (i + 1) edges.enum _ hflag'
      constructor
      · exact hreach1
      · refine Or.inr ?_
        intro e he hfin
        obtain ⟨idx, hidx⟩ := mem_enum_of_mem edges e he
        have hfin' : st.dmap e.fromId ≠ ⊤ := by
          have h0 : (bfScan (i + 1) edges.enum
              ({ st with steps := st.steps ++
                [{ tag := .iterationStart, distances := st.dmap, previous := st.pmap,
                   iteration := i + 1 }] }, false)).1.dmap e.fromId ≠ ⊤ := hfin
          rwa [hdm] at h0
        have hrel := bfScan_false_relax (i + 1) edges.enum _ false hflag' (idx, e) hidx hfin'
        show (bfScan (i + 1) edges.enum
            ({ st with steps := st.steps ++
              [{ tag := .iterationStart, distances := st.dmap, previous := st.pmap,
                 iteration := i + 1 }] }, false)).1.dmap e.toId
          ≤ (bfScan (i + 1) edges.enum
            ({ st with steps := st.steps ++
              [{ tag := .iterationStart, distances := st.dmap, previous := st.pmap,
                 iteration := i + 1 }] }, false)).1.dmap e.fromId + (e.weight : DVal)
        rw [hdm]
        exact hrel

theorem bfNegCheck_fold (dmap : NodeId → DVal) :
    ∀ (l : List Edge) (acc : Bool × Option Edge),
      (l.foldl (fun acc e =>
          if dmap e.fromId ≠ ⊤ ∧ dmap e.fromId + (e.weight : DVal) < dmap e.toId then (true, some e)
          else acc) acc).1 = false ↔
        (acc.1 = false ∧
          ∀ e ∈ l, dmap e.fromId ≠ ⊤ → dmap e.toId ≤ dmap e.fromId + (e.weight : DVal))
  | [], acc => by simp
  | e :: t, acc => by
    rw [List.foldl_cons]
    by_cases hc : dmap e.fromId ≠ ⊤ ∧ dmap e.fromId + (e.weight : DVal) < dmap e.toId
    · rw [if_pos hc]
      rw [bfNegCheck_fold dmap t (true, some e)]
      constructor
      · rintro ⟨h1, _⟩
        simp at h1
      · rintro ⟨h1, h2⟩
        exact absurd (h2 e (List.mem_cons_self _ _) hc.1) (not_le_of_lt hc.2)
    · rw [if_neg hc]
      rw [bfNegCheck_fold dmap t acc]
      constructor
      · rintro ⟨h1, h2⟩
        refine ⟨h1, ?_⟩
        intro e' he' hfin
        rcases List.mem_cons.mp he' with rfl | he''
        · exact le_of_not_lt fun hlt => hc ⟨hfin, hlt⟩
        · exact h2 e' he'' hfin
      · rintro ⟨h1, h2⟩
        exact ⟨h1, fun e' he' => h2 e' (List.mem_cons_of_mem _ he')⟩

theorem bfNegCheck_false_iff (edges : List Edge) (dmap : NodeId → DVal) :
    (bfNegCheck edges dmap).1 = false ↔ Fixpoint edges dmap := by
  unfold bfNegCheck
  rw [bfNegCheck_fold dmap edges (false, none)]
  unfold Fixpoint
  simp

theorem fix_walk_bound (edges : List Edge) (source : NodeId) (dmap : NodeId → DVal)
    (hfix : Fixpoint edges dmap) (hs0 : dmap source ≤ ((0 : ℤ) : DVal)) :
    ∀ (es : List Edge) (v : NodeId), IsWalk edges source es v →
      dmap v ≤ (walkWeight es : DVal) := by
  intro es
  induction es using List.reverseRecOn with
  | nil =>
    intro v hW
    rw [isWalk_nil] at hW
    subst hW
    rw [walkWeight_nil]
    exact hs0
  | append_singleton es e ih =>
    intro v hW
    rw [walk_snoc] at hW
    obtain ⟨hW', he, rfl⟩ := hW
    have hb := ih e.fromId hW'
    have hfin : dmap e.fromId ≠ ⊤ := ne_top_of_le_ne_top WithTop.coe_ne_top hb
    refine (hfix e he hfin).trans ?_
    rw [walkWeight_append, walkWeight_cons, walkWeight_nil, add_zero, WithTop.coe_add]
    exact add_le_add_right hb _

theorem walk_repeat (edges : List Edge) (x : NodeId) (es : List Edge)
    (h : IsWalk edges x es x) :
    ∀ n : ℕ, IsWalk edges x (List.flatten (List.replicate n es)) x ∧
      walkWeight (List.flatten (List.replicate n es)) = n * walkWeight es := by
  intro n
  induction n with
  | zero =>
    refine ⟨?_, ?_⟩
    · rw [show List.flatten (List.replicate 0 es) = [] from rfl, isWalk_nil]
    · rw [show List.flatten (List.replicate 0 es) = [] from rfl, walkWeight_nil]
      simp
  | succ n ih =>
    rw [List.replicate_succ, List.flatten_cons]
    refine ⟨IsWalk.append edges es x x x _ h ih.1, ?_⟩
    rw [walkWeight_append, ih.2]
    push_cast
    ring

theorem negcycle_no_fix (edges : List Edge) (source : NodeId) (dmap : NodeId → DVal)
    (hfix : Fixpoint edges dmap) (hs0 : dmap source ≤ ((0 : ℤ) : DVal)) :
    ¬ NegCycleReachable edges source := by
  rintro ⟨v, es₀, es, hW₀, hne, hcyc, hneg⟩
  have hbound := fix_walk_bound edges source dmap hfix hs0
  have h1 : ∀ n : ℕ, dmap v ≤ ((walkWeight es₀ + n * walkWeight es : ℤ) : DVal) := by
    intro n
    obtain ⟨hwn, hw2⟩ := walk_repeat edges v es hcyc n
    have hb := hbound (es₀ ++ List.flatten (List.replicate n es)) v
      (IsWalk.append edges es₀ source v v _ hW₀ hwn)
    rwa [walkWeight_append, hw2] at hb
  have hfin : dmap v ≠ ⊤ := ne_top_of_le_ne_top WithTop.coe_ne_top (h1 0)
  lift dmap v to ℤ using hfin with d hd
  have h2 : ∀ n : ℕ, d ≤ walkWeight es₀ + n * walkWeight es := fun n =>
    WithTop.coe_le_coe.mp (h1 n)
  have hcneg : walkWeight es ≤ -1 := by omega
  have h3 := h2 (walkWeight es₀ - d + 1).toNat
  have h4 : ((walkWeight es₀ - d + 1).toNat : ℤ) ≥ walkWeight es₀ - d + 1 :=
    Int.self_le_toNat _
  have hn : (0 : ℤ) ≤ ((walkWeight es₀ - d + 1).toNat : ℤ) := Int.ofNat_nonneg _
  have h5 : ((walkWeight es₀ - d + 1).toNat : ℤ) * walkWeight es
      ≤ ((walkWeight es₀ - d + 1).toNat : ℤ) * (-1) :=
    mul_le_mul_of_nonneg_left hcneg hn
  linarith

theorem bfPasses_dmap_le (edges : List Edge) :
    ∀ (k i : ℕ) (st : BFState) (v : NodeId), (bfPasses edges k i st).dmap v ≤ st.dmap v := by
  intro k
  induction k with
  | zero =>
    intro i st v
    rw [bfPasses]
  | succ k ih =>
    intro i st v
    rw [bfPasses]
    dsimp only
    split
    · exact (ih (i + 1) _ v).trans (bfScan_dmap_le (i + 1) edges.enum _ v)
    · exact bfScan_dmap_le (i + 1) edges.enum _ v

theorem walk_mem_edges (edges : List Edge) :
    ∀ (es : List Edge) (u v : NodeId), IsWalk edges u es v → ∀ e ∈ es, e ∈ edges
  | [], _, _, _, e, he => absurd he (List.not_mem_nil e)
  | e' :: es, u, v, hW, e, he => by
    rw [isWalk_cons] at hW
    rcases List.mem_cons.mp he with rfl | he'
    · exact hW.1
    · exact walk_mem_edges edges es e'.toId v hW.2.2 e he'

theorem walk_decomp_mem (edges : List Edge) :
    ∀ (es : List Edge) (u v x : NodeId), IsWalk edges u es v → x ∈ es.map Edge.toId →
      ∃ es₁ es₂, es = es₁ ++ es₂ ∧ es₁ ≠ [] ∧ IsWalk edges u es₁ x ∧ IsWalk edges x es₂ v
  | [], u, v, x, _, hx => absurd hx (by simp)
  | e :: es, u, v, x, hW, hx => by
    rw [isWalk_cons] at hW
    obtain ⟨he, hf, hrest⟩ := hW
    rw [List.map_cons] at hx
    rcases List.mem_cons.mp hx with heq | hx'
    · refine ⟨[e], es, rfl, by simp, ?_, ?_⟩
      · rw [isWalk_cons, isWalk_nil]
        exact ⟨he, hf, heq.symm⟩
      · rw [show x = e.toId from heq]
        exact hrest
    · obtain ⟨es₁, es₂, heq, hne, h1, h2⟩ := walk_decomp_mem edges es e.toId v x hrest hx'
      refine ⟨e :: es₁, es₂, by rw [heq, List.cons_append], by simp, ?_, h2⟩
      rw [isWalk_cons]
      exact ⟨he, hf, h1⟩

theorem walk_shorten (edges : List Edge) :
    ∀ (es : List Edge) (u v : NodeId), IsWalk edges u es v →
      ¬ (u :: es.map Edge.toId).Nodup →
      ∃ x esA esB esC, es = esA ++ esB ++ esC ∧ esB ≠ [] ∧
        IsWalk edges u esA x ∧ IsWalk edges x esB x ∧ IsWalk edges x esC v
  | [], u, v, _, hnd => by
    exfalso
    exact hnd (by simp)
  | e :: es, u, v, hW, hnd => by
    by_cases hu : u ∈ (e :: es).map Edge.toId
    · obtain ⟨es₁, es₂, heq, hne, h1, h2⟩ := walk_decomp_mem edges (e :: es) u v u hW hu
      refine ⟨u, [], es₁, es₂, ?_, hne, by rw [isWalk_nil], h1, h2⟩
      rw [List.nil_append]
      exact heq
    · rw [isWalk_cons] at hW
      obtain ⟨he, hf, hrest⟩ := hW
      have hnd' : ¬ (e.toId :: es.map Edge.toId).Nodup := by
        intro hcon
        apply hnd
        rw [List.map_cons]
        refine List.nodup_cons.mpr ⟨?_, hcon⟩
        rw [List.map_cons] at hu
        exact hu
      obtain ⟨x, esA, esB, esC, heq, hne, h1, h2, h3⟩ :=
        walk_shorten edges es e.toId v hrest hnd'
      refine ⟨x, e :: esA, esB, esC, ?_, hne, ?_, h2, h3⟩
      · rw [heq]
        simp
      · rw [isWalk_cons]
        exact ⟨he, hf, h1⟩

theorem walk_reduce (nodes : List Node) (edges : List Edge) (source : NodeId)
    (hwf : EdgesWf nodes edges) (hs : source ∈ nodes.map Node.id)
    (hnc : ¬ NegCycleReachable edges source) :
    ∀ (es : List Edge) (v : NodeId), IsWalk edges source es v →
      ∃ es', IsWalk edges source es' v ∧ es'.length + 1 ≤ nodes.length ∧
        walkWeight es' ≤ walkWeight es := by
  have main : ∀ (n : ℕ) (es : List Edge) (v : NodeId), es.length ≤ n →
      IsWalk edges source es v →
      ∃ es', IsWalk edges source es' v ∧ es'.length + 1 ≤ nodes.length ∧
        walkWeight es' ≤ walkWeight es := by
    intro n
    induction n with
    | zero =>
      intro es v hlen hW
      have hnil : es = [] := List.length_eq_zero.mp (Nat.le_zero.mp hlen)
      subst hnil
      refine ⟨[], hW, ?_, le_refl _⟩
      rcases nodes with _ | ⟨a, t⟩
      · simp at hs
      · simp
    | succ n ih =>
      intro es v hlen hW
      by_cases hnd : (source :: es.map Edge.toId).Nodup
      · refine ⟨es, hW, ?_, le_refl _⟩
        have hsub : (source :: es.map Edge.toId) ⊆ nodes.map Node.id := by
          intro a ha
          rcases List.mem_cons.mp ha with rfl | ha'
          · exact hs
          · obtain ⟨e, he', rfl⟩ := List.mem_map.mp ha'
            exact (hwf e (walk_mem_edges edges es source v hW e he')).2
        have hlen2 := (hnd.subperm hsub).length_le
        simp only [List.length_cons, List.length_map] at hlen2
        omega
      · obtain ⟨x, esA, esB, esC, heq, hne, h1, h2, h3⟩ :=
          walk_shorten edges es source v hW hnd
        subst heq
        have hBnonneg : 0 ≤ walkWeight esB := by
          by_contra hneg
          exact hnc ⟨x, esA, esB, h1, hne, h2, by omega⟩
        have hW' : IsWalk edges source (esA ++ esC) v :=
          IsWalk.append edges esA source x v esC h1 h3
        have hlen' : (esA ++ esC).length ≤ n := by
          rcases esB with _ | ⟨b, bs⟩
          · exact absurd rfl hne
          · simp only [List.length_append, List.length_cons] at hlen ⊢
            omega
        obtain ⟨es', hW'', hlen'', hwt⟩ := ih (esA ++ esC) v hlen' hW'
        refine ⟨es', hW'', hlen'', ?_⟩
        rw [walkWeight_append] at hwt
        rw [walkWeight_append, walkWeight_append]
        omega
  intro es v hW
  exact main es.length es v (le_refl _) hW

theorem bnd_reach_fix (nodes : List Node) (edges : List Edge) (source : NodeId)
    (hwf : EdgesWf nodes edges) (hs : source ∈ nodes.map Node.id)
    (hnc : ¬ NegCycleReachable edges source) (dmap : NodeId → DVal)
    (hreach : ∀ v, dmap v ≠ ⊤ →
      ∃ es, IsWalk edges source es v ∧ dmap v = (walkWeight es : DVal))
    (hbnd : ∀ v es, IsWalk edges source es v → es.length ≤ nodes.length - 1 →
      dmap v ≤ (walkWeight es : DVal)) :
    Fixpoint edges dmap := by
  intro e he hfin
  obtain ⟨W, hW, hWw⟩ := hreach e.fromId hfin
  have hwalk : IsWalk edges source (W ++ [e]) e.toId := by
    rw [walk_snoc]
    exact ⟨hW, he, rfl⟩
  obtain ⟨es', hW', hlen', hwt'⟩ :=
    walk_reduce nodes edges source hwf hs hnc (W ++ [e]) e.toId hwalk
  have hb := hbnd e.toId es' hW' (by omega)
  refine hb.trans ?_
  rw [hWw, ← WithTop.coe_add, WithTop.coe_le_coe]
  rw [show walkWeight W + e.weight = walkWeight (W ++ [e]) from by
    rw [walkWeight_append, walkWeight_cons, walkWeight_nil]
    ring]
  exact hwt'

theorem initDmap_reach (edges : List Edge) (source : NodeId) :
    ∀ v, initDmap source v ≠ ⊤ →
      ∃ es, IsWalk edges source es v ∧ initDmap source v = (walkWeight es : DVal) := by
  intro v hv
  rcases eq_or_ne v source with rfl | hne
  · refine ⟨[], by rw [isWalk_nil], ?_⟩
    rw [walkWeight_nil]
    exact Function.update_same _ _ _
  · exfalso
    apply hv
    simp only [initDmap, Function.update_apply, if_neg hne]

theorem initDmap_bnd (edges : List Edge) (source : NodeId) :
    ∀ v es, IsWalk edges source es v → es.length ≤ 0 →
      initDmap source v ≤ (walkWeight es : DVal) := by
  intro v es hW hlen
  have hnil : es = [] := List.length_eq_zero.mp (Nat.le_zero.mp hlen)
  subst hnil
  rw [isWalk_nil] at hW
  subst hW
  rw [walkWeight_nil]
  exact le_of_eq (Function.update_same _ _ _)

theorem bf_chk_false_iff (nodes : List Node) (edges : List Edge) (source : NodeId)
    (hwf : EdgesWf nodes edges) (hs : source ∈ nodes.map Node.id) (st : BFState)
    (hr : ∀ v, st.dmap v ≠ ⊤ →
      ∃ es, IsWalk edges source es v ∧ st.dmap v = (walkWeight es : DVal))
    (hb : ∀ v es, IsWalk edges source es v → es.length ≤ 0 →
      st.dmap v ≤ (walkWeight es : DVal))
    (hs0 : st.dmap source ≤ ((0 : ℤ) : DVal)) :
    (bfNegCheck edges (bfPasses edges (nodes.length - 1) 0 st).dmap).1 = false ↔
      ¬ NegCycleReachable edges source := by
  obtain ⟨hreachF, hbndF⟩ := bfPasses_master edges source (nodes.length - 1) 0 st 0 hr hb
  constructor
  · intro hchk
    have hfix := (bfNegCheck_false_iff _ _).mp hchk
    have hs0' : (bfPasses edges (nodes.length - 1) 0 st).dmap source ≤ ((0 : ℤ) : DVal) :=
      (bfPasses_dmap_le edges _ 0 st source).trans hs0
    exact negcycle_no_fix edges source _ hfix hs0'
  · intro hnc
    rw [bfNegCheck_false_iff]
    rcases hbndF with hbnd | hfix
    · refine bnd_reach_fix nodes edges source hwf hs hnc _ hreachF ?_
      intro v es hW hlen
      exact hbnd v es hW (by omega)
    · exact hfix

theorem nonneg_no_negcycle (edges : List Edge) (source : NodeId) (hNN : NonnegWeights edges) :
    ¬ NegCycleReachable edges source := by
  rintro ⟨v, es₀, es, hW₀, hne, hcyc, hneg⟩
  have := walkWeight_nonneg edges hNN es v v hcyc
  omega

theorem bf_final_min (nodes : List Node) (edges : List Edge) (source : NodeId)
    (hwf : EdgesWf nodes edges) (hs : source ∈ nodes.map Node.id)
    (hnc : ¬ NegCycleReachable edges source) (st : BFState)
    (hr : ∀ v, st.dmap v ≠ ⊤ →
      ∃ es, IsWalk edges source es v ∧ st.dmap v = (walkWeight es : DVal))
    (hb : ∀ v es, IsWalk edges source es v → es.length ≤ 0 →
      st.dmap v ≤ (walkWeight es : DVal))
    (hs0 : st.dmap source ≤ ((0 : ℤ) : DVal)) :
    ∀ v, IsMinDist edges source v ((bfPasses edges (nodes.length - 1) 0 st).dmap v) := by
  obtain ⟨hreachF, hbndF⟩ := bfPasses_master edges source (nodes.length - 1) 0 st 0 hr hb
  intro v
  constructor
  · intro es hW
    rcases hbndF with hbnd | hfix
    · obtain ⟨es', hW', hlen', hwt'⟩ := walk_reduce nodes edges source hwf hs hnc es v hW
      refine (hbnd v es' hW' (by omega)).trans ?_
      exact WithTop.coe_le_coe.mpr hwt'
    · exact fix_walk_bound edges source _ hfix
        ((bfPasses_dmap_le edges _ 0 st source).trans hs0) es v hW
  · exact fun hne => hreachF v hne

/-- C2: the Bellman-Ford tracer emits a `negative-cycle` step exactly when a
negative-weight cycle is reachable from the source, and whenever it does, no
`complete` step appears anywhere in the returned step sequence. -/
theorem C2_negcycle (nodes : List Node) (edges : List Edge) (source dest : NodeId)
    (hwf : EdgesWf nodes edges) (hs : source ∈ nodes.map Node.id) :
    ((∃ S ∈ bellmanFordSteps nodes edges source dest, S.tag = StepTag.negativeCycle) ↔
      NegCycleReachable edges source) ∧
    ((∃ S ∈ bellmanFordSteps nodes edges source dest, S.tag = StepTag.negativeCycle) →
      ∀ S ∈ bellmanFordSteps nodes edges source dest, S.tag ≠ StepTag.complete) := by
  have hiff := bf_chk_false_iff nodes edges source hwf hs
    { dmap := initDmap source, pmap := (fun _ => none),
      steps := [{ tag := .showEdges, distances := initDmap source,
                  previous := (fun _ => none), iteration := 0, edgesShown := edges },
                { tag := .init, distances := initDmap source,
                  previous := (fun _ => none), iteration := 0 }] }
    (initDmap_reach edges source) (initDmap_bnd edges source)
    (by simp [initDmap])
  have htags := bfPasses_steps_tags edges (nodes.length - 1) 0
    { dmap := initDmap source, pmap := (fun _ => none),
      steps := [{ tag := .showEdges, distances := initDmap source,
                  previous := (fun _ => none), iteration := 0, edgesShown := edges },
                { tag := .init, distances := initDmap source,
                  previous := (fun _ => none), iteration := 0 }] }
  have hloop : ∀ S ∈ (bfPasses edges (nodes.length - 1) 0
      { dmap := initDmap source, pmap := (fun _ => none),
        steps := [{ tag := .showEdges, distances := initDmap source,
                    previous := (fun _ => none), iteration := 0, edgesShown := edges },
                  { tag := .init, distances := initDmap source,
                    previous := (fun _ => none), iteration := 0 }] }).steps,
      S.tag ≠ StepTag.negativeCycle ∧ S.tag ≠ StepTag.complete := by
    intro S hS
    rcases htags S hS with h | h | h | h | h | h
    · rcases List.mem_cons.mp h with h' | h'
      · subst h'
        exact ⟨by simp, by simp⟩
      · rcases List.mem_cons.mp h' with h'' | h''
        · subst h''
          exact ⟨by simp, by simp⟩
        · exact absurd h'' (List.not_mem_nil S)
    all_goals exact ⟨by rw [h]; decide, by rw [h]; decide⟩
  unfold bellmanFordSteps bellmanFordRun
  dsimp only
  split
  · next hchk =>
    dsimp only
    have hnc : NegCycleReachable edges source := by
      by_contra hncon
      have hfls := hiff.mpr hncon
      rw [hfls] at hchk
      exact absurd hchk (by decide)
    refine ⟨⟨fun _ => hnc, fun _ => ?_⟩, fun _ S hS => ?_⟩
    · exact ⟨_, List.mem_append_right _ (List.mem_cons_self _ _), rfl⟩
    · rcases List.mem_append.mp hS with h | h
      · exact (hloop S h).2
      · rw [List.mem_singleton] at h
        subst h
        simp
  · next hchk =>
    dsimp only
    have hchk' : (bfNegCheck edges (bfPasses edges (nodes.length - 1) 0
        { dmap := initDmap source, pmap := (fun _ => none),
          steps := [{ tag := .showEdges, distances := initDmap source,
                      previous := (fun _ => none), iteration := 0, edgesShown := edges },
                    { tag := .init, distances := initDmap source,
                      previous := (fun _ => none), iteration := 0 }] }).dmap).1 = false := by
      simpa using hchk
    have hnc := hiff.mp hchk'
    have hnone : ¬ ∃ S, (S ∈ (bfPasses edges (nodes.length - 1) 0
        { dmap := initDmap source, pmap := (fun _ => none),
          steps := [{ tag := .showEdges, distances := initDmap source,
                      previous := (fun _ => none), iteration := 0, edgesShown := edges },
                    { tag := .init, distances := initDmap source,
                      previous := (fun _ => none), iteration := 0 }] }).steps ++
        [{ tag := StepTag.complete,
           distances := (bfPasses edges (nodes.length - 1) 0
            { dmap := initDmap source, pmap := (fun _ => none),
              steps := [{ tag := .showEdges, distances := initDmap source,
                          previous := (fun _ => none), iteration := 0, edgesShown := edges },
                        { tag := .init, distances := initDmap source,
                          previous := (fun _ => none), iteration := 0 }] }).dmap,
           previous := (bfPasses edges (nodes.length - 1) 0
            { dmap := initDmap source, pmap := (fun _ => none),
              steps := [{ tag := .showEdges, distances := initDmap source,
                          previous := (fun _ => none), iteration := 0, edgesShown := edges },
                        { tag := .init, distances := initDmap source,
                          previous := (fun _ => none), iteration := 0 }] }).pmap,
           path := if (bfPasses edges (nodes.length - 1) 0
            { dmap := initDmap source, pmap := (fun _ => none),
              steps := [{ tag := .showEdges, distances := initDmap source,
                          previous := (fun _ => none), iteration := 0, edgesShown := edges },
                        { tag := .init, distances := initDmap source,
                          previous := (fun _ => none), iteration := 0 }] }).dmap dest ≠ ⊤
             then (chainFrom (bfPasses edges (nodes.length - 1) 0
              { dmap := initDmap source, pmap := (fun _ => none),
                steps := [{ tag := .showEdges, distances := initDmap source,
                            previous := (fun _ => none), iteration := 0, edgesShown := edges },
                          { tag := .init, distances := initDmap source,
                            previous := (fun _ => none), iteration := 0 }] }).pmap
                (nodes.length + 1) (some dest)).reverse
             else [],
           activeEdges := pairsOf (chainFrom (bfPasses edges (nodes.length - 1) 0
            { dmap := initDmap source, pmap := (fun _ => none),
              steps := [{ tag := .showEdges, distances := initDmap source,
                          previous := (fun _ => none), iteration := 0, edgesShown := edges },
                        { tag := .init, distances := initDmap source,
                          previous := (fun _ => none), iteration := 0 }] }).pmap
            (nodes.length + 1) (some dest)).reverse }]) ∧
        S.tag = StepTag.negativeCycle := by
      rintro ⟨S, hS, htag⟩
      rcases List.mem_append.mp hS with h | h
      · exact (hloop S h).1 htag
      · rw [List.mem_singleton] at h
        subst h
        simp at htag
    exact ⟨⟨fun hex => absurd hex hnone, fun hncyc => absurd hncyc hnc⟩,
      fun hex => absurd hex hnone⟩

/-- Witness for C2 at the spec's Example 3 (nodes A,B; edges (A,B,1),
(B,A,-3); source A, destination B): the graph hypotheses hold, the theorem
applies, and the tracer indeed emits a `negative-cycle` step. -/
theorem C2_negcycle_witness :
    EdgesWf [⟨"A"⟩, ⟨"B"⟩] [(⟨"A","B",1⟩ : Edge), ⟨"B","A",-3⟩] ∧
    "A" ∈ ([⟨"A"⟩, ⟨"B"⟩] : List Node).map Node.id ∧
    (∃ S ∈ bellmanFordSteps [⟨"A"⟩, ⟨"B"⟩] [(⟨"A","B",1⟩ : Edge), ⟨"B","A",-3⟩] "A" "B",
      S.tag = StepTag.negativeCycle) ∧
    (((∃ S ∈ bellmanFordSteps [⟨"A"⟩, ⟨"B"⟩] [(⟨"A","B",1⟩ : Edge), ⟨"B","A",-3⟩] "A" "B",
        S.tag = StepTag.negativeCycle) ↔
      NegCycleReachable [(⟨"A","B",1⟩ : Edge), ⟨"B","A",-3⟩] "A") ∧
    ((∃ S ∈ bellmanFordSteps [⟨"A"⟩, ⟨"B"⟩] [(⟨"A","B",1⟩ : Edge), ⟨"B","A",-3⟩] "A" "B",
        S.tag = StepTag.negativeCycle) →
      ∀ S ∈ bellmanFordSteps [⟨"A"⟩, ⟨"B"⟩] [(⟨"A","B",1⟩ : Edge), ⟨"B","A",-3⟩] "A" "B",
        S.tag ≠ StepTag.complete)) :=
  ⟨by unfold EdgesWf; decide, by decide, by decide,
    C2_negcycle [⟨"A"⟩, ⟨"B"⟩] [⟨"A","B",1⟩, ⟨"B","A",-3⟩] "A" "B"
      (by unfold EdgesWf; decide) (by decide)⟩

theorem dijkstra_dest_min (nodes : List Node) (edges : List Edge) (source dest : NodeId)
    (hNN : NonnegWeights edges) :
    IsMinDist edges source dest ((dijkstraRun nodes edges source dest).dmap dest) := by
  obtain ⟨⟨hcore, hopt⟩, hterm⟩ := dijkstraRun_master nodes edges source dest hNN
  rcases hterm with hdest | ⟨hempty, hfr⟩
  · exact hopt dest hdest
  · exact empty_heap_allmin edges source hNN _ hcore hopt hfr hempty dest

/-- C3: on a graph with non-negative weights (and well-formed edges with a
present source), the two tracers' terminal `complete` steps agree on the
destination's distance — both equal the minimum walk weight. The spec's
stronger claim that the reconstructed paths also match fails (the two
algorithms can break distance ties differently); see the counterexample. -/
theorem C3_cross_validation (nodes : List Node) (edges : List Edge) (source dest : NodeId)
    (hNN : NonnegWeights edges) (hwf : EdgesWf nodes edges)
    (hs : source ∈ nodes.map Node.id) :
    ∃ SD SB,
      (dijkstraSteps nodes edges source dest).getLast? = some SD ∧
      (bellmanFordSteps nodes edges source dest).getLast? = some SB ∧
      SD.tag = StepTag.complete ∧ SB.tag = StepTag.complete ∧
      IsMinDist edges source dest (SD.distances dest) ∧
      SD.distances dest = SB.distances dest := by
  have hnc := nonneg_no_negcycle edges source hNN
  have hiff := bf_chk_false_iff nodes edges source hwf hs
    { dmap := initDmap source, pmap := (fun _ => none),
      steps := [{ tag := .showEdges, distances := initDmap source,
                  previous := (fun _ => none), iteration := 0, edgesShown := edges },
                { tag := .init, distances := initDmap source,
                  previous := (fun _ => none), iteration := 0 }] }
    (initDmap_reach edges source) (initDmap_bnd edges source)
    (by simp [initDmap])
  have hchk := hiff.mpr hnc
  have hbmin := bf_final_min nodes edges source hwf hs hnc
    { dmap := initDmap source, pmap := (fun _ => none),
      steps := [{ tag := .showEdges, distances := initDmap source,
                  previous := (fun _ => none), iteration := 0, edgesShown := edges },
                { tag := .init, distances := initDmap source,
                  previous := (fun _ => none), iteration := 0 }] }
    (initDmap_reach edges source) (initDmap_bnd edges source)
    (by simp [initDmap])
  have hdmin := dijkstra_dest_min nodes edges source dest hNN
  unfold bellmanFordSteps bellmanFordRun
  dsimp only
  rw [if_neg (by rw [hchk]; simp)]
  dsimp only
  refine ⟨dijkstraCompleteStep nodes dest (dijkstraRun nodes edges source dest), _,
    ?_, getLast_append_single _ _, rfl, rfl, ?_, ?_⟩
  · rw [dijkstraSteps_eq]
    exact getLast_append_single _ _
  · rw [dijkstraCompleteStep_distances]
    exact hdmin
  · rw [dijkstraCompleteStep_distances]
    exact IsMinDist.unique edges source dest _ _ hdmin (hbmin dest)

/-- Counterexample to C3 as stated: on nodes A,B,C,D with unit edges
(A,B), (A,C), (C,D), (B,D), source A, destination D, both tracers find
distance 2 but Dijkstra's complete step reconstructs the path [A,B,D]
while Bellman-Ford's reconstructs [A,C,D]: the results do not fully match.
-/
theorem C3_counterexample :
    NonnegWeights [(⟨"A","B",1⟩ : Edge), ⟨"A","C",1⟩, ⟨"C","D",1⟩, ⟨"B","D",1⟩] ∧
    ((dijkstraSteps [⟨"A"⟩, ⟨"B"⟩, ⟨"C"⟩, ⟨"D"⟩]
        [(⟨"A","B",1⟩ : Edge), ⟨"A","C",1⟩, ⟨"C","D",1⟩, ⟨"B","D",1⟩] "A" "D").getLast?.map
      fun S => S.path) = some ["A", "B", "D"] ∧
    ((bellmanFordSteps [⟨"A"⟩, ⟨"B"⟩, ⟨"C"⟩, ⟨"D"⟩]
        [(⟨"A","B",1⟩ : Edge), ⟨"A","C",1⟩, ⟨"C","D",1⟩, ⟨"B","D",1⟩] "A" "D").getLast?.map
      fun S => S.path) = some ["A", "C", "D"] ∧
    ((dijkstraSteps [⟨"A"⟩, ⟨"B"⟩, ⟨"C"⟩, ⟨"D"⟩]
        [(⟨"A","B",1⟩ : Edge), ⟨"A","C",1⟩, ⟨"C","D",1⟩, ⟨"B","D",1⟩] "A" "D").getLast?.map
        fun S => S.path)
      ≠ ((bellmanFordSteps [⟨"A"⟩, ⟨"B"⟩, ⟨"C"⟩, ⟨"D"⟩]
        [(⟨"A","B",1⟩ : Edge), ⟨"A","C",1⟩, ⟨"C","D",1⟩, ⟨"B","D",1⟩] "A" "D").getLast?.map
        fun S => S.path) :=
  ⟨by unfold NonnegWeights; decide, by decide, by decide, by decide⟩

/-- Witness for C3 at the spec's Example 1 graph (source A, destination B):
the hypotheses hold, the theorem applies, and both tracers report the same
destination distance. -/
theorem C3_cross_validation_witness :
    NonnegWeights [(⟨"A","B",4⟩ : Edge), ⟨"A","C",1⟩, ⟨"C","B",1⟩] ∧
    EdgesWf [⟨"A"⟩, ⟨"B"⟩, ⟨"C"⟩] [(⟨"A","B",4⟩ : Edge), ⟨"A","C",1⟩, ⟨"C","B",1⟩] ∧
    "A" ∈ ([⟨"A"⟩, ⟨"B"⟩, ⟨"C"⟩] : List Node).map Node.id ∧
    ((dijkstraSteps [⟨"A"⟩, ⟨"B"⟩, ⟨"C"⟩] [(⟨"A","B",4⟩ : Edge), ⟨"A","C",1⟩, ⟨"C","B",1⟩]
        "A" "B").getLast?.map fun S => S.distances "B")
      = ((bellmanFordSteps [⟨"A"⟩, ⟨"B"⟩, ⟨"C"⟩] [(⟨"A","B",4⟩ : Edge), ⟨"A","C",1⟩, ⟨"C","B",1⟩]
        "A" "B").getLast?.map fun S => S.distances "B") ∧
    ∃ SD SB,
      (dijkstraSteps [⟨"A"⟩, ⟨"B"⟩, ⟨"C"⟩] [(⟨"A","B",4⟩ : Edge), ⟨"A","C",1⟩, ⟨"C","B",1⟩]
        "A" "B").getLast? = some SD ∧
      (bellmanFordSteps [⟨"A"⟩, ⟨"B"⟩, ⟨"C"⟩] [(⟨"A","B",4⟩ : Edge), ⟨"A","C",1⟩, ⟨"C","B",1⟩]
        "A" "B").getLast? = some SB ∧
      SD.tag = StepTag.complete ∧ SB.tag = StepTag.complete ∧
      IsMinDist [(⟨"A","B",4⟩ : Edge), ⟨"A","C",1⟩, ⟨"C","B",1⟩] "A" "B" (SD.distances "B") ∧
      SD.distances "B" = SB.distances "B" :=
  ⟨by unfold NonnegWeights; decide, by unfold EdgesWf; decide, by decide, by decide,
    C3_cross_validation [⟨"A"⟩, ⟨"B"⟩, ⟨"C"⟩] [⟨"A","B",4⟩, ⟨"A","C",1⟩, ⟨"C","B",1⟩] "A" "B"
      (by unfold NonnegWeights; decide) (by unfold EdgesWf; decide) (by decide)⟩

theorem pIterO_bot (p : NodeId → Option NodeId) : ∀ n, pIterO p n none = none
  | 0 => rfl
  | _ + 1 => rfl

theorem pIterO_step (p : NodeId → Option NodeId) (n : ℕ) (x : NodeId) :
    pIterO p (n + 1) (some x) = pIterO p n (p x) := rfl

theorem pIterO_add (p : NodeId → Option NodeId) :
    ∀ (n m : ℕ) (c : Option NodeId), pIterO p (n + m) c = pIterO p m (pIterO p n c) := by
  intro n
  induction n with
  | zero =>
    intro m c
    rw [Nat.zero_add]
    rfl
  | succ n ih =>
    intro m c
    rw [Nat.succ_add]
    rcases c with _ | x
    · rw [pIterO_bot, pIterO_bot, pIterO_bot]
    · rw [pIterO_step, pIterO_step, ih]

theorem chainFrom_mem (p : NodeId → Option NodeId) :
    ∀ (fuel : ℕ) (c : Option NodeId) (x : NodeId), x ∈ chainFrom p fuel c →
      ∃ k, k < fuel ∧ pIterO p k c = some x
  | _, none, x, hx => absurd (by rwa [chainFrom_none] at hx) (List.not_mem_nil x)
  | 0, some c, x, hx => absurd hx (List.not_mem_nil x)
  | fuel + 1, some c, x, hx => by
    rw [chainFrom] at hx
    rcases List.mem_cons.mp hx with rfl | hx'
    · exact ⟨0, by omega, rfl⟩
    · obtain ⟨k, hk, hit⟩ := chainFrom_mem p fuel (p c) x hx'
      exact ⟨k + 1, by omega, by rw [pIterO_step]; exact hit⟩

theorem chainFrom_nodup (p : NodeId → Option NodeId)
    (hnocyc : ∀ x n, 0 < n → pIterO p n (some x) ≠ some x) :
    ∀ (fuel : ℕ) (c : Option NodeId), (chainFrom p fuel c).Nodup
  | _, none => by
    rw [chainFrom_none]
    exact List.nodup_nil
  | 0, some c => List.nodup_nil
  | fuel + 1, some c => by
    rw [chainFrom]
    refine List.nodup_cons.mpr ⟨?_, chainFrom_nodup p hnocyc fuel (p c)⟩
    intro hmem
    obtain ⟨k, hk, hit⟩ := chainFrom_mem p fuel (p c) c hmem
    have : pIterO p (k + 1) (some c) = some c := by
      rw [pIterO_step]
      exact hit
    exact hnocyc c (k + 1) (by omega) this

theorem chainFrom_subset (p : NodeId → Option NodeId) (L : List NodeId)
    (hrange : ∀ v u, p v = some u → u ∈ L) :
    ∀ (fuel : ℕ) (c : NodeId), c ∈ L → chainFrom p fuel (some c) ⊆ L
  | 0, c, hc => by
    intro x hx
    exact absurd hx (List.not_mem_nil x)
  | fuel + 1, c, hc => by
    intro x hx
    rw [chainFrom] at hx
    rcases List.mem_cons.mp hx with rfl | hx'
    · exact hc
    · rcases hp : p c with _ | c'
      · rw [hp, chainFrom_none] at hx'
        exact absurd hx' (List.not_mem_nil x)
      · rw [hp] at hx'
        exact chainFrom_subset p L hrange fuel c' (hrange c c' hp) hx'

theorem chainFrom_full (p : NodeId → Option NodeId) :
    ∀ (fuel : ℕ) (c : NodeId), pIterO p fuel (some c) ≠ none →
      (chainFrom p fuel (some c)).length = fuel
  | 0, c, _ => rfl
  | fuel + 1, c, h => by
    rw [chainFrom]
    rcases hp : p c with _ | c'
    · rw [pIterO_step, hp, pIterO_bot] at h
      exact absurd rfl h
    · rw [pIterO_step, hp] at h
      rw [List.length_cons, chainFrom_full p fuel c' h]

theorem pIterO_exhaust (p : NodeId → Option NodeId) (L : List NodeId)
    (hrange : ∀ v u, p v = some u → u ∈ L)
    (hnocyc : ∀ x n, 0 < n → pIterO p n (some x) ≠ some x)
    (c : NodeId) (hc : c ∈ L) :
    pIterO p (L.length + 1) (some c) = none := by
  by_contra h
  have hlen := chainFrom_full p (L.length + 1) c h
  have hnd := chainFrom_nodup p hnocyc (L.length + 1) (some c)
  have hsub := chainFrom_subset p L hrange (L.length + 1) c hc
  have := (hnd.subperm hsub).length_le
  omega

theorem pchain_bound (edges : List Edge) (dmap : NodeId → DVal) (p : NodeId → Option NodeId)
    (hedge : ∀ x y, p x = some y →
      ∃ e ∈ edges, e.fromId = y ∧ e.toId = x ∧ dmap y + (e.weight : DVal) ≤ dmap x) :
    ∀ (m : ℕ) (x y : NodeId), pIterO p m (some x) = some y →
      ∃ P, IsWalk edges y P x ∧ dmap y + (walkWeight P : DVal) ≤ dmap x := by
  intro m
  induction m with
  | zero =>
    intro x y h
    injection h with h
    subst h
    refine ⟨[], by rw [isWalk_nil], ?_⟩
    rw [walkWeight_nil]
    simp
  | succ m ih =>
    intro x y h
    rw [pIterO_step] at h
    rcases hp : p x with _ | x₁
    · rw [hp, pIterO_bot] at h
      exact absurd h (by simp)
    · rw [hp] at h
      obtain ⟨e, he, hef, het, hb⟩ := hedge x x₁ hp
      obtain ⟨P, hP, hPb⟩ := ih x₁ y h
      refine ⟨P ++ [e], ?_, ?_⟩
      · rw [walk_snoc]
        refine ⟨?_, he, het⟩
        rw [hef]
        exact hP
      · rw [walkWeight_append, walkWeight_cons, walkWeight_nil, add_zero, WithTop.coe_add,
          ← add_assoc]
        calc dmap y + (walkWeight P : DVal) + (e.weight : DVal)
            ≤ dmap x₁ + (e.weight : DVal) := add_le_add_right hPb _
          _ ≤ dmap x := hb

theorem update_chain_transfer (p : NodeId → Option NodeId) (v : NodeId) (w : Option NodeId) :
    ∀ (k : ℕ) (x : NodeId), pIterO (Function.update p v w) k (some x) = some v →
      ∃ m, m ≤ k ∧ pIterO p m (some x) = some v := by
  intro k
  induction k with
  | zero =>
    intro x h
    injection h with h
    subst h
    exact ⟨0, le_refl _, rfl⟩
  | succ k ih =>
    intro x h
    rcases eq_or_ne x v with rfl | hxv
    · exact ⟨0, by omega, rfl⟩
    · rw [pIterO_step, Function.update_apply, if_neg hxv] at h
      rcases hp : p x with _ | x₁
      · rw [hp, pIterO_bot] at h
        exact absurd h (by simp)
      · rw [hp] at h
        obtain ⟨m, hm, hit⟩ := ih x₁ h
        refine ⟨m + 1, by omega, ?_⟩
        rw [pIterO_step, hp]
        exact hit

theorem cycle_rotate (p : NodeId → Option NodeId) (x v : NodeId) (n j : ℕ)
    (hcyc : pIterO p n (some x) = some x) (hj : pIterO p j (some x) = some v) :
    pIterO p n (some v) = some v := by
  have h1 : pIterO p (j + n) (some x) = pIterO p n (some v) := by
    rw [pIterO_add, hj]
  have h2 : pIterO p (n + j) (some x) = some v := by
    rw [pIterO_add, hcyc]
    exact hj
  rw [Nat.add_comm j n] at h1
  rw [← h1, h2]

theorem update_no_cycle (edges : List Edge) (source : NodeId)
    (hnc : ¬ NegCycleReachable edges source)
    (dmap : NodeId → DVal) (p : NodeId → Option NodeId)
    (hreach : ∀ x, dmap x ≠ ⊤ →
      ∃ es, IsWalk edges source es x ∧ dmap x = (walkWeight es : DVal))
    (hedge : ∀ x y, p x = some y →
      ∃ e ∈ edges, e.fromId = y ∧ e.toId = x ∧ dmap y + (e.weight : DVal) ≤ dmap x)
    (hnocyc : ∀ x n, 0 < n → pIterO p n (some x) ≠ some x)
    (e : Edge) (he : e ∈ edges)
    (hufin : dmap e.fromId ≠ ⊤) (hlt : dmap e.fromId + (e.weight : DVal) < dmap e.toId) :
    ∀ x n, 0 < n → pIterO (Function.update p e.toId (some e.fromId)) n (some x) ≠ some x := by
  intro x n hn hcyc
  by_cases hhit : ∃ j, j < n ∧ pIterO (Function.update p e.toId (some e.fromId)) j (some x)
      = some e.toId
  · -- rotate the cycle to e.toId, peel one step, transfer to the old map, get a walk bound
    obtain ⟨j, hjn, hj⟩ := hhit
    have hcycv := cycle_rotate (Function.update p e.toId (some e.fromId)) x e.toId n j hcyc hj
    rcases n with _ | m
    · omega
    · rw [pIterO_step, Function.update_same] at hcycv
      obtain ⟨m', hm', hold⟩ := update_chain_transfer p e.toId (some e.fromId) m e.fromId hcycv
      obtain ⟨P, hP, hPb⟩ := pchain_bound edges dmap p hedge m' e.fromId e.toId hold
      have hvfin : dmap e.toId ≠ ⊤ := by
        intro htop
        rw [htop, top_add] at hPb
        exact hufin (top_le_iff.mp hPb)
      lift dmap e.toId to ℤ using hvfin with dv hdv
      lift dmap e.fromId to ℤ using hufin with du hdu
      rw [← WithTop.coe_add, WithTop.coe_lt_coe] at hlt
      rw [← WithTop.coe_add, WithTop.coe_le_coe] at hPb
      obtain ⟨es₀, hes₀, _⟩ := hreach e.toId (by rw [← hdv]; exact WithTop.coe_ne_top)
      refine hnc ⟨e.toId, es₀, P ++ [e], hes₀, by simp, ?_, ?_⟩
      · rw [walk_snoc]
        exact ⟨hP, he, rfl⟩
      · rw [walkWeight_append, walkWeight_cons, walkWeight_nil, add_zero]
        omega
  · -- the cycle never meets e.toId: it is a cycle of the un-updated map
    push_neg at hhit
    have hagree : ∀ j, j ≤ n →
        pIterO (Function.update p e.toId (some e.fromId)) j (some x) = pIterO p j (some x) := by
      intro j
      induction j with
      | zero => intro _; rfl
      | succ j ihj =>
        intro hjn
        have hprev := ihj (by omega)
        have hstep : ∀ (q : NodeId → Option NodeId) (c : Option NodeId) (k : ℕ),
            pIterO q (k + 1) c = pIterO q 1 (pIterO q k c) := fun q c k => pIterO_add q k 1 c
        have hgoal : pIterO (Function.update p e.toId (some e.fromId)) (j + 1) (some x)
            = pIterO (Function.update p e.toId (some e.fromId)) 1 (pIterO p j (some x)) := by
          rw [hstep, hprev]
        rw [hgoal, hstep p (some x) j]
        rcases hc : pIterO p j (some x) with _ | z
        · rfl
        · have hzv : z ≠ e.toId := by
            intro hz
            apply hhit j (by omega)
            rw [hprev, hc, hz]
          show Function.update p e.toId (some e.fromId) z = p z
          rw [Function.update_apply, if_neg hzv]
    exact hnocyc x n hn (by rw [← hagree n (le_refl n)]; exact hcyc)

theorem rank_no_cycle (perm : List NodeId) (p : NodeId → Option NodeId)
    (h1 : ∀ v u, p v = some u → u ∈ perm)
    (h3 : ∀ v, v ∈ perm → ∀ u, p v = some u → perm.indexOf u < perm.indexOf v) :
    ∀ x n, 0 < n → pIterO p n (some x) ≠ some x := by
  have key : ∀ (n : ℕ) (y z : NodeId), y ∈ perm → pIterO p n (some y) = some z →
      z ∈ perm ∧ perm.indexOf z + n ≤ perm.indexOf y := by
    intro n
    induction n with
    | zero =>
      intro y z hy h
      injection h with h
      subst h
      exact ⟨hy, by omega⟩
    | succ n ih =>
      intro y z hy h
      rw [pIterO_step] at h
      rcases hp : p y with _ | y₁
      · rw [hp, pIterO_bot] at h
        exact absurd h (by simp)
      · rw [hp] at h
        have hy₁ := h1 y y₁ hp
        have hlt := h3 y hy y₁ hp
        obtain ⟨hz, hle⟩ := ih y₁ z hy₁ h
        exact ⟨hz, by omega⟩
  intro x n hn hcyc
  rcases n with _ | m
  · omega
  · rw [pIterO_step] at hcyc
    rcases hp : p x with _ | x₁
    · rw [hp, pIterO_bot] at hcyc
      exact absurd hcyc (by simp)
    · rw [hp] at hcyc
      have hx₁ := h1 x x₁ hp
      obtain ⟨hx, hle⟩ := key m x₁ x hx₁ hcyc
      have hlt := h3 x hx x₁ hp
      omega

theorem relaxAll_recon (nodes : List Node) (edges : List Edge) (hwf : EdgesWf nodes edges)
    (current : NodeId) (pA tA : List (NodeId × DVal)) :
    ∀ (l : List (NodeId × ℤ)) (st : DState),
      current ∈ st.perm →
      (∀ p ∈ l, ∃ e ∈ edges, e.fromId = current ∧ e.toId = p.1 ∧ e.weight = p.2) →
      (∀ v u, st.pmap v = some u → u ∈ st.perm) →
      (∀ v, v ∈ st.perm → ∀ u, st.pmap v = some u →
        st.perm.indexOf u < st.perm.indexOf v) →
      (∀ x ∈ st.heap, x.node ∈ nodes.map Node.id) →
      (∀ v u, (relaxAll current pA tA l st).pmap v = some u →
        u ∈ (relaxAll current pA tA l st).perm) ∧
      (∀ v, v ∈ (relaxAll current pA tA l st).perm → ∀ u,
        (relaxAll current pA tA l st).pmap v = some u →
        (relaxAll current pA tA l st).perm.indexOf u
          < (relaxAll current pA tA l st).perm.indexOf v) ∧
      (∀ x ∈ (relaxAll current pA tA l st).heap, x.node ∈ nodes.map Node.id)
  | [], st, _, _, p1, p3, p4 => ⟨p1, p3, p4⟩
  | (tgt, w) :: rest, st, hcur, hpairs, p1, p3, p4 => by
    rw [relaxAll]
    split
    · exact relaxAll_recon nodes edges hwf current pA tA rest st hcur
        (fun p hp => hpairs p (List.mem_cons_of_mem _ hp)) p1 p3 p4
    · next ht0 =>
      dsimp only
      split
      · refine relaxAll_recon nodes edges hwf current pA tA rest _ ?_ ?_ ?_ ?_ ?_
        · exact hcur
        · exact fun p hp => hpairs p (List.mem_cons_of_mem _ hp)
        · intro v u hv
          dsimp only at hv
          rcases eq_or_ne v tgt with rfl | hne
          · rw [Function.update_same] at hv
            injection hv with hv
            subst hv
            exact hcur
          · rw [Function.update_apply, if_neg hne] at hv
            exact p1 v u hv
        · intro v hvp u hv
          dsimp only at hv hvp ⊢
          have hvne : v ≠ tgt := by
            rintro rfl
            exact ht0 hvp
          rw [Function.update_apply, if_neg hvne] at hv
          exact p3 v hvp u hv
        · intro x hx
          dsimp only at hx
          rcases (mem_push _ _ _ x).mp hx with hx' | rfl
          · exact p4 x hx'
          · obtain ⟨e, he, hef, het, hew⟩ := hpairs (tgt, w) (List.mem_cons_self _ _)
            have : tgt = e.toId := het.symm
            rw [this]
            exact (hwf e he).2
      · refine relaxAll_recon nodes edges hwf current pA tA rest _ ?_ ?_ ?_ ?_ ?_
        · exact hcur
        · exact fun p hp => hpairs p (List.mem_cons_of_mem _ hp)
        · exact p1
        · exact p3
        · exact p4

theorem dloop_recon (nodes : List Node) (edges : List Edge) (dest : NodeId)
    (hwf : EdgesWf nodes edges) :
    ∀ (fuel : ℕ) (st : DState),
      (∀ v u, st.pmap v = some u → u ∈ st.perm) →
      st.perm.Nodup →
      (∀ v, v ∈ st.perm → ∀ u, st.pmap v = some u →
        st.perm.indexOf u < st.perm.indexOf v) →
      (∀ x ∈ st.heap, x.node ∈ nodes.map Node.id) →
      st.perm ⊆ nodes.map Node.id →
      (∀ v u, (dijkstraLoop edges dest fuel st).pmap v = some u →
        u ∈ (dijkstraLoop edges dest fuel st).perm) ∧
      (∀ v, v ∈ (dijkstraLoop edges dest fuel st).perm → ∀ u,
        (dijkstraLoop edges dest fuel st).pmap v = some u →
        (dijkstraLoop edges dest fuel st).perm.indexOf u
          < (dijkstraLoop edges dest fuel st).perm.indexOf v) ∧
      (dijkstraLoop edges dest fuel st).perm ⊆ nodes.map Node.id := by
  intro fuel
  induction fuel with
  | zero =>
    intro st p1 p2 p3 p4 p5
    rw [dijkstraLoop_zero]
    exact ⟨p1, p3, p5⟩
  | succ fuel ih =>
    intro st p1 p2 p3 p4 p5
    rcases hpop : MinHeap.pop st.heap with _ | ⟨entry, rest⟩
    · rw [dijkstraLoop_none edges dest fuel st hpop]
      exact ⟨p1, p3, p5⟩
    · have hmem : entry ∈ st.heap :=
        ((pop_spec _ _ _ hpop).2.mem_iff).mp (List.mem_cons_self _ _)
      have hrest : ∀ x ∈ rest, x ∈ st.heap := fun x hx =>
        ((pop_spec _ _ _ hpop).2.mem_iff).mp (List.mem_cons_of_mem _ hx)
      by_cases hstale : entry.node ∈ st.perm
      · rw [dijkstraLoop_stale edges dest fuel st entry rest hpop hstale]
        exact ih { st with heap := rest } p1 p2 p3 (fun x hx => p4 x (hrest x hx)) p5
      · -- facts for the extract state
        have e1 : ∀ v u, (extractState edges st entry rest).pmap v = some u →
            u ∈ (extractState edges st entry rest).perm := by
          intro v u hv
          rw [extractState_pmap] at hv
          rw [extractState_perm]
          exact List.mem_append_left _ (p1 v u hv)
        have e2 : (extractState edges st entry rest).perm.Nodup := by
          rw [extractState_perm]
          simp only [List.nodup_append, List.nodup_cons, List.not_mem_nil, not_false_iff,
            List.nodup_nil]
          refine ⟨p2, by simp, ?_⟩
          intro a ha hb
          have : a = entry.node := by simpa using hb
          subst this
          exact hstale ha
        have e3 : ∀ v, v ∈ (extractState edges st entry rest).perm → ∀ u,
            (extractState edges st entry rest).pmap v = some u →
            (extractState edges st entry rest).perm.indexOf u
              < (extractState edges st entry rest).perm.indexOf v := by
          intro v hv u hu
          rw [extractState_pmap] at hu
          rw [extractState_perm] at hv ⊢
          have hu' := p1 v u hu
          rw [List.indexOf_append_of_mem hu']
          rcases List.mem_append.mp hv with hvp | hvc
          · rw [List.indexOf_append_of_mem hvp]
            exact p3 v hvp u hu
          · have hvc' : v = entry.node := by simpa using hvc
            subst hvc'
            rw [List.indexOf_append_of_not_mem hstale]
            have := List.indexOf_lt_length.mpr hu'
            simp only [List.indexOf_cons_self]
            omega
        have e4 : ∀ x ∈ (extractState edges st entry rest).heap,
            x.node ∈ nodes.map Node.id := by
          intro x hx
          rw [extractState_heap] at hx
          exact p4 x (hrest x hx)
        have e5 : (extractState edges st entry rest).perm ⊆ nodes.map Node.id := by
          rw [extractState_perm]
          intro a ha
          rcases List.mem_append.mp ha with h | h
          · exact p5 h
          · have : a = entry.node := by simpa using h
            subst this
            exact p4 entry hmem
        rw [dijkstraLoop_fresh edges dest fuel st entry rest hpop hstale]
        by_cases hdest : entry.node = dest
        · rw [if_pos hdest]
          exact ⟨e1, e3, e5⟩
        · rw [if_neg hdest]
          have hcur : entry.node ∈ (extractState edges st entry rest).perm := by
            rw [extractState_perm]
            exact List.mem_append_right _ (by simp)
          obtain ⟨r1, r3, r4⟩ := relaxAll_recon nodes edges hwf entry.node
            ((st.perm ++ [entry.node]).map fun n => (n, st.dmap n)) (MinHeap.getAll rest)
            (neighborsOf edges entry.node) (extractState edges st entry rest)
            hcur (neighborsOf_mem edges entry.node) e1 e3 e4
          have hpermeq := relaxAll_perm_eq entry.node
            ((st.perm ++ [entry.node]).map fun n => (n, st.dmap n)) (MinHeap.getAll rest)
            (neighborsOf edges entry.node) (extractState edges st entry rest)
          refine ih _ r1 ?_ r3 r4 ?_
          · rw [hpermeq]
            exact e2
          · rw [hpermeq]
            exact e5

theorem dloop_stable (edges : List Edge) (dest : NodeId) :
    ∀ (fuel : ℕ) (st : DState), dMeasure edges st < fuel →
      ∀ extra, dijkstraLoop edges dest (fuel + extra) st = dijkstraLoop edges dest fuel st := by
  intro fuel
  induction fuel with
  | zero =>
    intro st h
    omega
  | succ fuel ih =>
    intro st h extra
    have harith : fuel + 1 + extra = (fuel + extra) + 1 := by omega
    rw [harith]
    rcases hpop : MinHeap.pop st.heap with _ | ⟨entry, rest⟩
    · rw [dijkstraLoop_none edges dest (fuel + extra) st hpop,
        dijkstraLoop_none edges dest fuel st hpop]
    · by_cases hstale : entry.node ∈ st.perm
      · rw [dijkstraLoop_stale edges dest (fuel + extra) st entry rest hpop hstale,
          dijkstraLoop_stale edges dest fuel st entry rest hpop hstale]
        refine ih _ ?_ extra
        have := pop_length st.heap entry rest hpop
        simp only [dMeasure] at h ⊢
        omega
      · rw [dijkstraLoop_fresh edges dest (fuel + extra) st entry rest hpop hstale,
          dijkstraLoop_fresh edges dest fuel st entry rest hpop hstale]
        by_cases hdest : entry.node = dest
        · rw [if_pos hdest, if_pos hdest]
        · rw [if_neg hdest, if_neg hdest]
          refine ih _ ?_ extra
          have := relax_measure edges st entry rest hpop hstale
            ((st.perm ++ [entry.node]).map fun n => (n, st.dmap n)) (MinHeap.getAll rest)
          omega

theorem bfScan_recon (nodes : List Node) (edges : List Edge) (source : NodeId)
    (hwf : EdgesWf nodes edges) (hnc : ¬ NegCycleReachable edges source) (iter : ℕ) :
    ∀ (l : List (ℕ × Edge)) (acc : BFState × Bool),
      (∀ p ∈ l, p.2 ∈ edges) →
      (∀ v, acc.1.dmap v ≠ ⊤ →
        ∃ es, IsWalk edges source es v ∧ acc.1.dmap v = (walkWeight es : DVal)) →
      (∀ x y, acc.1.pmap x = some y → ∃ e ∈ edges, e.fromId = y ∧ e.toId = x ∧
        acc.1.dmap y + (e.weight : DVal) ≤ acc.1.dmap x) →
      (∀ x n, 0 < n → pIterO acc.1.pmap n (some x) ≠ some x) →
      (∀ x y, (bfScan iter l acc).1.pmap x = some y → ∃ e ∈ edges, e.fromId = y ∧
        e.toId = x ∧ (bfScan iter l acc).1.dmap y + (e.weight : DVal)
          ≤ (bfScan iter l acc).1.dmap x) ∧
      (∀ x n, 0 < n → pIterO (bfScan iter l acc).1.pmap n (some x) ≠ some x)
  | [], acc, _, _, pe, pc => ⟨pe, pc⟩
  | (edgeIndex, edge) :: rest, (st, updated), hl, pr, pe, pc => by
    rw [bfScan]
    split
    · next hfin =>
      dsimp only
      split
      · next halt =>
        have hee : edge ∈ edges := hl (edgeIndex, edge) (List.mem_cons_self _ _)
        have hself : edge.fromId ≠ edge.toId := by
          rintro hself
          obtain ⟨W, hW, hWw⟩ := pr edge.fromId hfin
          refine hnc ⟨edge.fromId, W, [edge], hW, by simp, ?_, ?_⟩
          · rw [isWalk_cons, isWalk_nil]
            exact ⟨hee, rfl, hself.symm⟩
          · rw [walkWeight_cons, walkWeight_nil]
            rw [hself] at hfin halt
            lift st.dmap edge.toId to ℤ using hfin with d hd
            rw [← WithTop.coe_add, WithTop.coe_lt_coe] at halt
            omega
        refine bfScan_recon nodes edges source hwf hnc iter rest _
          (fun p hp => hl p (List.mem_cons_of_mem _ hp)) ?_ ?_ ?_
        · intro v hv
          dsimp only at hv ⊢
          rcases eq_or_ne v edge.toId with rfl | hne
          · rw [Function.update_same] at hv ⊢
            obtain ⟨W, hW, hWw⟩ := pr edge.fromId hfin
            refine ⟨W ++ [edge], ?_, ?_⟩
            · rw [walk_snoc]
              exact ⟨hW, hee, rfl⟩
            · rw [walkWeight_append, walkWeight_cons, walkWeight_nil, add_zero,
                WithTop.coe_add, hWw]
          · rw [Function.update_apply, if_neg hne] at hv ⊢
            exact pr v hv
        · intro x y hx
          dsimp only at hx ⊢
          rcases eq_or_ne x edge.toId with rfl | hne
          · rw [Function.update_same] at hx
            injection hx with hx
            subst hx
            refine ⟨edge, hee, rfl, rfl, ?_⟩
            rw [Function.update_same, Function.update_apply,
              if_neg (fun hcon => hself hcon)]
          · rw [Function.update_apply, if_neg hne] at hx
            obtain ⟨e, he, hef, het, hb⟩ := pe x y hx
            refine ⟨e, he, hef, het, ?_⟩
            have h2 : Function.update st.dmap edge.toId
                (st.dmap edge.fromId + (edge.weight : DVal)) y ≤ st.dmap y := by
              rw [Function.update_apply]
              split
              · next heq =>
                rw [heq]
                exact halt.le
              · exact le_refl _
            have h3 : Function.update st.dmap edge.toId
                (st.dmap edge.fromId + (edge.weight : DVal)) x = st.dmap x := by
              rw [Function.update_apply, if_neg (het ▸ hne)]
            rw [h3]
            exact le_trans (add_le_add_right h2 _) hb
        · refine update_no_cycle edges source hnc st.dmap st.pmap pr pe pc edge hee hfin halt
      · refine bfScan_recon nodes edges source hwf hnc iter rest _
          (fun p hp => hl p (List.mem_cons_of_mem _ hp)) ?_ ?_ ?_
        · exact pr
        · exact pe
        · exact pc
    · refine bfScan_recon nodes edges source hwf hnc iter rest _
        (fun p hp => hl p (List.mem_cons_of_mem _ hp)) ?_ ?_ ?_
      · exact pr
      · exact pe
      · exact pc

theorem bfPasses_recon (nodes : List Node) (edges : List Edge) (source : NodeId)
    (hwf : EdgesWf nodes edges) (hnc : ¬ NegCycleReachable edges source) :
    ∀ (k i : ℕ) (st : BFState),
      (∀ v, st.dmap v ≠ ⊤ →
        ∃ es, IsWalk edges source es v ∧ st.dmap v = (walkWeight es : DVal)) →
      (∀ x y, st.pmap x = some y → ∃ e ∈ edges, e.fromId = y ∧ e.toId = x ∧
        st.dmap y + (e.weight : DVal) ≤ st.dmap x) →
      (∀ x n, 0 < n → pIterO st.pmap n (some x) ≠ some x) →
      (∀ x y, (bfPasses edges k i st).pmap x = some y → ∃ e ∈ edges, e.fromId = y ∧
        e.toId = x ∧ (bfPasses edges k i st).dmap y + (e.weight : DVal)
          ≤ (bfPasses edges k i st).dmap x) ∧
      (∀ x n, 0 < n → pIterO (bfPasses edges k i st).pmap n (some x) ≠ some x) := by
  intro k
  induction k with
  | zero =>
    intro i st pr pe pc
    rw [bfPasses]
    exact ⟨pe, pc⟩
  | succ k ih =>
    intro i st pr pe pc
    rw [bfPasses]
    dsimp only
    obtain ⟨se, sc⟩ := bfScan_recon nodes edges source hwf hnc (i + 1) edges.enum
      ({ st with steps := st.steps ++
        [{ tag := .iterationStart, distances := st.dmap, previous := st.pmap,
           iteration := i + 1 }] }, false)
      (fun p hp => enum_mem edges 0 p hp) pr pe pc
    have sr := bfScan_reach edges source (i + 1) edges.enum
      ({ st with steps := st.steps ++
        [{ tag := .iterationStart, distances := st.dmap, previous := st.pmap,
           iteration := i + 1 }] }, false)
      (fun p hp => enum_mem edges 0 p hp) pr
    split
    · refine ih (i + 1) _ ?_ ?_ ?_
      · exact sr
      · exact se
      · exact sc
    · exact ⟨se, sc⟩

theorem const_none_no_cycle : ∀ (x : NodeId) (n : ℕ), 0 < n →
    pIterO (fun _ => (none : Option NodeId)) n (some x) ≠ some x := by
  intro x n hn
  rcases n with _ | m
  · omega
  · rw [pIterO_step]
    show pIterO _ m none ≠ some x
    rw [pIterO_bot]
    simp

/-- C10: both tracers terminate. The Dijkstra main loop is stable once its
fuel reaches `|E| + 2` (each round strictly shrinks the heap size plus the
count of unrelaxed edges, so only finitely many pops happen); the
predecessor map built by Dijkstra never contains a cycle and its
reconstruction walk from the destination falls off the map within
`|V| + 1` steps; and every `complete` step of the Bellman-Ford tracer
(there is none when a negative cycle is detected) has a cycle-free
predecessor map, a reconstruction that likewise terminates, and a
duplicate-free path. -/
theorem C10_termination (nodes : List Node) (edges : List Edge) (source dest : NodeId)
    (hwf : EdgesWf nodes edges) (hs : source ∈ nodes.map Node.id)
    (hd : dest ∈ nodes.map Node.id) :
    (∀ extra, dijkstraLoop edges dest (edges.length + 2 + extra)
        { dmap := initDmap source, pmap := fun _ => none, perm := [],
          heap := MinHeap.push [] source ((0 : ℤ) : DVal),
          steps := [{ tag := .init, distances := initDmap source,
                      previous := (fun _ => none),
                      tentative := [(source, ((0 : ℤ) : DVal))],
                      activeEdges := [] }] }
      = dijkstraRun nodes edges source dest) ∧
    (∀ x n, 0 < n →
      pIterO (dijkstraRun nodes edges source dest).pmap n (some x) ≠ some x) ∧
    pIterO (dijkstraRun nodes edges source dest).pmap (nodes.length + 1) (some dest)
      = none ∧
    (∀ S ∈ dijkstraSteps nodes edges source dest, S.tag = StepTag.complete →
      S.path.Nodup) ∧
    (∀ S ∈ bellmanFordSteps nodes edges source dest, S.tag = StepTag.complete →
      (∀ x n, 0 < n → pIterO S.previous n (some x) ≠ some x) ∧
      pIterO S.previous (nodes.length + 1) (some dest) = none ∧
      S.path.Nodup) := by
  have hlenmap : (nodes.map Node.id).length = nodes.length := List.length_map _ _
  have hrecon := dloop_recon nodes edges dest hwf (edges.length + 2)
    { dmap := initDmap source, pmap := fun _ => none, perm := [],
      heap := MinHeap.push [] source ((0 : ℤ) : DVal),
      steps := [{ tag := .init, distances := initDmap source,
                  previous := (fun _ => none),
                  tentative := [(source, ((0 : ℤ) : DVal))],
                  activeEdges := [] }] }
    (fun v u hv => absurd hv (by simp))
    (by simp)
    (fun v hv => absurd hv (List.not_mem_nil v))
    (by
      intro x hx
      rcases (mem_push [] source _ x).mp hx with h | rfl
      · exact absurd h (List.not_mem_nil x)
      · exact hs)
    (fun a ha => absurd ha (List.not_mem_nil a))
  rw [← dijkstraRun_eq nodes edges source dest] at hrecon
  obtain ⟨r1, r3, r5⟩ := hrecon
  have hnocyc := rank_no_cycle (dijkstraRun nodes edges source dest).perm
    (dijkstraRun nodes edges source dest).pmap r1 r3
  have hrange : ∀ v u, (dijkstraRun nodes edges source dest).pmap v = some u →
      u ∈ nodes.map Node.id := fun v u hv => r5 (r1 v u hv)
  refine ⟨?_, hnocyc, ?_, ?_, ?_⟩
  · intro extra
    rw [dijkstraRun_eq]
    exact dloop_stable edges dest (edges.length + 2) _ (by rw [init_measure]; omega) extra
  · rw [← hlenmap]
    exact pIterO_exhaust _ _ hrange hnocyc dest hd
  · intro S hS htag
    rw [dijkstraSteps_eq] at hS
    rcases List.mem_append.mp hS with h | h
    · rw [dijkstraRun_eq] at h
      rcases dloop_steps_tags edges dest (edges.length + 2) _ S h with h' | h' | h' | h'
      · rw [List.mem_singleton] at h'
        subst h'
        simp at htag
      · rw [h'] at htag
        exact absurd htag (by decide)
      · rw [h'] at htag
        exact absurd htag (by decide)
      · rw [h'] at htag
        exact absurd htag (by decide)
    · rw [List.mem_singleton] at h
      subst h
      rw [dijkstraCompleteStep_path]
      split
      · exact List.nodup_reverse.mpr (chainFrom_nodup _ hnocyc _ _)
      · exact List.nodup_nil
  · have htagsB := bfPasses_steps_tags edges (nodes.length - 1) 0
      { dmap := initDmap source, pmap := (fun _ => none),
        steps := [{ tag := .showEdges, distances := initDmap source,
                    previous := (fun _ => none), iteration := 0, edgesShown := edges },
                  { tag := .init, distances := initDmap source,
                    previous := (fun _ => none), iteration := 0 }] }
    have hnotloop : ∀ S ∈ (bfPasses edges (nodes.length - 1) 0
        { dmap := initDmap source, pmap := (fun _ => none),
          steps := [{ tag := .showEdges, distances := initDmap source,
                      previous := (fun _ => none), iteration := 0, edgesShown := edges },
                    { tag := .init, distances := initDmap source,
                      previous := (fun _ => none), iteration := 0 }] }).steps,
        S.tag ≠ StepTag.complete := by
      intro S hS
      rcases htagsB S hS with h | h | h | h | h | h
      · rcases List.mem_cons.mp h with h' | h'
        · subst h'
          simp
        · rcases List.mem_cons.mp h' with h'' | h''
          · subst h''
            simp
          · exact absurd h'' (List.not_mem_nil S)
      all_goals rw [h]; decide
    unfold bellmanFordSteps bellmanFordRun
    dsimp only
    intro S hS htag
    split at hS
    · dsimp only at hS
      rcases List.mem_append.mp hS with h | h
      · exact absurd htag (hnotloop S h)
      · rw [List.mem_singleton] at h
        subst h
        simp at htag
    · next hchk =>
      dsimp only at hS
      rcases List.mem_append.mp hS with h | h
      · exact absurd htag (hnotloop S h)
      · rw [List.mem_singleton] at h
        subst h
        have hchk' : (bfNegCheck edges (bfPasses edges (nodes.length - 1) 0
            { dmap := initDmap source, pmap := (fun _ => none),
              steps := [{ tag := .showEdges, distances := initDmap source,
                          previous := (fun _ => none), iteration := 0, edgesShown := edges },
                        { tag := .init, distances := initDmap source,
                          previous := (fun _ => none), iteration := 0 }] }).dmap).1
            = false := by
          simpa using hchk
        have hfix := (bfNegCheck_false_iff _ _).mp hchk'
        have hs0' : (bfPasses edges (nodes.length - 1) 0
            { dmap := initDmap source, pmap := (fun _ => none),
              steps := [{ tag := .showEdges, distances := initDmap source,
                          previous := (fun _ => none), iteration := 0, edgesShown := edges },
                        { tag := .init, distances := initDmap source,
                          previous := (fun _ => none), iteration := 0 }] }).dmap source
            ≤ ((0 : ℤ) : DVal) := by
          refine (bfPasses_dmap_le edges _ 0 _ source).trans ?_
          simp [initDmap]
        have hnc := negcycle_no_fix edges source _ hfix hs0'
        obtain ⟨se, sc⟩ := bfPasses_recon nodes edges source hwf hnc (nodes.length - 1) 0
          { dmap := initDmap source, pmap := (fun _ => none),
            steps := [{ tag := .showEdges, distances := initDmap source,
                        previous := (fun _ => none), iteration := 0, edgesShown := edges },
                      { tag := .init, distances := initDmap source,
                        previous := (fun _ => none), iteration := 0 }] }
          (initDmap_reach edges source)
          (fun x y hxy => absurd hxy (by simp))
          (const_none_no_cycle)
        have hrangeB : ∀ v u, (bfPasses edges (nodes.length - 1) 0
            { dmap := initDmap source, pmap := (fun _ => none),
              steps := [{ tag := .showEdges, distances := initDmap source,
                          previous := (fun _ => none), iteration := 0, edgesShown := edges },
                        { tag := .init, distances := initDmap source,
                          previous := (fun _ => none), iteration := 0 }] }).pmap v = some u →
            u ∈ nodes.map Node.id := by
          intro v u hv
          obtain ⟨e, he, hef, _, _⟩ := se v u hv
          rw [← hef]
          exact (hwf e he).1
        dsimp only
        refine ⟨sc, ?_, ?_⟩
        · have hex := pIterO_exhaust _ _ hrangeB sc dest hd
          rwa [hlenmap] at hex
        · split
          · exact List.nodup_reverse.mpr (chainFrom_nodup _ sc _ _)
          · exact List.nodup_nil

/-- Witness for C10 at the spec's Example 1 graph (source A, destination
B): hypotheses hold and the theorem applies. -/
theorem C10_termination_witness :
    EdgesWf [⟨"A"⟩, ⟨"B"⟩, ⟨"C"⟩] [(⟨"A","B",4⟩ : Edge), ⟨"A","C",1⟩, ⟨"C","B",1⟩] ∧
    "A" ∈ ([⟨"A"⟩, ⟨"B"⟩, ⟨"C"⟩] : List Node).map Node.id ∧
    "B" ∈ ([⟨"A"⟩, ⟨"B"⟩, ⟨"C"⟩] : List Node).map Node.id ∧
    ((∀ extra, dijkstraLoop [(⟨"A","B",4⟩ : Edge), ⟨"A","C",1⟩, ⟨"C","B",1⟩] "B"
        ([(⟨"A","B",4⟩ : Edge), ⟨"A","C",1⟩, ⟨"C","B",1⟩].length + 2 + extra)
        { dmap := initDmap "A", pmap := fun _ => none, perm := [],
          heap := MinHeap.push [] "A" ((0 : ℤ) : DVal),
          steps := [{ tag := .init, distances := initDmap "A",
                      previous := (fun _ => none),
                      tentative := [("A", ((0 : ℤ) : DVal))],
                      activeEdges := [] }] }
      = dijkstraRun [⟨"A"⟩, ⟨"B"⟩, ⟨"C"⟩] [(⟨"A","B",4⟩ : Edge), ⟨"A","C",1⟩, ⟨"C","B",1⟩]
          "A" "B") ∧
    (∀ x n, 0 < n →
      pIterO (dijkstraRun [⟨"A"⟩, ⟨"B"⟩, ⟨"C"⟩]
        [(⟨"A","B",4⟩ : Edge), ⟨"A","C",1⟩, ⟨"C","B",1⟩] "A" "B").pmap n (some x) ≠ some x) ∧
    pIterO (dijkstraRun [⟨"A"⟩, ⟨"B"⟩, ⟨"C"⟩]
        [(⟨"A","B",4⟩ : Edge), ⟨"A","C",1⟩, ⟨"C","B",1⟩] "A" "B").pmap
        (([⟨"A"⟩, ⟨"B"⟩, ⟨"C"⟩] : List Node).length + 1) (some "B") = none ∧
    (∀ S ∈ dijkstraSteps [⟨"A"⟩, ⟨"B"⟩, ⟨"C"⟩]
        [(⟨"A","B",4⟩ : Edge), ⟨"A","C",1⟩, ⟨"C","B",1⟩] "A" "B",
      S.tag = StepTag.complete → S.path.Nodup) ∧
    (∀ S ∈ bellmanFordSteps [⟨"A"⟩, ⟨"B"⟩, ⟨"C"⟩]
        [(⟨"A","B",4⟩ : Edge), ⟨"A","C",1⟩, ⟨"C","B",1⟩] "A" "B",
      S.tag = StepTag.complete →
      (∀ x n, 0 < n → pIterO S.previous n (some x) ≠ some x) ∧
      pIterO S.previous (([⟨"A"⟩, ⟨"B"⟩, ⟨"C"⟩] : List Node).length + 1) (some "B") = none ∧
      S.path.Nodup)) :=
  ⟨by unfold EdgesWf; decide, by decide, by decide,
    C10_termination [⟨"A"⟩, ⟨"B"⟩, ⟨"C"⟩] [⟨"A","B",4⟩, ⟨"A","C",1⟩, ⟨"C","B",1⟩] "A" "B"
      (by unfold EdgesWf; decide) (by decide) (by decide)⟩
